import Mathlib

/-!
# mkmimo: the nonblocking event loop

A shallow embedding of `mkmimo_nonblocking.c` and of the endpoint records and the
`SET_FLAG` shorthand of `mkmimo.h`.

* C `int`s are `Int`; every value the loop computes lies between `-1` and a buffer
  capacity, so no wraparound is modelled.
* The flags `is_closed`, `is_readable`, ... are `int`s that only ever receive `!!e`, `0`
  or `1`; they are `Bool` here.
* An endpoint array and its length (`inputs`/`num_inputs`, `outputs`/`num_outputs`) are
  one list; `num_inputs` and `num_outputs` are the list lengths.
* A `Buffer *` owned by an endpoint is the buffer value itself: no buffer is ever shared,
  so swapping two pointers is swapping two values.
* The operating system is an oracle: every stage receives the answers of the system calls
  it makes, and returns the list of system calls it made, in order.
* A byte is a `Nat`; the record separator `'\n'` is `10`.
* A loop `for (i = 0; i < n; ++i)` whose pass `i` works on entry `i` of an array (reader,
  writer, exchange) is a recursion over the list of entries; the loops that address other
  entries (compaction, readiness update) are recursions over the index.
* `buffer.h`, `mkmimo_nonblocking.h` and the caller of `mkmimo_nonblocking` are not among
  the sources; what is needed of them is modelled from the specification and marked so.
-/

namespace Mkmimo

/-! ## The buffer primitive (`buffer.h`, an external collaborator) -/

/-- Modelled from the spec: the `Buffer` record of `buffer.h`, which is not part of the
sources at hand; its fields are the ones `mkmimo_nonblocking.c` uses
(`data`, `capacity`, `begin`, `size`, `end_of_last_record`). `data` is the memory the
pointer refers to, addressed by byte offset. -/
structure Buffer where
  data : Int → Nat
  capacity : Int
  begin : Int
  size : Int
  end_of_last_record : Int

/-- The `n` bytes of a memory region starting at offset `start`. -/
def bytes_at (data : Int → Nat) (start : Int) (n : Int) : List Nat :=
  (List.range n.toNat).map (fun (k : Nat) => data (start + (k : Int)))

/-- The bytes a buffer holds: `data[begin .. begin + size)`. -/
def Buffer.contents (b : Buffer) : List Nat :=
  bytes_at b.data b.begin b.size

/-- Modelled from the spec: `new_buffer()` of `buffer.h` (absent) gives a buffer "with some
initial capacity, `size = 0`, `begin = 0`, `end_of_last_record = -1`". -/
def new_buffer (initial_capacity : Nat) : Buffer :=
  { data := fun _ => 0, capacity := initial_capacity, begin := 0, size := 0,
    end_of_last_record := -1 }

/-- Modelled from the spec: `enlarge_buffer(buf, new_capacity)` of `buffer.h` (absent)
"preserves `data[begin..begin+size)` and `end_of_last_record`"; the capacity becomes
`new_capacity`. -/
def enlarge_buffer (buf : Buffer) (new_capacity : Int) : Buffer :=
  { buf with capacity := new_capacity }

/-- Modelled from the spec: `move_trailing_data_after_last_record(dst, src)` of `buffer.h`
(absent) "moves bytes strictly after `end_of_last_record` from src to dst, updating src's
`size` and dst's `size` accordingly, with dst starting empty". The bytes are appended at
`dst.begin + dst.size` (the front of an empty `dst`). The spec gives every `Buffer` the
invariant `begin + size ≤ capacity` and growth as the buffer's own operation, so `dst` is
enlarged when the moved bytes would not fit. Returns `(dst, src)`. -/
def move_trailing_data_after_last_record (dst src : Buffer) : Buffer × Buffer :=
  let trailing_begin := src.end_of_last_record + 1
  let trailing_size := src.begin + src.size - trailing_begin
  if 0 < trailing_size then
    let at_ := dst.begin + dst.size
    let room := if dst.capacity < at_ + trailing_size
      then enlarge_buffer dst (at_ + trailing_size) else dst
    ({ room with
        data := fun j => if at_ ≤ j ∧ j < at_ + trailing_size
          then src.data (trailing_begin + (j - at_)) else dst.data j
        size := dst.size + trailing_size },
     { src with size := src.size - trailing_size })
  else (dst, src)

/-! ## Endpoints (`mkmimo.h`) -/

/-- An input endpoint: `struct input`. -/
structure Input where
  fd : Int
  name : String
  buffer : Buffer
  is_closed : Bool
  is_near_eof : Bool
  is_readable : Bool
  is_buffered : Bool

/-- The set of inputs: `Inputs`; `num_inputs` is the length of `inputs`. -/
structure Inputs where
  inputs : List Input
  last_closed : Int
  num_closed : Int
  num_readable : Int
  num_buffered : Int

/-- An output endpoint: `struct output`. -/
structure Output where
  fd : Int
  name : String
  buffer : Buffer
  is_closed : Bool
  is_writable : Bool
  is_busy : Bool

/-- The set of outputs: `Outputs`; `num_outputs` is the length of `outputs`. -/
structure Outputs where
  outputs : List Output
  last_closed : Int
  next_output : Int
  num_closed : Int
  num_writable : Int
  num_busy : Int

/-- The field `num_inputs`. -/
def Inputs.num_inputs (s : Inputs) : Int := s.inputs.length

/-- The field `num_outputs`. -/
def Outputs.num_outputs (s : Outputs) : Int := s.outputs.length

/-- The shorthand `SET_FLAG(items, item, flag, flag_val)`: given the flag `is_flag` of the
item and the counter `num_flag` of the set, the new flag and the new counter. -/
def SET_FLAG (is_flag : Bool) (num_flag : Int) (flag_val : Bool) : Bool × Int :=
  if is_flag != flag_val then
    (flag_val, if flag_val then num_flag + 1 else num_flag - 1)
  else (is_flag, num_flag)

/-! ## The operating system -/

/-- The event bits of `poll(2)` that the loop requests or tests. -/
structure Events where
  pollin : Bool
  pollout : Bool
  pollhup : Bool
deriving DecidableEq

/-- One entry of the array handed to `poll(2)`: `struct pollfd` before the call. -/
structure PollFd where
  fd : Int
  events : Events
deriving DecidableEq

/-- What a `read(2)` can answer: some bytes (none at all is end of file), or failure with
`EAGAIN`, or failure with another error. -/
inductive ReadResult
  | data (bytes : List Nat)
  | eagain
  | error
deriving DecidableEq

/-- What a `write(2)` can answer: up to `n` bytes accepted, or failure with `EAGAIN`, or
failure with another error. -/
inductive WriteResult
  | accepted (n : Nat)
  | eagain
  | error
deriving DecidableEq

/-- A system call the loop made, with what the call returned. -/
inductive Syscall
  | poll (fds : List PollFd) (num_events : Int)
  | nanosleep
  | read (fd : Int) (count : Int) (num_bytes_read : Int) (bytes : List Nat)
  | write (fd : Int) (bytes : List Nat) (num_bytes_written : Int)
  | close (fd : Int)
deriving DecidableEq

/-- The outcome of `read(fd, data + offset, count)`. -/
structure ReadReturn where
  num_bytes_read : Int
  errno_is_EAGAIN : Bool
  bytes : List Nat
  data : Int → Nat

/-- The call `read(fd, data + offset, count)`: at most `count` of the bytes on offer are
stored from `offset` on. -/
def sys_read (r : ReadResult) (data : Int → Nat) (offset count : Int) : ReadReturn :=
  match r with
  | .data bytes =>
    let got := bytes.take count.toNat
    { num_bytes_read := got.length, errno_is_EAGAIN := false, bytes := got
      data := fun j => if offset ≤ j ∧ j < offset + got.length
        then got.getD (j - offset).toNat 0 else data j }
  | .eagain => { num_bytes_read := -1, errno_is_EAGAIN := true, bytes := [], data := data }
  | .error => { num_bytes_read := -1, errno_is_EAGAIN := false, bytes := [], data := data }

/-- The outcome of `write(fd, data + begin, count)`: the return value and whether `errno`
is `EAGAIN`. -/
def sys_write (w : WriteResult) (count : Int) : Int × Bool :=
  match w with
  | .accepted n => (min (n : Int) count, false)
  | .eagain => (-1, true)
  | .error => (-1, false)

/-- The answers of the operating system during one stage of the loop: the return value of
`poll` and the `revents` of each polled entry, the answer to the `k`-th read attempt on
the `i`-th input, and the answer to the write on the `i`-th output. -/
structure Oracle where
  num_events : Int
  revents : Nat → Events
  rd : Nat → Nat → ReadResult
  wr : Nat → WriteResult

/-! ## Reader stage: `read_from_available` -/

/-- One iteration of the reader's loop over the inputs: the input it works on, the two
counters `SET` may change, the local `scan_end_of_record_down_to`, and the system calls
made so far. -/
structure ReadIter where
  input : Input
  num_closed : Int
  num_buffered : Int
  scan_end_of_record_down_to : Int
  log : List Syscall

/-- The loop `for (j = ...; j >= scan_end_of_record_down_to; --j)` that looks for the
last record separator: `n` offsets are examined, from `j` downwards; the result is the
offset the loop stored into `end_of_last_record` before `break`, if any. -/
def scan_end_of_record (data : Int → Nat) : Nat → Int → Option Int
  | 0, _ => none
  | n + 1, j => if data j = 10 then some j else scan_end_of_record data n (j - 1)

/-- The scan for the last record separator, as it acts on the buffer: the offsets from
`begin + size - 1` down to `scan_end_of_record_down_to` are examined, and the first
separator met becomes `end_of_last_record`. -/
def scan_buffer (buf : Buffer) (scan_end_of_record_down_to : Int) : Buffer :=
  match scan_end_of_record buf.data
      (buf.begin + buf.size - scan_end_of_record_down_to).toNat (buf.begin + buf.size - 1) with
  | some j => { buf with end_of_last_record := j }
  | none => buf

/-- The rest of a pass of the reader's inner loop after a `read` that returned
`num_bytes_read > 0`: the size grows, the new bytes are scanned for the last separator,
and the input becomes buffered, or its full buffer without a record is doubled. -/
def after_read (r : ReadReturn) (it : ReadIter) : ReadIter :=
  let buf := it.input.buffer
  let buf1 := { buf with data := r.data, size := buf.size + r.num_bytes_read }
  let buf2 := scan_buffer buf1 it.scan_end_of_record_down_to
  if buf2.end_of_last_record > -1 then
    let b := SET_FLAG it.input.is_buffered it.num_buffered true
    { it with input := { it.input with buffer := buf2, is_buffered := b.1 },
              num_buffered := b.2 }
  else if !it.input.is_closed && buf2.size == buf2.capacity then
    let buf3 := enlarge_buffer buf2 (buf2.capacity * 2)
    { it with input := { it.input with buffer := buf3 },
              scan_end_of_record_down_to := buf3.begin + buf3.size }
  else
    { it with input := { it.input with buffer := buf2 } }

/-- The input is closed: `close(input->fd); SET(input, closed, 1);`. -/
def close_input (it : ReadIter) : ReadIter :=
  let c := SET_FLAG it.input.is_closed it.num_closed true
  { it with input := { it.input with is_closed := c.1 }, num_closed := c.2,
            log := it.log ++ [Syscall.close it.input.fd] }

/-- The loop `for (num_reads = ...; num_reads > 0; --num_reads)` of the reader: `rd k` is
the answer to the read attempted in the `k`-th pass. -/
def read_attempts (rd : Nat → ReadResult) : Nat → Nat → ReadIter → ReadIter
  | 0, _, it => it
  | num_reads + 1, k, it =>
    let buf := it.input.buffer
    let num_bytes_readable := buf.capacity - buf.size
    if num_bytes_readable ≤ 0 then read_attempts rd num_reads (k + 1) it
    else
      let r := sys_read (rd k) buf.data (buf.begin + buf.size) num_bytes_readable
      let it1 := { it with log := it.log ++
        [Syscall.read it.input.fd num_bytes_readable r.num_bytes_read r.bytes] }
      if r.num_bytes_read < 0 then
        if r.errno_is_EAGAIN then it1
        else close_input it1
      else if r.num_bytes_read = 0 then close_input it1
      else read_attempts rd num_reads (k + 1) (after_read r it1)

/-- The body of the reader's loop over the inputs, for one input. -/
def read_from_input (rd : Nat → ReadResult) (input : Input) (num_closed num_buffered : Int) :
    ReadIter :=
  let skip : ReadIter :=
    { input := input, num_closed := num_closed, num_buffered := num_buffered,
      scan_end_of_record_down_to := input.buffer.end_of_last_record + 1, log := [] }
  if input.is_closed then skip
  else if !input.is_readable then skip
  else if input.buffer.size == input.buffer.capacity then skip
  else read_attempts rd (if input.is_near_eof then 2 else 1) 0 skip

/-- What a stage leaves of the inputs: the array, the counters `num_closed` and
`num_buffered`, and the system calls made. -/
structure ReadLoop where
  inputs : List Input
  num_closed : Int
  num_buffered : Int
  log : List Syscall

/-- The loop `for (i = 0; i < num_inputs; ++i)` of the reader, over the inputs from
index `i` on: every pass works on `inputs[i]` and on the counters only. -/
def read_inputs (rd : Nat → Nat → ReadResult) :
    Nat → List Input → Int → Int → ReadLoop
  | _, [], num_closed, num_buffered =>
    { inputs := [], num_closed := num_closed, num_buffered := num_buffered, log := [] }
  | i, input :: rest, num_closed, num_buffered =>
    let it := read_from_input (rd i) input num_closed num_buffered
    let r := read_inputs rd (i + 1) rest it.num_closed it.num_buffered
    { r with inputs := it.input :: r.inputs, log := it.log ++ r.log }

/-- The function `read_from_available`: the value returned, the inputs afterwards, and the
system calls made. -/
def read_from_available (rd : Nat → Nat → ReadResult) (inputs : Inputs) :
    Int × Inputs × List Syscall :=
  if inputs.num_readable > 0 then
    let r := read_inputs rd 0 inputs.inputs inputs.num_closed inputs.num_buffered
    (r.num_buffered,
     { inputs with inputs := r.inputs, num_closed := r.num_closed,
                   num_buffered := r.num_buffered },
     r.log)
  else (inputs.num_buffered, inputs, [])

/-! ## Writer stage: `write_to_available` -/

/-- One iteration of the writer's loop over the outputs: the output it works on, the two
counters `SET` may change, and the system calls made. -/
structure WriteIter where
  output : Output
  num_closed : Int
  num_busy : Int
  log : List Syscall

/-- The body of the writer's loop over the outputs, for one output. -/
def write_to_output (w : WriteResult) (output : Output) (num_closed num_busy : Int) :
    WriteIter :=
  let skip : WriteIter :=
    { output := output, num_closed := num_closed, num_busy := num_busy, log := [] }
  if !output.is_busy then skip
  else if !output.is_writable then skip
  else
    let buf := output.buffer
    let num_bytes_writable := buf.size
    if num_bytes_writable ≤ 0 then
      let b := SET_FLAG output.is_busy num_busy false
      { skip with output := { output with is_busy := b.1 }, num_busy := b.2 }
    else
      let r := sys_write w num_bytes_writable
      let num_bytes_written := r.1
      let log := [Syscall.write output.fd (bytes_at buf.data buf.begin num_bytes_writable)
        num_bytes_written]
      if num_bytes_written ≥ 0 then
        let buf1 := { buf with begin := buf.begin + num_bytes_written,
                               size := buf.size - num_bytes_written }
        let b := SET_FLAG output.is_busy num_busy (if buf1.size = 0 then false else true)
        { output := { output with buffer := buf1, is_busy := b.1 },
          num_closed := num_closed, num_busy := b.2, log := log }
      else if r.2 then
        let b := SET_FLAG output.is_busy num_busy true
        { output := { output with is_busy := b.1 },
          num_closed := num_closed, num_busy := b.2, log := log }
      else
        let c := SET_FLAG output.is_closed num_closed true
        { output := { output with is_closed := c.1 },
          num_closed := c.2, num_busy := num_busy,
          log := log ++ [Syscall.close output.fd] }

/-- What the writer's loop leaves of the outputs: the array, the counters `num_closed`
and `num_busy`, and the system calls made. -/
structure WriteLoop where
  outputs : List Output
  num_closed : Int
  num_busy : Int
  log : List Syscall

/-- The loop `for (i = 0; i < num_outputs; ++i)` of the writer, over the outputs from
index `i` on: every pass works on `outputs[i]` and on the counters only. -/
def write_outputs (wr : Nat → WriteResult) :
    Nat → List Output → Int → Int → WriteLoop
  | _, [], num_closed, num_busy =>
    { outputs := [], num_closed := num_closed, num_busy := num_busy, log := [] }
  | i, output :: rest, num_closed, num_busy =>
    let it := write_to_output (wr i) output num_closed num_busy
    let r := write_outputs wr (i + 1) rest it.num_closed it.num_busy
    { r with outputs := it.output :: r.outputs, log := it.log ++ r.log }

/-- The function `write_to_available`: the value returned, the outputs afterwards, and the
system calls made. -/
def write_to_available (wr : Nat → WriteResult) (outputs : Outputs) :
    Int × Outputs × List Syscall :=
  if outputs.num_writable > 0 then
    let r := write_outputs wr 0 outputs.outputs outputs.num_closed outputs.num_busy
    (r.num_busy,
     { outputs with outputs := r.outputs, num_closed := r.num_closed,
                    num_busy := r.num_busy },
     r.log)
  else (outputs.num_busy, outputs, [])

/-! ## Exchange stage: `exchange_buffered_records` -/

/-- The loop `for (j = 0; j < num_outputs; ++j)` that looks for an output that is not
busy: `n` probes are left; every probe reads `outputs[next_output]` and advances the
cursor modulo `num_outputs`. The result is the outputs with the cursor where the loop left
it and, when an idle output was found, its index and the output. A cursor outside the array
(which C leaves undefined) is passed over. -/
def find_idle_output : Nat → Outputs → Outputs × Option (Nat × Output)
  | 0, o => (o, none)
  | n + 1, o =>
    let o1 := { o with next_output := (o.next_output + 1).tmod o.num_outputs }
    match o.outputs[o.next_output.toNat]? with
    | none => find_idle_output n o1
    | some out =>
      if out.is_busy then find_idle_output n o1 else (o1, some (o.next_output.toNat, out))

/-- The swap of the two buffers, the reset of the buffer the input now holds, and
`move_trailing_data_after_last_record(input->buffer, output->buffer)`. -/
def swap_buffers (input : Input) (output : Output) : Input × Output :=
  let buf := input.buffer
  let input1 := { input with buffer := output.buffer }
  let output1 := { output with buffer := buf }
  let input2 := { input1 with
    buffer := { input1.buffer with size := 0, begin := 0, end_of_last_record := -1 } }
  let m := move_trailing_data_after_last_record input2.buffer output1.buffer
  ({ input2 with buffer := m.1 }, { output1 with buffer := m.2 })

/-- The end of a pass of the exchange's loop for the input `input` and the idle output
`output = outputs[k]`: the buffers are swapped, `SET(input, buffered, 0)`,
`SET(output, busy, 1)`. The result is the input, `inputs->num_buffered` and the outputs. -/
def pair_up (input : Input) (num_buffered : Int) (o : Outputs) (k : Nat) (output : Output) :
    Input × Int × Outputs :=
  let p := swap_buffers input output
  let b := SET_FLAG p.1.is_buffered num_buffered false
  let y := SET_FLAG p.2.is_busy o.num_busy true
  ({ p.1 with is_buffered := b.1 }, b.2,
   { o with outputs := o.outputs.set k { p.2 with is_busy := y.1 }, num_busy := y.2 })

/-- What the exchange's loop leaves: the inputs and `inputs->num_buffered`, the outputs,
the number of exchanges, and the pairs (index of the input, index of the output) it routed,
which the source reports in its "routing" debug line. -/
structure Exchanged where
  inputs : List Input
  num_buffered : Int
  outputs : Outputs
  num_exchanges : Int
  routed : List (Nat × Nat)

/-- The loop `for (i = 0; i < num_inputs; ++i)` of the exchange, over the inputs from
index `i` on. `num_exchanges` is the number of passes that reached `++num_exchanges`. -/
def exchange_inputs : Nat → List Input → Int → Outputs → Exchanged
  | _, [], num_buffered, o =>
    { inputs := [], num_buffered := num_buffered, outputs := o, num_exchanges := 0,
      routed := [] }
  | i, input :: rest, num_buffered, o =>
    if num_buffered ≤ 0 then
      { inputs := input :: rest, num_buffered := num_buffered, outputs := o,
        num_exchanges := 0, routed := [] }
    else if o.num_busy = o.num_outputs - o.num_closed then
      { inputs := input :: rest, num_buffered := num_buffered, outputs := o,
        num_exchanges := 0, routed := [] }
    else if !input.is_buffered then
      let r := exchange_inputs (i + 1) rest num_buffered o
      { r with inputs := input :: r.inputs }
    else
      let found := find_idle_output o.outputs.length o
      match found.2 with
      | none =>
        let r := exchange_inputs (i + 1) rest num_buffered found.1
        { r with inputs := input :: r.inputs }
      | some (k, output) =>
        let q := pair_up input num_buffered found.1 k output
        let r := exchange_inputs (i + 1) rest q.2.1 q.2.2
        { r with inputs := q.1 :: r.inputs,
                 num_exchanges := r.num_exchanges + 1, routed := (i, k) :: r.routed }

/-- The function `exchange_buffered_records`: the value returned (`num_exchanges`), the
inputs and outputs afterwards, and the pairs routed. -/
def exchange_buffered_records (inputs : Inputs) (outputs : Outputs) :
    Int × Inputs × Outputs × List (Nat × Nat) :=
  let r := exchange_inputs 0 inputs.inputs inputs.num_buffered outputs
  (r.num_exchanges, { inputs with inputs := r.inputs, num_buffered := r.num_buffered },
   r.outputs, r.routed)

/-! ## Readiness poller: `records_are_flowing_between` -/

/-- The loop `while (j > i && items[j].is_closed) --j;` of the compaction, with `n` passes
left. -/
def last_not_closed {α : Type} (is_closed : α → Bool) (items : List α) (i : Int) :
    Nat → Int → Int
  | 0, j => j
  | n + 1, j =>
    match items[j.toNat]? with
    | none => j
    | some item =>
      if j > i ∧ is_closed item = true then last_not_closed is_closed items i n (j - 1)
      else j

/-- The loop `for (i = 0; i < last_closed; ++i)` of the compaction, which the source
writes once for the inputs (clearing `is_readable`) and once for the outputs (clearing
`is_writable`): `n` passes are left; the result is the array and `last_closed`. -/
def move_closed_to_the_end {α : Type} (is_closed : α → Bool) (clear : α → α) :
    Nat → Nat → List α → Int → List α × Int
  | 0, _, items, last_closed => (items, last_closed)
  | n + 1, i, items, last_closed =>
    if (i : Int) < last_closed then
      match items[i]? with
      | none => (items, last_closed)
      | some item =>
        if !is_closed item then move_closed_to_the_end is_closed clear n (i + 1) items last_closed
        else
          let tmp := clear item
          let items1 := items.set i tmp
          let j := last_not_closed is_closed items1 i (last_closed - 1 - i).toNat
            (last_closed - 1)
          if j ≤ i then (items1, j)
          else
            match items1[j.toNat]? with
            | none => (items1, j)
            | some other =>
              move_closed_to_the_end is_closed clear n (i + 1)
                ((items1.set i other).set j.toNat tmp) j
    else (items, last_closed)

/-- The function `move_closed_inputs_outputs_to_the_end`. -/
def move_closed_inputs_outputs_to_the_end (inputs : Inputs) (outputs : Outputs) :
    Inputs × Outputs :=
  let inputs1 :=
    if inputs.num_inputs - inputs.last_closed < inputs.num_closed then
      let r := move_closed_to_the_end Input.is_closed
        (fun input => { input with is_readable := false })
        inputs.last_closed.toNat 0 inputs.inputs inputs.last_closed
      { inputs with inputs := r.1, last_closed := r.2 }
    else inputs
  let outputs1 :=
    if outputs.num_outputs - outputs.last_closed < outputs.num_closed then
      let r := move_closed_to_the_end Output.is_closed
        (fun output => { output with is_writable := false })
        outputs.last_closed.toNat 0 outputs.outputs outputs.last_closed
      { outputs with outputs := r.1, last_closed := r.2 }
    else outputs
  (inputs1, outputs1)

/-- The function-local statics of `records_are_flowing_between`: whether `fds` is still
`NULL`, and `num_inputs_outputs`. -/
structure PollStatic where
  fds_is_null : Bool
  num_inputs_outputs : Int

/-- The entry `fds[i]` the poller sets up: an input is polled for `POLLIN`, an output for
`POLLOUT` when it is busy and for nothing otherwise. -/
def poll_entry (inputs : Inputs) (outputs : Outputs) (num_inputs_to_poll : Int) (i : Nat) :
    PollFd :=
  if (i : Int) < num_inputs_to_poll then
    match inputs.inputs[i]? with
    | some input => { fd := input.fd, events := ⟨true, false, false⟩ }
    | none => { fd := 0, events := ⟨true, false, false⟩ }
  else
    match outputs.outputs[((i : Int) - num_inputs_to_poll).toNat]? with
    | some output => { fd := output.fd, events := ⟨false, output.is_busy, false⟩ }
    | none => { fd := 0, events := ⟨false, false, false⟩ }

/-- The loop that updates the readiness flags after `poll` reported events: `n` passes are
left, `i` is the index into `fds`. -/
def update_readiness (revents : Nat → Events) (num_inputs_to_poll : Int) :
    Nat → Nat → Inputs → Outputs → Inputs × Outputs
  | 0, _, inputs, outputs => (inputs, outputs)
  | n + 1, i, inputs, outputs =>
    if (i : Int) < num_inputs_to_poll then
      match inputs.inputs[i]? with
      | none => update_readiness revents num_inputs_to_poll n (i + 1) inputs outputs
      | some input =>
        let readable := (revents i).pollin || (revents i).pollhup
        let input1 := { input with is_readable := readable, is_near_eof := (revents i).pollhup }
        update_readiness revents num_inputs_to_poll n (i + 1)
          { inputs with inputs := inputs.inputs.set i input1,
                        num_readable := if readable then inputs.num_readable + 1
                                        else inputs.num_readable }
          outputs
    else
      let k := ((i : Int) - num_inputs_to_poll).toNat
      match outputs.outputs[k]? with
      | none => update_readiness revents num_inputs_to_poll n (i + 1) inputs outputs
      | some output =>
        let writable := !output.is_busy || ((revents i).pollout || (revents i).pollhup)
        update_readiness revents num_inputs_to_poll n (i + 1) inputs
          { outputs with outputs := outputs.outputs.set k { output with is_writable := writable },
                         num_writable := if writable then outputs.num_writable + 1
                                         else outputs.num_writable }

/-- The loop that marks every polled endpoint ready after `poll` timed out. -/
def mark_all_ready (num_inputs_to_poll : Int) :
    Nat → Nat → Inputs → Outputs → Inputs × Outputs
  | 0, _, inputs, outputs => (inputs, outputs)
  | n + 1, i, inputs, outputs =>
    if (i : Int) < num_inputs_to_poll then
      match inputs.inputs[i]? with
      | none => mark_all_ready num_inputs_to_poll n (i + 1) inputs outputs
      | some input =>
        mark_all_ready num_inputs_to_poll n (i + 1)
          { inputs with
              inputs := inputs.inputs.set i { input with is_readable := true, is_near_eof := false },
              num_readable := inputs.num_readable + 1 }
          outputs
    else
      let k := ((i : Int) - num_inputs_to_poll).toNat
      match outputs.outputs[k]? with
      | none => mark_all_ready num_inputs_to_poll n (i + 1) inputs outputs
      | some output =>
        mark_all_ready num_inputs_to_poll n (i + 1) inputs
          { outputs with outputs := outputs.outputs.set k { output with is_writable := true },
                         num_writable := outputs.num_writable + 1 }

/-- What `records_are_flowing_between` returns and leaves. -/
structure Flow where
  ret : Int
  statics : PollStatic
  inputs : Inputs
  outputs : Outputs
  log : List Syscall

/-- The statics after `if (fds == NULL) { num_inputs_outputs = ...; fds = calloc(...); }`. -/
def allocate_fds (statics : PollStatic) (inputs : Inputs) (outputs : Outputs) : PollStatic :=
  if statics.fds_is_null then
    { fds_is_null := false, num_inputs_outputs := inputs.num_inputs + outputs.num_outputs }
  else statics

/-- What the poller does once `poll` has returned `num_events`: the value it returns, the
endpoint sets, and the system calls made after `poll`. -/
def handle_events (num_events : Int) (revents : Nat → Events)
    (num_inputs_to_poll num_fds_to_poll : Int) (inputs : Inputs) (outputs : Outputs) :
    Int × Inputs × Outputs × List Syscall :=
  if num_events < 0 then (0, inputs, outputs, [])
  else if num_events > 0 then
    let u := update_readiness revents num_inputs_to_poll num_fds_to_poll.toNat 0 inputs outputs
    (1, u.1, u.2,
     if u.1.num_readable + u.2.num_writable = 0 ∨
        u.2.num_busy = u.2.num_outputs - u.2.num_closed
     then [Syscall.nanosleep] else [])
  else
    let u := mark_all_ready num_inputs_to_poll num_fds_to_poll.toNat 0 inputs outputs
    (1, u.1, u.2, [])

/-- The function `records_are_flowing_between`: `num_events` and `revents` are what
`poll` answers when it is called. -/
def records_are_flowing_between (num_events : Int) (revents : Nat → Events)
    (statics : PollStatic) (inputs : Inputs) (outputs : Outputs) : Flow :=
  if inputs.num_closed = inputs.num_inputs ∧ inputs.num_buffered = 0 ∧ outputs.num_busy = 0 then
    { ret := 0, statics := statics, inputs := inputs, outputs := outputs, log := [] }
  else
    let statics1 := allocate_fds statics inputs outputs
    let moved := move_closed_inputs_outputs_to_the_end inputs outputs
    let inputs1 := moved.1
    let outputs1 := moved.2
    let num_fds_to_poll := statics1.num_inputs_outputs - inputs1.num_closed - outputs1.num_closed
    let num_inputs_to_poll := inputs1.num_inputs - inputs1.num_closed
    if num_fds_to_poll = 0 then
      { ret := 0, statics := statics1, inputs := inputs1, outputs := outputs1, log := [] }
    else
      let fds := (List.range num_fds_to_poll.toNat).map
        (poll_entry inputs1 outputs1 num_inputs_to_poll)
      let h := handle_events num_events revents num_inputs_to_poll num_fds_to_poll
        { inputs1 with num_readable := 0 } { outputs1 with num_writable := 0 }
      { ret := h.1, statics := statics1, inputs := h.2.1, outputs := h.2.2.1,
        log := Syscall.poll fds num_events :: h.2.2.2 }

/-! ## Loop driver: `mkmimo_nonblocking` -/

/-- Where the loop of `mkmimo_nonblocking` stands: about to call the poller, the writer,
the reader, the exchange, the writer that follows an exchange, or past the loop. -/
inductive Stage
  | poller
  | writer
  | reader
  | exchange
  | writer_after_exchange
  | returned
deriving DecidableEq

/-- The state of `mkmimo_nonblocking` between two stages. -/
structure Machine where
  inputs : Inputs
  outputs : Outputs
  statics : PollStatic
  log : List Syscall
  stage : Stage

/-- One stage of the loop
`while (records_are_flowing_between(...)) { write_to_available(...);
if (read_from_available(...) > 0) while (exchange_buffered_records(...) > 0)
write_to_available(...); }`, given the answers of the operating system. -/
def step (os : Oracle) (m : Machine) : Machine :=
  match m.stage with
  | .poller =>
    let f := records_are_flowing_between os.num_events os.revents m.statics m.inputs m.outputs
    { inputs := f.inputs, outputs := f.outputs, statics := f.statics, log := m.log ++ f.log,
      stage := if f.ret ≠ 0 then .writer else .returned }
  | .writer =>
    let w := write_to_available os.wr m.outputs
    { m with outputs := w.2.1, log := m.log ++ w.2.2, stage := .reader }
  | .reader =>
    let r := read_from_available os.rd m.inputs
    { m with inputs := r.2.1, log := m.log ++ r.2.2,
             stage := if r.1 > 0 then .exchange else .poller }
  | .exchange =>
    let e := exchange_buffered_records m.inputs m.outputs
    { m with inputs := e.2.1, outputs := e.2.2.1,
             stage := if e.1 > 0 then .writer_after_exchange else .poller }
  | .writer_after_exchange =>
    let w := write_to_available os.wr m.outputs
    { m with outputs := w.2.1, log := m.log ++ w.2.2, stage := .exchange }
  | .returned => m

/-- The loop run for as many stages as there are answers. -/
def run : List Oracle → Machine → Machine
  | [], m => m
  | os :: rest, m => run rest (step os m)

/-- Modelled from the spec: the endpoint sets the caller hands to `mkmimo_nonblocking`
(the caller is not part of the sources at hand): open descriptors with display names, all
flags clear, all counters zero, and `last_closed` the partition index with no closed entry
behind it, that is the number of endpoints. -/
def fresh_inputs (initial_capacity : Nat) (endpoints : List (Int × String)) : Inputs :=
  { inputs := endpoints.map (fun e =>
      { fd := e.1, name := e.2, buffer := new_buffer initial_capacity, is_closed := false,
        is_near_eof := false, is_readable := false, is_buffered := false })
    last_closed := endpoints.length, num_closed := 0, num_readable := 0, num_buffered := 0 }

/-- Modelled from the spec: the outputs the caller hands over, see `fresh_inputs`. -/
def fresh_outputs (initial_capacity : Nat) (endpoints : List (Int × String)) : Outputs :=
  { outputs := endpoints.map (fun e =>
      { fd := e.1, name := e.2, buffer := new_buffer initial_capacity, is_closed := false,
        is_writable := false, is_busy := false })
    last_closed := endpoints.length, next_output := 0, num_closed := 0, num_writable := 0,
    num_busy := 0 }

/-- The function `initialize_ios`: every endpoint gets a new buffer and is set nonblocking;
`set_nonblocking fd` is the value `setNonblocking` returns. The result is the value
returned and the endpoint sets as the function leaves them. -/
def initialize_ios (initial_capacity : Nat) (set_nonblocking : Int → Int)
    (inputs : Inputs) (outputs : Outputs) : Int × Inputs × Outputs :=
  let fresh_in : Input → Input := fun input =>
    { input with buffer := new_buffer initial_capacity }
  let fresh_out : Output → Output := fun output =>
    { output with buffer := new_buffer initial_capacity }
  let ok_inputs := inputs.inputs.takeWhile (fun input => decide (0 ≤ set_nonblocking input.fd))
  if ok_inputs.length < inputs.inputs.length then
    let visited := (inputs.inputs.take (ok_inputs.length + 1)).map fresh_in
    (1, { inputs with inputs := visited ++ inputs.inputs.drop (ok_inputs.length + 1) }, outputs)
  else
    let inputs1 := { inputs with inputs := inputs.inputs.map fresh_in }
    let ok_outputs :=
      outputs.outputs.takeWhile (fun output => decide (0 ≤ set_nonblocking output.fd))
    if ok_outputs.length < outputs.outputs.length then
      let visited := (outputs.outputs.take (ok_outputs.length + 1)).map fresh_out
      (2, inputs1,
       { outputs with outputs := visited ++ outputs.outputs.drop (ok_outputs.length + 1) })
    else
      (0, inputs1, { outputs with outputs := outputs.outputs.map fresh_out })

/-- The state in which the loop of `mkmimo_nonblocking` starts. -/
def start (inputs : Inputs) (outputs : Outputs) : Machine :=
  { inputs := inputs, outputs := outputs,
    statics := { fds_is_null := true, num_inputs_outputs := 0 }, log := [],
    stage := .poller }

/-- The function `mkmimo_nonblocking`, run on the answers `answers` of the operating
system: `some 1` when the set-up fails, `some 0` when the loop is left, `none` when the
loop is still running after the last answer. -/
def mkmimo_nonblocking (initial_capacity : Nat) (set_nonblocking : Int → Int)
    (answers : List Oracle) (inputs : Inputs) (outputs : Outputs) : Option Int :=
  let init := initialize_ios initial_capacity set_nonblocking inputs outputs
  if init.1 ≠ 0 then some 1
  else
    let m := run answers (start init.2.1 init.2.2)
    if m.stage = Stage.returned then some 0 else none

/-- The states the loop can be in between two stages, when started on fresh endpoints. -/
def Reachable (initial_capacity : Nat) (ins outs : List (Int × String)) (m : Machine) : Prop :=
  ∃ answers : List Oracle,
    m = run answers (start (fresh_inputs initial_capacity ins) (fresh_outputs initial_capacity outs))

/-! ## Definitions used in the statements -/

/-- The value of a flag as a number: 1 when set. -/
def flag_value (b : Bool) : Int := if b then 1 else 0

/-- The input after an exchange with the output `y`. -/
def exchanged_input (x : Input) (y : Output) : Input :=
  { (swap_buffers x y).1 with is_buffered := false }

/-- The output after an exchange with the input `x`. -/
def exchanged_output (x : Input) (y : Output) : Output :=
  { (swap_buffers x y).2 with is_busy := true }

/-- An input holding `a\nb` with the record ending at offset 1. -/
def buffered_input : Input :=
  { fd := 3, name := "in", is_closed := false, is_near_eof := false, is_readable := true,
    is_buffered := true,
    buffer := { data := fun j => if j = 0 then 97 else if j = 1 then 10 else 98,
                capacity := 4, begin := 0, size := 3, end_of_last_record := 1 } }

/-- An idle output with an empty buffer. -/
def idle_output : Output :=
  { fd := 4, name := "out", is_closed := false, is_writable := true, is_busy := false,
    buffer := new_buffer 4 }

/-- The record boundary of a buffer is where the last separator is: `end_of_last_record`
is `-1` or the offset of a separator inside `data[begin .. begin+size)`, and no separator
of that range lies behind it. -/
def record_boundary_ok (b : Buffer) : Prop :=
  (b.end_of_last_record = -1 ∨
    (b.begin ≤ b.end_of_last_record ∧ b.end_of_last_record < b.begin + b.size ∧
      b.data b.end_of_last_record = 10)) ∧
  ∀ j : Int, b.begin ≤ j → j < b.begin + b.size → b.data j = 10 → j ≤ b.end_of_last_record

/-- What holds of every input between two stages: its buffer starts at offset 0, holds
between 0 and `capacity` bytes, has its record boundary at the last separator, and the
input is buffered exactly when there is such a boundary. -/
def input_ok (x : Input) : Prop :=
  x.buffer.begin = 0 ∧ 0 ≤ x.buffer.size ∧ x.buffer.size ≤ x.buffer.capacity ∧
  record_boundary_ok x.buffer ∧
  (x.is_buffered = true ↔ x.buffer.end_of_last_record ≠ -1)

/-- What holds of every output between two stages: `0 ≤ begin`, `0 ≤ size`,
`begin + size ≤ capacity`, the bytes left end at `end_of_last_record`, and the output is
busy exactly when bytes are left. -/
def output_ok (y : Output) : Prop :=
  0 ≤ y.buffer.begin ∧ 0 ≤ y.buffer.size ∧ y.buffer.begin + y.buffer.size ≤ y.buffer.capacity ∧
  y.buffer.end_of_last_record = y.buffer.begin + y.buffer.size - 1 ∧
  (y.is_busy = true ↔ 0 < y.buffer.size)

/-- What holds of an iteration of the reader: the input is as between two stages and the
scan for a separator starts inside the bytes held. -/
def read_iter_ok (it : ReadIter) : Prop :=
  input_ok it.input ∧ 0 ≤ it.scan_end_of_record_down_to ∧
  it.scan_end_of_record_down_to ≤ it.input.buffer.size
/-- A property of the array of inputs that the poller cannot change: it survives a change
of `is_readable` and `is_near_eof` of one entry, and the swap of two entries. -/
def InputsStable (Q : List Input → Prop) : Prop :=
  (∀ (l : List Input) (i : Nat) (x : Input) (r e : Bool), l[i]? = some x → Q l →
    Q (l.set i { x with is_readable := r, is_near_eof := e })) ∧
  (∀ (l : List Input) (i j : Nat) (x y : Input), l[i]? = some x → l[j]? = some y → i ≠ j →
    Q l → Q ((l.set i y).set j x))

/-- A property of the array of outputs that the poller cannot change: it survives a change
of `is_writable` of one entry, and the swap of two entries. -/
def OutputsStable (Q : List Output → Prop) : Prop :=
  (∀ (l : List Output) (i : Nat) (y : Output) (w : Bool), l[i]? = some y → Q l →
    Q (l.set i { y with is_writable := w })) ∧
  (∀ (l : List Output) (i j : Nat) (x y : Output), l[i]? = some x → l[j]? = some y → i ≠ j →
    Q l → Q ((l.set i y).set j x))

/-- What holds of the endpoints between two stages: every input is `input_ok` and every
output is `output_ok`. -/
def machine_ok (m : Machine) : Prop :=
  (∀ x ∈ m.inputs.inputs, input_ok x) ∧ (∀ y ∈ m.outputs.outputs, output_ok y)

/-- The record boundary as the reader is to leave it: `end_of_last_record` is `-1` exactly
when `data[begin .. begin+size)` holds no separator, and otherwise it is the offset of the
last separator of that range. -/
def boundary_at_last_separator (b : Buffer) : Prop :=
  (b.end_of_last_record = -1 ↔
    ∀ j : Int, b.begin ≤ j → j < b.begin + b.size → b.data j ≠ 10) ∧
  (b.end_of_last_record ≠ -1 →
    b.begin ≤ b.end_of_last_record ∧ b.end_of_last_record < b.begin + b.size ∧
    b.data b.end_of_last_record = 10 ∧
    ∀ j : Int, b.end_of_last_record < j → j < b.begin + b.size → b.data j ≠ 10)

/-- The bytes of the buffer are not empty and end with a separator. -/
def ends_with_separator (b : Buffer) : Prop :=
  0 < b.size ∧ b.data (b.begin + b.size - 1) = 10

/-- Answers of an operating system on which nothing happens: `poll` times out, every read
and every write fails with `EAGAIN`. -/
def quiet : Oracle :=
  { num_events := 0, revents := fun _ => ⟨false, false, false⟩, rd := fun _ _ => .eagain,
    wr := fun _ => .eagain }

/-- One input on descriptor 3 and one output on descriptor 4, buffers of 4 bytes, at the
start of the loop. -/
def one_to_one : Machine :=
  start (fresh_inputs 4 [(3, "in")]) (fresh_outputs 4 [(4, "out")])

/-- The number of entries of an endpoint array whose flag `p` is set. -/
def count_flag {α : Type} (p : α → Bool) (l : List α) : Int :=
  ((l.countP p : Nat) : Int)

/-- The counters that `SET` maintains are exact: `num_closed` and `num_buffered` of the
inputs, `num_closed` and `num_busy` of the outputs, each the number of endpoints with that
flag set. -/
def counters_ok (ins : Inputs) (outs : Outputs) : Prop :=
  ins.num_closed = count_flag Input.is_closed ins.inputs ∧
  ins.num_buffered = count_flag Input.is_buffered ins.inputs ∧
  outs.num_closed = count_flag Output.is_closed outs.outputs ∧
  outs.num_busy = count_flag Output.is_busy outs.outputs

/-- One input on descriptor 3 and two outputs on descriptors 4 and 5, buffers of 4 bytes, at
the start of the loop. -/
def one_to_two : Machine :=
  start (fresh_inputs 4 [(3, "in")]) (fresh_outputs 4 [(4, "out0"), (5, "out1")])

/-- The answers of a run in which the input delivers `a\n`, the write of it to the first
output fails with an error other than `EAGAIN`, and the input then delivers `b\n`: a poll
that times out, an idle writer stage, the read of `a\n`, the exchange, the failing write,
an exchange that finds nothing, a second poll that times out, an idle writer stage, and the
read of `b\n`. -/
def survivor_answers : List Oracle :=
  [quiet, quiet, { quiet with rd := fun _ _ => .data [97, 10] }, quiet,
   { quiet with wr := fun _ => .error }, quiet, quiet, quiet,
   { quiet with rd := fun _ _ => .data [98, 10] }]

/-- The answers of a run in which the input delivers `a\n` and the output takes it in one
write: a poll that times out, an idle writer stage, the read, the exchange, the write. -/
def complete_write_answers : List Oracle :=
  [quiet, quiet, { quiet with rd := fun _ _ => .data [97, 10] }, quiet,
   { quiet with wr := fun _ => .accepted 2 }]

/-- Two inputs on descriptors 3 and 4 and one output on descriptor 5, buffers of 4 bytes, at
the start of the loop. -/
def two_to_one : Machine :=
  start (fresh_inputs 4 [(3, "in0"), (4, "in1")]) (fresh_outputs 4 [(5, "out")])

/-- The answers of a run in which both inputs deliver one record and then reach end of file
in the same reader stage, while the output accepts nothing: first cycle (poll times out,
idle writer, both inputs read a record, the first is exchanged, the write fails with
`EAGAIN`, the next exchange finds the output busy), second cycle (poll times out, the write
fails with `EAGAIN`, both inputs read end of file, the exchange finds the output busy), and
the poll of the third cycle. -/
def stale_answers : List Oracle :=
  [quiet, quiet,
   { quiet with rd := fun i _ => if i = 0 then .data [97, 10] else .data [98, 10] },
   quiet, quiet, quiet,
   quiet, quiet, { quiet with rd := fun _ _ => .data [] }, quiet,
   quiet]

/-- A busy, writable output whose buffer holds the bytes `a\n` at offsets 0 and 1. -/
def busy_output : Output :=
  { fd := 4, name := "out", is_closed := false, is_writable := true, is_busy := true,
    buffer := { data := fun j => if j = 0 then 97 else 10,
                capacity := 4, begin := 0, size := 2, end_of_last_record := 1 } }

/-- Four inputs on descriptors 10 to 13 and three outputs on descriptors 20 to 22, buffers of
4 bytes, at the start of the loop. -/
def four_to_three : Machine :=
  start (fresh_inputs 4 [(10, "in0"), (11, "in1"), (12, "in2"), (13, "in3")])
    (fresh_outputs 4 [(20, "out0"), (21, "out1"), (22, "out2")])

/-- The answers of one cycle in which every input delivers the record `a\n`: a poll that
times out, an idle writer stage, the reads, a first exchange (three inputs are paired with
the three outputs), a writer stage in which the write to the first output fails with an
error other than `EAGAIN` and the other two outputs take their record, a second exchange
(the fourth input is paired with the second output), and the writer stage after it, in
which a write to the first output can only fail again. -/
def closed_output_answers : List Oracle :=
  [quiet, quiet, { quiet with rd := fun _ _ => .data [97, 10] }, quiet,
   { quiet with wr := fun i => if i = 0 then .error else .accepted 2 }, quiet,
   { quiet with wr := fun i => if i = 0 then .error else .accepted 2 }]

/-- The system calls of a log that were made on the descriptor `fd`. -/
def calls_on (fd : Int) (log : List Syscall) : List Syscall :=
  log.filter (fun c =>
    match c with
    | .read f _ _ _ => decide (f = fd)
    | .write f _ _ => decide (f = fd)
    | .close f => decide (f = fd)
    | _ => false)

/-- The bytes a system call delivered to the loop: those a `read` returned. -/
def Syscall.bytes_in : Syscall → List Nat
  | .read _ _ _ bytes => bytes
  | _ => []

/-- The bytes a system call took from the loop: the first `num_bytes_written` of those
offered to a `write`. -/
def Syscall.bytes_out : Syscall → List Nat
  | .write _ bytes num_bytes_written => bytes.take num_bytes_written.toNat
  | _ => []

/-- The concatenation of all bytes read, in the order of the reads. -/
def bytes_read : List Syscall → List Nat
  | [] => []
  | c :: rest => c.bytes_in ++ bytes_read rest

/-- The concatenation of all bytes written, in the order of the writes. -/
def bytes_written : List Syscall → List Nat
  | [] => []
  | c :: rest => c.bytes_out ++ bytes_written rest

/-- The answers of a run in which the input delivers the single byte `a` and then end of
file: two cycles of a poll that times out, an idle writer stage and a read, and the poll
of the third cycle. -/
def partial_record_answers : List Oracle :=
  [quiet, quiet, { quiet with rd := fun _ _ => .data [97] },
   quiet, quiet, { quiet with rd := fun _ _ => .data [] }, quiet]

/-- What holds between two stages of a loop with one input and one output on which no
write fails fatally and no poll fails: the output is open, the bytes written so far, then
the bytes the output still holds, then the bytes the input still holds are the bytes read
so far, and the loop is only left with the input closed and not buffered and the output
idle. -/
def copy_inv (m : Machine) : Prop :=
  ∃ x y, m.inputs.inputs = [x] ∧ m.outputs.outputs = [y] ∧ y.is_closed = false ∧
    bytes_written m.log ++ y.buffer.contents ++ x.buffer.contents = bytes_read m.log ∧
    (m.stage = Stage.returned →
      x.is_closed = true ∧ x.is_buffered = false ∧ y.is_busy = false)

/-- The answers of a run that copies the record `a\n` and then sees end of file: the
answers of `complete_write_answers`, an exchange that finds nothing, a second cycle whose
read returns end of file, and the poll of the third cycle. -/
def full_copy_answers : List Oracle :=
  complete_write_answers ++
    [quiet, quiet, quiet, { quiet with rd := fun _ _ => .data [] }, quiet]

/-- The loop with one input and one output after the input has read the record `a\n`: the
exchange stage is next. -/
def one_buffered : Machine :=
  run (complete_write_answers.take 3) one_to_one

/-- The answers of a run in which the input has five bytes `a` on offer at every read: a
poll that times out, an idle writer stage, and a reader stage. -/
def oversized_answers : List Oracle :=
  [quiet, quiet, { quiet with rd := fun _ _ => .data [97, 97, 97, 97, 97] }]

/-- The buffer `buf` after a read answered by `r` that returned bytes and after the scan
for the last separator down to `scan_end_of_record_down_to`, as the reader's pass leaves it
before it looks at the record boundary. -/
def read_and_scan (r : ReadResult) (buf : Buffer) (scan_end_of_record_down_to : Int) : Buffer :=
  scan_buffer
    { buf with
      data := (sys_read r buf.data (buf.begin + buf.size) (buf.capacity - buf.size)).data
      size := buf.size +
        (sys_read r buf.data (buf.begin + buf.size) (buf.capacity - buf.size)).num_bytes_read }
    scan_end_of_record_down_to

/-- An open, readable input on descriptor 3 with an empty buffer of 4 bytes, not near end of
file. -/
def ready_input : Input :=
  { fd := 3, name := "in", buffer := new_buffer 4, is_closed := false, is_near_eof := false,
    is_readable := true, is_buffered := false }

/-- The answers of a run in which the input delivers `p\npar` and then end of file, and
the output takes what it is given: the read of `p\npa` (the buffer has 4 bytes), the
exchange, the write of `p\n`, an exchange that finds nothing, a second cycle whose read
delivers `r`, a third cycle whose read returns end of file, and the poll of the fourth
cycle. -/
def final_partial_answers : List Oracle :=
  [quiet, quiet, { quiet with rd := fun _ _ => .data [112, 10, 112, 97] }, quiet,
   { quiet with wr := fun _ => .accepted 2 }, quiet,
   quiet, quiet, { quiet with rd := fun _ _ => .data [114] },
   quiet, quiet, { quiet with rd := fun _ _ => .data [] },
   quiet]

/-- The input of the loop with one input and one output, as it is after it delivered the
byte `a` and then end of file. -/
def closed_partial_input : Input :=
  (run partial_record_answers one_to_one).inputs.inputs.get ⟨0, by decide⟩

/-- The round-robin cursor is an index into the array of outputs: it is not negative, and
it is below `num_outputs` when there is an output at all. -/
def cursor_ok (o : Outputs) : Prop :=
  0 ≤ o.next_output ∧ (0 < o.outputs.length → o.next_output < o.outputs.length)

/-- Two outputs, the first busy and the second idle, with the cursor on the first. -/
def two_outputs : Outputs :=
  { outputs := [busy_output, { idle_output with fd := 5 }], last_closed := 2, next_output := 0,
    num_closed := 0, num_writable := 2, num_busy := 1 }

/-- The array `l` is partitioned at `c`: the entries at the indices from `c` on are the
closed ones. -/
def partitioned {α : Type} (is_closed : α → Bool) (l : List α) (c : Int) : Prop :=
  ∀ (k : Nat) (a : α), l[k]? = some a → (is_closed a = true ↔ c ≤ (k : Int))

/-- The input with `is_readable` cleared if it is closed: what the compaction may change of
an input apart from its position. -/
def closed_not_readable (x : Input) : Input :=
  if x.is_closed then { x with is_readable := false } else x

/-- The output with `is_writable` cleared if it is closed: what the compaction may change
of an output apart from its position. -/
def closed_not_writable (y : Output) : Output :=
  if y.is_closed then { y with is_writable := false } else y

/-- The answers of a run with two inputs in which the first input reaches end of file at
once and the second has nothing to read: a poll that times out, an idle writer stage, and
the reader stage. -/
def first_closed_answers : List Oracle :=
  [quiet, quiet, { quiet with rd := fun i _ => if i = 0 then .data [] else .eagain }]

/-- The loop with two inputs and one output after the first input reached end of file: the
inputs are a closed one followed by an open one, and the poller is next. -/
def first_closed : Machine :=
  run first_closed_answers two_to_one

/-- The partition indices are in order: `last_closed` of the inputs and of the outputs is
an index of the array or its length, and every entry from `last_closed` on is closed. -/
def partition_ok (ins : Inputs) (outs : Outputs) : Prop :=
  (0 ≤ ins.last_closed ∧ ins.last_closed ≤ ins.num_inputs ∧
    ∀ (k : Nat) (x : Input), ins.last_closed ≤ (k : Int) → ins.inputs[k]? = some x →
      x.is_closed = true) ∧
  (0 ≤ outs.last_closed ∧ outs.last_closed ≤ outs.num_outputs ∧
    ∀ (k : Nat) (y : Output), outs.last_closed ≤ (k : Int) → outs.outputs[k]? = some y →
      y.is_closed = true)

/-- Answers of an operating system whose `poll` reports one event, `POLLIN` on every polled
descriptor, and on which reads and writes fail with `EAGAIN`. -/
def all_pollin : Oracle :=
  { quiet with num_events := 1, revents := fun _ => ⟨true, false, false⟩ }

/-- An answer of the operating system is as a real one in this respect: in a writer stage,
a write on a descriptor that the loop has closed fails with an error other than `EAGAIN`
(`EBADF`). -/
def closed_writes_fail (os : Oracle) (m : Machine) : Bool :=
  !(decide (m.stage = Stage.writer) || decide (m.stage = Stage.writer_after_exchange)) ||
    m.outputs.outputs.enum.all
      (fun p => !p.2.is_closed || decide (os.wr p.1 = WriteResult.error))

/-- Along the run of the loop on these answers, every write on a closed descriptor fails. -/
def writes_on_closed_fail : List Oracle → Machine → Bool
  | [], _ => true
  | os :: rest, m => closed_writes_fail os m && writes_on_closed_fail rest (step os m)

/-- The input of the loop with one input and one output, as it is after it read the
record `a\n`. -/
def one_buffered_input : Input :=
  one_buffered.inputs.inputs.get ⟨0, by decide⟩

/-- A `read` in the log asked for at least one byte and returned at most as many bytes as it
asked for. -/
def read_call_ok : Syscall → Prop
  | .read _ count num_bytes_read _ => 1 ≤ count ∧ num_bytes_read ≤ count
  | _ => True

/-- The `read` that a pass of the reader's inner loop makes in the state `it` when the
operating system answers `r`: `read(fd, data + begin + size, capacity - size)`. -/
def pass_read (r : ReadResult) (it : ReadIter) : ReadReturn :=
  sys_read r it.input.buffer.data (it.input.buffer.begin + it.input.buffer.size)
    (it.input.buffer.capacity - it.input.buffer.size)

/-- The state of the pass with that `read` logged. -/
def pass_logged (r : ReadResult) (it : ReadIter) : ReadIter :=
  { it with log := it.log ++
      [Syscall.read it.input.fd (it.input.buffer.capacity - it.input.buffer.size)
        (pass_read r it).num_bytes_read (pass_read r it).bytes] }

/-! # Theorems -/

/-! ## Basic facts -/

theorem SET_FLAG_fst (a : Bool) (n : Int) (v : Bool) : (SET_FLAG a n v).1 = v := by
  unfold SET_FLAG; cases a <;> cases v <;> simp

theorem SET_FLAG_snd (a : Bool) (n : Int) (v : Bool) :
    (SET_FLAG a n v).2 = n + flag_value v - flag_value a := by
  unfold SET_FLAG flag_value; cases a <;> cases v <;> simp

theorem bytes_at_length (d : Int → Nat) (s n : Int) : (bytes_at d s n).length = n.toNat := by
  simp [bytes_at]

theorem bytes_at_congr (d1 d2 : Int → Nat) (s1 s2 n : Int)
    (h : ∀ k : Int, 0 ≤ k → k < n → d1 (s1 + k) = d2 (s2 + k)) :
    bytes_at d1 s1 n = bytes_at d2 s2 n := by
  unfold bytes_at
  apply List.map_congr_left
  intro k hk
  rw [List.mem_range] at hk
  exact h k (by omega) (by omega)

theorem bytes_at_append (d : Int → Nat) (s n m : Int) (hn : 0 ≤ n) (hm : 0 ≤ m) :
    bytes_at d s n ++ bytes_at d (s + n) m = bytes_at d s (n + m) := by
  unfold bytes_at
  have h : (n + m).toNat = n.toNat + m.toNat := by omega
  rw [h, List.range_add, List.map_append, List.map_map]
  congr 1
  apply List.map_congr_left
  intro k _
  simp only [Function.comp]
  congr 1
  push_cast
  omega

theorem bytes_at_nonpos (d : Int → Nat) (s n : Int) (h : n ≤ 0) : bytes_at d s n = [] := by
  unfold bytes_at
  have : n.toNat = 0 := by omega
  simp [this]

/-! ## Exchange stage -/

theorem find_idle_output_frame (n : Nat) (o : Outputs) :
    (find_idle_output n o).1.outputs = o.outputs ∧
    (find_idle_output n o).1.num_busy = o.num_busy ∧
    (find_idle_output n o).1.num_closed = o.num_closed ∧
    (find_idle_output n o).1.num_writable = o.num_writable ∧
    (find_idle_output n o).1.last_closed = o.last_closed := by
  induction n generalizing o with
  | zero => simp [find_idle_output]
  | succ n ih =>
    simp only [find_idle_output]
    split
    · simpa using ih _
    · split
      · simpa using ih _
      · simp

theorem find_idle_output_some (n : Nat) (o : Outputs) (k : Nat) (y : Output)
    (h : (find_idle_output n o).2 = some (k, y)) :
    o.outputs[k]? = some y ∧ y.is_busy = false := by
  induction n generalizing o with
  | zero => simp [find_idle_output] at h
  | succ n ih =>
    simp only [find_idle_output] at h
    split at h
    · simpa using ih _ h
    · rename_i out hout
      split at h
      · simpa using ih _ h
      · rename_i hb
        simp only [Option.some.injEq, Prod.mk.injEq] at h
        obtain ⟨rfl, rfl⟩ := h
        exact ⟨hout, by simpa using hb⟩

theorem pair_up_eq (input : Input) (nb : Int) (o : Outputs) (k : Nat) (output : Output) :
    pair_up input nb o k output =
      (exchanged_input input output, nb - flag_value input.is_buffered,
       { o with outputs := o.outputs.set k (exchanged_output input output),
                num_busy := o.num_busy + 1 - flag_value output.is_busy }) := by
  unfold pair_up exchanged_input exchanged_output
  simp only [SET_FLAG_fst, SET_FLAG_snd]
  have e1 : (swap_buffers input output).1.is_buffered = input.is_buffered := rfl
  have e2 : (swap_buffers input output).2.is_busy = output.is_busy := rfl
  rw [e1, e2]
  simp [flag_value]

theorem exchange_inputs_busy_frame (l : List Input) (i0 : Nat) (nb : Int) (o : Outputs)
    (k : Nat) (y : Output) (hy : o.outputs[k]? = some y) (hb : y.is_busy = true) :
    (exchange_inputs i0 l nb o).outputs.outputs[k]? = some y := by
  induction l generalizing i0 nb o with
  | nil => simpa [exchange_inputs] using hy
  | cons input rest ih =>
    simp only [exchange_inputs]
    split_ifs with h1 h2 h3
    · exact hy
    · exact hy
    · exact ih _ _ _ hy
    · have hf := find_idle_output_frame o.outputs.length o
      split
      · rename_i hnone
        exact ih _ _ _ (by rw [hf.1]; exact hy)
      · rename_i k0 y0 hsome
        have hs := find_idle_output_some _ _ _ _ hsome
        apply ih
        rw [pair_up_eq]
        simp only [hf.1]
        have hne : k0 ≠ k := by
          rintro rfl
          rw [hs.1] at hy
          simp only [Option.some.injEq] at hy
          rw [hy, hb] at hs
          simp at hs
        rw [List.getElem?_set_ne hne]
        exact hy

theorem exchange_inputs_routed (l : List Input) (i0 : Nat) (nb : Int) (o : Outputs)
    (i k : Nat) (h : (i, k) ∈ (exchange_inputs i0 l nb o).routed) :
    ∃ x y, i0 ≤ i ∧ l[i - i0]? = some x ∧ o.outputs[k]? = some y ∧
      x.is_buffered = true ∧ y.is_busy = false ∧
      (exchange_inputs i0 l nb o).inputs[i - i0]? = some (exchanged_input x y) ∧
      (exchange_inputs i0 l nb o).outputs.outputs[k]? = some (exchanged_output x y) := by
  induction l generalizing i0 nb o with
  | nil => simp [exchange_inputs] at h
  | cons input rest ih =>
    simp only [exchange_inputs] at h ⊢
    split_ifs at h ⊢ with h1 h2 h3
    · simp at h
    · simp at h
    · obtain ⟨x, y, hi, hx, hy, hxb, hyb, hin, hout⟩ := ih _ _ _ h
      have e : i - i0 = (i - (i0 + 1)) + 1 := by omega
      refine ⟨x, y, by omega, ?_, hy, hxb, hyb, ?_, hout⟩
      · rw [e]; simpa using hx
      · rw [e]; simpa using hin
    · have hf := find_idle_output_frame o.outputs.length o
      split at h
      · rename_i hnone
        simp only [hnone]
        obtain ⟨x, y, hi, hx, hy, hxb, hyb, hin, hout⟩ := ih _ _ _ h
        have e : i - i0 = (i - (i0 + 1)) + 1 := by omega
        refine ⟨x, y, by omega, ?_, by rw [← hf.1]; exact hy, hxb, hyb, ?_, hout⟩
        · rw [e]; simpa using hx
        · rw [e]; simpa using hin
      · rename_i k0 y0 hsome
        simp only [hsome]
        have hs := find_idle_output_some _ _ _ _ hsome
        have hk0 : k0 < o.outputs.length := (List.getElem?_eq_some_iff.mp hs.1).1
        simp only [List.mem_cons, Prod.mk.injEq] at h
        rw [pair_up_eq] at h ⊢
        rcases h with ⟨rfl, rfl⟩ | h
        · refine ⟨input, y0, le_refl _, by simp, hs.1, by simpa using h3, hs.2, ?_, ?_⟩
          · simp
          · apply exchange_inputs_busy_frame
            · simp [hf.1, hk0]
            · rfl
        · obtain ⟨x, y, hi, hx, hy, hxb, hyb, hin, hout⟩ := ih _ _ _ h
          have e : i - i0 = (i - (i0 + 1)) + 1 := by omega
          have hne : k0 ≠ k := by
            rintro rfl
            simp only [hf.1, List.getElem?_set_self hk0, Option.some.injEq] at hy
            rw [← hy] at hyb
            simp [exchanged_output] at hyb
          refine ⟨x, y, by omega, ?_, ?_, hxb, hyb, ?_, hout⟩
          · rw [e]; simpa using hx
          · simpa [hf.1, List.getElem?_set_ne hne] using hy
          · rw [e]; simpa using hin

theorem swap_buffers_spec (x : Input) (y : Output)
    (hhi : x.buffer.end_of_last_record < x.buffer.begin + x.buffer.size) :
    (swap_buffers x y).2.buffer =
      { x.buffer with size := x.buffer.end_of_last_record - x.buffer.begin + 1 } ∧
    (swap_buffers x y).1.buffer.begin = 0 ∧
    (swap_buffers x y).1.buffer.end_of_last_record = -1 ∧
    (swap_buffers x y).1.buffer.size =
      (x.buffer.begin + x.buffer.size) - (x.buffer.end_of_last_record + 1) ∧
    (∀ j : Int, 0 ≤ j → j < (swap_buffers x y).1.buffer.size →
      (swap_buffers x y).1.buffer.data j = x.buffer.data (x.buffer.end_of_last_record + 1 + j)) ∧
    (∀ j : Int, ¬ (0 ≤ j ∧ j < (swap_buffers x y).1.buffer.size) →
      (swap_buffers x y).1.buffer.data j = y.buffer.data j) ∧
    y.buffer.capacity ≤ (swap_buffers x y).1.buffer.capacity ∧
    (0 ≤ y.buffer.capacity →
      (swap_buffers x y).1.buffer.size ≤ (swap_buffers x y).1.buffer.capacity) := by
  by_cases ht : 0 < x.buffer.begin + x.buffer.size - (x.buffer.end_of_last_record + 1)
  · simp only [swap_buffers, move_trailing_data_after_last_record, ht, if_true, enlarge_buffer]
    refine ⟨?_, ?_, ?_, ?_, ?_, ?_, ?_, ?_⟩
    · congr 1; omega
    · split_ifs <;> rfl
    · split_ifs <;> rfl
    · simp
    · intro j h0 h1
      simp only [zero_add] at h1 ⊢
      rw [if_pos ⟨h0, by omega⟩]
      congr 1; omega
    · intro j hj
      simp only [zero_add] at hj ⊢
      rw [if_neg]
      intro hc; exact hj ⟨hc.1, by omega⟩
    · split_ifs <;> simp; omega
    · intro hc; split_ifs <;> simp; omega
  · simp only [swap_buffers, move_trailing_data_after_last_record, ht, if_false]
    have hsz : x.buffer.size = x.buffer.end_of_last_record - x.buffer.begin + 1 := by omega
    refine ⟨?_, trivial, trivial, by omega, ?_, fun _ _ => trivial, le_refl _, fun h => h⟩
    · cases hb : x.buffer
      rw [hb] at hsz
      simp only [Buffer.mk.injEq, true_and, and_true] at hsz ⊢
      exact hsz
    · intro j h0 h1; omega

/-- C1. Exchange postcondition. For every pair (input `i`, output `k`) that
`exchange_buffered_records` routes, where the input held `data[begin .. begin+size)` with
`begin ≤ end_of_last_record < begin + size`: the input was buffered and the output idle;
afterwards the output owns the input's former buffer, cut to `data[begin .. e]`
(`size = e - begin + 1`, everything else unchanged); the input owns the output's former
buffer (the same memory outside the moved bytes, a capacity not smaller) with `begin = 0`,
`end_of_last_record = -1`, `size = (begin+size) - (e+1)` and contents
`data[e+1 .. begin+size)`; the output's bytes followed by the input's bytes are the
original contents; `is_buffered` is cleared and `is_busy` is set. -/
theorem exchange_postcondition (inputs : Inputs) (outputs : Outputs) (i k : Nat)
    (x : Input) (y : Output)
    (hx : inputs.inputs[i]? = some x) (hy : outputs.outputs[k]? = some y)
    (hr : (i, k) ∈ (exchange_buffered_records inputs outputs).2.2.2)
    (hlo : x.buffer.begin ≤ x.buffer.end_of_last_record)
    (hhi : x.buffer.end_of_last_record < x.buffer.begin + x.buffer.size) :
    x.is_buffered = true ∧ y.is_busy = false ∧
    ∃ x' y',
      (exchange_buffered_records inputs outputs).2.1.inputs[i]? = some x' ∧
      (exchange_buffered_records inputs outputs).2.2.1.outputs[k]? = some y' ∧
      y'.buffer = { x.buffer with size := x.buffer.end_of_last_record - x.buffer.begin + 1 } ∧
      y'.buffer.contents =
        bytes_at x.buffer.data x.buffer.begin (x.buffer.end_of_last_record - x.buffer.begin + 1) ∧
      x'.buffer.begin = 0 ∧ x'.buffer.end_of_last_record = -1 ∧
      x'.buffer.size = (x.buffer.begin + x.buffer.size) - (x.buffer.end_of_last_record + 1) ∧
      x'.buffer.contents = bytes_at x.buffer.data (x.buffer.end_of_last_record + 1)
        ((x.buffer.begin + x.buffer.size) - (x.buffer.end_of_last_record + 1)) ∧
      (∀ j : Int, ¬ (0 ≤ j ∧ j < x'.buffer.size) → x'.buffer.data j = y.buffer.data j) ∧
      y.buffer.capacity ≤ x'.buffer.capacity ∧
      y'.buffer.contents ++ x'.buffer.contents = x.buffer.contents ∧
      x'.is_buffered = false ∧ y'.is_busy = true := by
  obtain ⟨x0, y0, _, hx0, hy0, hxb, hyb, hin, hout⟩ :=
    exchange_inputs_routed inputs.inputs 0 inputs.num_buffered outputs i k hr
  simp only [Nat.sub_zero] at hx0 hin
  rw [hx] at hx0
  rw [hy] at hy0
  simp only [Option.some.injEq] at hx0 hy0
  subst hx0 hy0
  obtain ⟨s1, s2, s3, s4, s5, s6, s7, _⟩ := swap_buffers_spec x y hhi
  have hc1 : (exchanged_output x y).buffer.contents =
      bytes_at x.buffer.data x.buffer.begin
        (x.buffer.end_of_last_record - x.buffer.begin + 1) := by
    show Buffer.contents (swap_buffers x y).2.buffer = _
    rw [s1]; rfl
  have hc2 : (exchanged_input x y).buffer.contents =
      bytes_at x.buffer.data (x.buffer.end_of_last_record + 1)
        ((x.buffer.begin + x.buffer.size) - (x.buffer.end_of_last_record + 1)) := by
    show bytes_at (swap_buffers x y).1.buffer.data (swap_buffers x y).1.buffer.begin
      (swap_buffers x y).1.buffer.size = _
    rw [s2, s4]
    apply bytes_at_congr
    intro j h0 h1
    rw [zero_add]
    exact s5 j h0 (by rw [s4]; exact h1)
  refine ⟨hxb, hyb, exchanged_input x y, exchanged_output x y, hin, hout, s1, hc1, s2, s3, s4,
    hc2, s6, s7, ?_, rfl, rfl⟩
  rw [hc1, hc2]
  have e1 : x.buffer.end_of_last_record + 1 =
      x.buffer.begin + (x.buffer.end_of_last_record - x.buffer.begin + 1) := by omega
  rw [e1, bytes_at_append _ _ _ _ (by omega) (by omega)]
  unfold Buffer.contents
  congr 1
  omega

/-- The theorem `exchange_postcondition` at one buffered input and one idle output. -/
theorem exchange_postcondition_witness :
    buffered_input.is_buffered = true ∧ idle_output.is_busy = false ∧
    ∃ x' y',
      (exchange_buffered_records ⟨[buffered_input], 1, 0, 1, 1⟩
        ⟨[idle_output], 1, 0, 0, 1, 0⟩).2.1.inputs[0]? = some x' ∧
      (exchange_buffered_records ⟨[buffered_input], 1, 0, 1, 1⟩
        ⟨[idle_output], 1, 0, 0, 1, 0⟩).2.2.1.outputs[0]? = some y' ∧
      y'.buffer = { buffered_input.buffer with
        size := buffered_input.buffer.end_of_last_record - buffered_input.buffer.begin + 1 } ∧
      y'.buffer.contents = bytes_at buffered_input.buffer.data buffered_input.buffer.begin
        (buffered_input.buffer.end_of_last_record - buffered_input.buffer.begin + 1) ∧
      x'.buffer.begin = 0 ∧ x'.buffer.end_of_last_record = -1 ∧
      x'.buffer.size = (buffered_input.buffer.begin + buffered_input.buffer.size) -
        (buffered_input.buffer.end_of_last_record + 1) ∧
      x'.buffer.contents = bytes_at buffered_input.buffer.data (buffered_input.buffer.end_of_last_record + 1)
        ((buffered_input.buffer.begin + buffered_input.buffer.size) -
          (buffered_input.buffer.end_of_last_record + 1)) ∧
      (∀ j : Int, ¬ (0 ≤ j ∧ j < x'.buffer.size) → x'.buffer.data j = idle_output.buffer.data j) ∧
      idle_output.buffer.capacity ≤ x'.buffer.capacity ∧
      y'.buffer.contents ++ x'.buffer.contents = buffered_input.buffer.contents ∧
      x'.is_buffered = false ∧ y'.is_busy = true :=
  exchange_postcondition ⟨[buffered_input], 1, 0, 1, 1⟩ ⟨[idle_output], 1, 0, 0, 1, 0⟩ 0 0
    buffered_input idle_output rfl rfl (by decide) (by decide) (by decide)

/-! ## Reader stage -/

theorem scan_end_of_record_none (data : Int → Nat) (n : Nat) (top : Int)
    (h : scan_end_of_record data n top = none) :
    ∀ j : Int, top - n < j → j ≤ top → data j ≠ 10 := by
  induction n generalizing top with
  | zero => intro j h1 h2; simp at h1; omega
  | succ n ih =>
    simp only [scan_end_of_record] at h
    split_ifs at h with h10
    intro j h1 h2
    by_cases hj : j = top
    · subst hj; exact h10
    · exact ih (top - 1) h j (by push_cast at h1; omega) (by omega)

theorem scan_end_of_record_some (data : Int → Nat) (n : Nat) (top j : Int)
    (h : scan_end_of_record data n top = some j) :
    top - n < j ∧ j ≤ top ∧ data j = 10 ∧ ∀ j' : Int, j < j' → j' ≤ top → data j' ≠ 10 := by
  induction n generalizing top with
  | zero => simp [scan_end_of_record] at h
  | succ n ih =>
    simp only [scan_end_of_record] at h
    split_ifs at h with h10
    · simp only [Option.some.injEq] at h
      subst h
      exact ⟨by push_cast; omega, le_refl _, h10, fun j' h1 h2 => by omega⟩
    · obtain ⟨a, b, c, d⟩ := ih (top - 1) h
      refine ⟨by push_cast; omega, by omega, c, ?_⟩
      intro j' h1 h2
      by_cases hj : j' = top
      · subst hj; exact h10
      · exact d j' h1 (by omega)

theorem sys_read_le (res : ReadResult) (data : Int → Nat) (off count : Int) (hc : 0 ≤ count) :
    (sys_read res data off count).num_bytes_read ≤ count := by
  cases res with
  | data bytes =>
    simp only [sys_read, List.length_take]
    omega
  | eagain => simp only [sys_read]; omega
  | error => simp only [sys_read]; omega

theorem sys_read_data_before (res : ReadResult) (data : Int → Nat) (off count : Int)
    (j : Int) (hj : j < off) : (sys_read res data off count).data j = data j := by
  cases res with
  | data bytes =>
    simp only [sys_read]
    rw [if_neg]
    intro h; omega
  | eagain => rfl
  | error => rfl

theorem sys_read_bytes (res : ReadResult) (data : Int → Nat) (off count : Int)
    (h : 0 ≤ (sys_read res data off count).num_bytes_read) :
    bytes_at (sys_read res data off count).data off (sys_read res data off count).num_bytes_read
      = (sys_read res data off count).bytes := by
  cases res with
  | data bytes =>
    simp only [sys_read, bytes_at, Int.toNat_ofNat]
    apply List.ext_getElem
    · simp
    · intro k h1 h2
      simp only [List.length_map, List.length_range] at h1
      simp only [List.getElem_map, List.getElem_range]
      rw [if_pos ⟨by omega, by omega⟩]
      have : (off + (k : Int) - off).toNat = k := by omega
      rw [this, List.getD_eq_getElem _ _ h1]
  | eagain => simp [sys_read] at h
  | error => simp [sys_read] at h
theorem scan_buffer_frame (buf : Buffer) (d : Int) :
    (scan_buffer buf d).data = buf.data ∧ (scan_buffer buf d).capacity = buf.capacity ∧
    (scan_buffer buf d).begin = buf.begin ∧ (scan_buffer buf d).size = buf.size := by
  unfold scan_buffer
  split <;> simp

theorem scan_buffer_boundary (buf : Buffer) (d : Int) (hd : buf.begin ≤ d)
    (he : buf.end_of_last_record = -1 ∨
      (buf.begin ≤ buf.end_of_last_record ∧ buf.end_of_last_record < buf.begin + buf.size ∧
        buf.data buf.end_of_last_record = 10))
    (hl : ∀ j : Int, buf.begin ≤ j → j < d → buf.data j = 10 → j ≤ buf.end_of_last_record) :
    record_boundary_ok (scan_buffer buf d) := by
  unfold scan_buffer
  split
  · rename_i j hj
    obtain ⟨a, b, c, e⟩ := scan_end_of_record_some _ _ _ _ hj
    refine ⟨Or.inr ⟨?_, ?_, c⟩, ?_⟩
    · show buf.begin ≤ j
      omega
    · show j < buf.begin + buf.size
      omega
    · intro j' h1 h2 h3
      show j' ≤ j
      by_contra hc
      exact e j' (by omega) (by change j' < buf.begin + buf.size at h2; omega) h3
  · rename_i hn
    have hno := scan_end_of_record_none _ _ _ hn
    refine ⟨he, ?_⟩
    intro j h1 h2 h3
    by_cases hjd : j < d
    · exact hl j h1 hjd h3
    · exact absurd h3 (hno j (by omega) (by omega))

theorem scan_buffer_boundary_at (buf : Buffer) (d : Int) :
    (scan_buffer buf d).end_of_last_record = buf.end_of_last_record ∨
    buf.begin + buf.size - (buf.begin + buf.size - d).toNat ≤
      (scan_buffer buf d).end_of_last_record := by
  unfold scan_buffer
  split
  · rename_i j hj
    obtain ⟨a, _, _, _⟩ := scan_end_of_record_some _ _ _ _ hj
    right
    show _ ≤ j
    omega
  · left; rfl

theorem after_read_ok (r : ReadReturn) (it : ReadIter) (h : read_iter_ok it)
    (hpos : 0 < r.num_bytes_read)
    (hle : r.num_bytes_read ≤ it.input.buffer.capacity - it.input.buffer.size)
    (hdata : ∀ j : Int, j < it.input.buffer.begin + it.input.buffer.size →
      r.data j = it.input.buffer.data j) :
    read_iter_ok (after_read r it) := by
  obtain ⟨⟨hb, hs, hc, ⟨he, hl⟩, hf⟩, h0, h1⟩ := h
  have hbd : record_boundary_ok (scan_buffer
      { it.input.buffer with data := r.data, size := it.input.buffer.size + r.num_bytes_read }
      it.scan_end_of_record_down_to) := by
    apply scan_buffer_boundary
    · show it.input.buffer.begin ≤ _
      omega
    · rcases he with he | ⟨e1, e2, e3⟩
      · left; exact he
      · right
        refine ⟨e1, ?_, ?_⟩
        · show it.input.buffer.end_of_last_record <
            it.input.buffer.begin + (it.input.buffer.size + r.num_bytes_read)
          omega
        · show r.data _ = 10
          rw [hdata _ e2]; exact e3
    · intro j j1 j2 j3
      change it.input.buffer.begin ≤ j at j1
      change r.data j = 10 at j3
      rw [hdata j (by omega)] at j3
      exact hl j j1 (by omega) j3
  have hfr := scan_buffer_frame
      { it.input.buffer with data := r.data, size := it.input.buffer.size + r.num_bytes_read }
      it.scan_end_of_record_down_to
  have hat := scan_buffer_boundary_at
      { it.input.buffer with data := r.data, size := it.input.buffer.size + r.num_bytes_read }
      it.scan_end_of_record_down_to
  obtain ⟨f1, f2, f3, f4⟩ := hfr
  simp only [] at f1 f2 f3 f4 hat
  unfold after_read
  simp only []
  split_ifs with c1 c2
  · refine ⟨⟨?_, ?_, ?_, hbd, ?_⟩, h0, ?_⟩
    · show (scan_buffer _ _).begin = 0
      rw [f3]; exact hb
    · show 0 ≤ (scan_buffer _ _).size
      rw [f4]; omega
    · show (scan_buffer _ _).size ≤ (scan_buffer _ _).capacity
      rw [f4, f2]; omega
    · show (SET_FLAG _ _ true).1 = true ↔ (scan_buffer _ _).end_of_last_record ≠ -1
      rw [SET_FLAG_fst]
      constructor
      · intro _; omega
      · intro _; rfl
    · show it.scan_end_of_record_down_to ≤ (scan_buffer _ _).size
      rw [f4]; omega
  · have hbd3 : record_boundary_ok (enlarge_buffer (scan_buffer
        { it.input.buffer with data := r.data, size := it.input.buffer.size + r.num_bytes_read }
        it.scan_end_of_record_down_to) ((scan_buffer
        { it.input.buffer with data := r.data, size := it.input.buffer.size + r.num_bytes_read }
        it.scan_end_of_record_down_to).capacity * 2)) := hbd
    refine ⟨⟨?_, ?_, ?_, hbd3, ?_⟩, ?_, ?_⟩
    · show (scan_buffer _ _).begin = 0
      rw [f3]; exact hb
    · show 0 ≤ (scan_buffer _ _).size
      rw [f4]; omega
    · show (scan_buffer _ _).size ≤ (scan_buffer _ _).capacity * 2
      rw [f4, f2]; omega
    · show it.input.is_buffered = true ↔ (scan_buffer _ _).end_of_last_record ≠ -1
      rcases hat with hat | hat
      · rw [hat]; exact hf
      · exfalso; omega
    · show 0 ≤ (scan_buffer _ _).begin + (scan_buffer _ _).size
      rw [f3, f4]; omega
    · show (scan_buffer _ _).begin + (scan_buffer _ _).size ≤ (scan_buffer _ _).size
      rw [f3, f4]; omega
  · refine ⟨⟨?_, ?_, ?_, hbd, ?_⟩, h0, ?_⟩
    · show (scan_buffer _ _).begin = 0
      rw [f3]; exact hb
    · show 0 ≤ (scan_buffer _ _).size
      rw [f4]; omega
    · show (scan_buffer _ _).size ≤ (scan_buffer _ _).capacity
      rw [f4, f2]; omega
    · show it.input.is_buffered = true ↔ (scan_buffer _ _).end_of_last_record ≠ -1
      rcases hat with hat | hat
      · rw [hat]; exact hf
      · exfalso; omega
    · show it.scan_end_of_record_down_to ≤ (scan_buffer _ _).size
      rw [f4]; omega
theorem read_attempts_ok (rd : Nat → ReadResult) (n k : Nat) (it : ReadIter)
    (h : read_iter_ok it) : input_ok (read_attempts rd n k it).input := by
  induction n generalizing k it with
  | zero => exact h.1
  | succ n ih =>
    simp only [read_attempts]
    split_ifs with c1 c2 c3 c4
    · exact ih _ _ h
    · exact h.1
    · exact h.1
    · exact h.1
    · apply ih
      refine after_read_ok _ _ (show read_iter_ok { it with log := _ } from h) ?_ ?_ ?_
      · omega
      · exact sys_read_le _ _ _ _ (by omega)
      · intro j hj
        exact sys_read_data_before _ _ _ _ j hj

theorem read_from_input_ok (rd : Nat → ReadResult) (x : Input) (nc nb : Int)
    (h : input_ok x) : input_ok (read_from_input rd x nc nb).input := by
  have hstart : read_iter_ok ⟨x, nc, nb, x.buffer.end_of_last_record + 1, []⟩ := by
    obtain ⟨hb, hs, _, ⟨he, _⟩, _⟩ := id h
    refine ⟨h, ?_, ?_⟩
    · show 0 ≤ x.buffer.end_of_last_record + 1
      rcases he with e | e <;> omega
    · show x.buffer.end_of_last_record + 1 ≤ x.buffer.size
      rcases he with e | e <;> omega
  unfold read_from_input
  simp only []
  split_ifs
  · exact h
  · exact h
  · exact h
  · exact read_attempts_ok _ _ _ _ hstart
  · exact read_attempts_ok _ _ _ _ hstart

theorem read_inputs_ok (rd : Nat → Nat → ReadResult) (i : Nat) (l : List Input) (nc nb : Int)
    (h : ∀ x ∈ l, input_ok x) : ∀ x ∈ (read_inputs rd i l nc nb).inputs, input_ok x := by
  induction l generalizing i nc nb with
  | nil => simp [read_inputs]
  | cons a rest ih =>
    simp only [read_inputs, List.mem_cons]
    rintro x (rfl | hx)
    · exact read_from_input_ok _ _ _ _ (h a (List.mem_cons_self _ _))
    · exact ih _ _ _ (fun y hy => h y (List.mem_cons_of_mem _ hy)) x hx

theorem read_from_available_ok (rd : Nat → Nat → ReadResult) (inputs : Inputs)
    (h : ∀ x ∈ inputs.inputs, input_ok x) :
    ∀ x ∈ (read_from_available rd inputs).2.1.inputs, input_ok x := by
  unfold read_from_available
  split_ifs
  · exact read_inputs_ok _ _ _ _ _ h
  · exact h
/-! ## Writer stage -/

theorem sys_write_le (w : WriteResult) (count : Int) : (sys_write w count).1 ≤ count ∨
    (sys_write w count).1 = -1 := by
  cases w with
  | accepted n => left; simp only [sys_write]; omega
  | eagain => right; rfl
  | error => right; rfl

theorem write_to_output_ok (w : WriteResult) (y : Output) (nc nb : Int) (h : output_ok y) :
    output_ok (write_to_output w y nc nb).output := by
  obtain ⟨h1, h2, h3, h4, h5⟩ := id h
  unfold write_to_output
  simp only []
  split_ifs with c1 c2 c3 c4 c5 c6
  · exact h
  · exact h
  · refine ⟨h1, h2, h3, h4, ?_⟩
    show (SET_FLAG _ _ false).1 = true ↔ 0 < y.buffer.size
    rw [SET_FLAG_fst]
    constructor
    · intro hc; cases hc
    · intro hc; omega
  · have hle := sys_write_le w y.buffer.size
    refine ⟨?_, ?_, ?_, ?_, ?_⟩
    · show 0 ≤ y.buffer.begin + (sys_write w y.buffer.size).1
      omega
    · show 0 ≤ y.buffer.size - (sys_write w y.buffer.size).1
      omega
    · show y.buffer.begin + (sys_write w y.buffer.size).1 +
        (y.buffer.size - (sys_write w y.buffer.size).1) ≤ y.buffer.capacity
      omega
    · show y.buffer.end_of_last_record = y.buffer.begin + (sys_write w y.buffer.size).1 +
        (y.buffer.size - (sys_write w y.buffer.size).1) - 1
      omega
    · show (SET_FLAG _ _ _).1 = true ↔ 0 < y.buffer.size - (sys_write w y.buffer.size).1
      rw [SET_FLAG_fst]
      change y.buffer.size - (sys_write w y.buffer.size).1 = 0 at c5
      simp only [c5, if_true]
      constructor
      · intro hc; cases hc
      · intro hc; omega
  · have hle := sys_write_le w y.buffer.size
    refine ⟨?_, ?_, ?_, ?_, ?_⟩
    · show 0 ≤ y.buffer.begin + (sys_write w y.buffer.size).1
      omega
    · show 0 ≤ y.buffer.size - (sys_write w y.buffer.size).1
      omega
    · show y.buffer.begin + (sys_write w y.buffer.size).1 +
        (y.buffer.size - (sys_write w y.buffer.size).1) ≤ y.buffer.capacity
      omega
    · show y.buffer.end_of_last_record = y.buffer.begin + (sys_write w y.buffer.size).1 +
        (y.buffer.size - (sys_write w y.buffer.size).1) - 1
      omega
    · show (SET_FLAG _ _ _).1 = true ↔ 0 < y.buffer.size - (sys_write w y.buffer.size).1
      rw [SET_FLAG_fst]
      change ¬ (y.buffer.size - (sys_write w y.buffer.size).1 = 0) at c5
      simp only [c5, if_false, true_iff]
      omega
  · refine ⟨h1, h2, h3, h4, ?_⟩
    show (SET_FLAG _ _ true).1 = true ↔ 0 < y.buffer.size
    rw [SET_FLAG_fst]
    constructor
    · intro _; omega
    · intro _; rfl
  · exact h

theorem write_outputs_ok (wr : Nat → WriteResult) (i : Nat) (l : List Output) (nc nb : Int)
    (h : ∀ y ∈ l, output_ok y) : ∀ y ∈ (write_outputs wr i l nc nb).outputs, output_ok y := by
  induction l generalizing i nc nb with
  | nil => simp [write_outputs]
  | cons a rest ih =>
    simp only [write_outputs, List.mem_cons]
    rintro y (rfl | hy)
    · exact write_to_output_ok _ _ _ _ (h a (List.mem_cons_self _ _))
    · exact ih _ _ _ (fun z hz => h z (List.mem_cons_of_mem _ hz)) y hy

theorem write_to_available_ok (wr : Nat → WriteResult) (outputs : Outputs)
    (h : ∀ y ∈ outputs.outputs, output_ok y) :
    ∀ y ∈ (write_to_available wr outputs).2.1.outputs, output_ok y := by
  unfold write_to_available
  split_ifs
  · exact write_outputs_ok _ _ _ _ _ h
  · exact h
theorem exchanged_ok (x : Input) (y : Output) (hx : input_ok x) (hy : output_ok y)
    (hb : x.is_buffered = true) :
    input_ok (exchanged_input x y) ∧ output_ok (exchanged_output x y) := by
  obtain ⟨x1, x2, x3, ⟨x4, x5⟩, x6⟩ := hx
  obtain ⟨y1, y2, y3, _, _⟩ := hy
  have hne : x.buffer.end_of_last_record ≠ -1 := x6.mp hb
  have hin : 0 ≤ x.buffer.end_of_last_record ∧
      x.buffer.end_of_last_record < x.buffer.begin + x.buffer.size := by
    rcases x4 with e | ⟨e1, e2, _⟩
    · exact absurd e hne
    · exact ⟨by omega, e2⟩
  obtain ⟨s1, s2, s3, s4, s5, _, _, s8⟩ := swap_buffers_spec x y hin.2
  constructor
  · refine ⟨s2, ?_, ?_, ⟨Or.inl s3, ?_⟩, ?_⟩
    · show 0 ≤ (swap_buffers x y).1.buffer.size
      omega
    · exact s8 (by omega)
    · intro j j1 j2 j3
      change (swap_buffers x y).1.buffer.begin ≤ j at j1
      change j < (swap_buffers x y).1.buffer.begin + (swap_buffers x y).1.buffer.size at j2
      change (swap_buffers x y).1.buffer.data j = 10 at j3
      rw [s5 j (by omega) (by omega)] at j3
      have := x5 _ (by omega) (by omega) j3
      omega
    · show false = true ↔ (swap_buffers x y).1.buffer.end_of_last_record ≠ -1
      rw [s3]; simp
  · show 0 ≤ (swap_buffers x y).2.buffer.begin ∧ 0 ≤ (swap_buffers x y).2.buffer.size ∧
      (swap_buffers x y).2.buffer.begin + (swap_buffers x y).2.buffer.size ≤
        (swap_buffers x y).2.buffer.capacity ∧
      (swap_buffers x y).2.buffer.end_of_last_record =
        (swap_buffers x y).2.buffer.begin + (swap_buffers x y).2.buffer.size - 1 ∧
      (true = true ↔ 0 < (swap_buffers x y).2.buffer.size)
    rw [s1]
    simp only [true_iff]
    refine ⟨?_, ?_, ?_, ?_, ?_⟩ <;> omega

theorem exchange_inputs_ok (l : List Input) (i0 : Nat) (nb : Int) (o : Outputs)
    (hl : ∀ x ∈ l, input_ok x) (ho : ∀ y ∈ o.outputs, output_ok y) :
    (∀ x ∈ (exchange_inputs i0 l nb o).inputs, input_ok x) ∧
    (∀ y ∈ (exchange_inputs i0 l nb o).outputs.outputs, output_ok y) := by
  induction l generalizing i0 nb o with
  | nil => exact ⟨by simp [exchange_inputs], by simpa [exchange_inputs] using ho⟩
  | cons input rest ih =>
    have hrest : ∀ x ∈ rest, input_ok x := fun x hx => hl x (List.mem_cons_of_mem _ hx)
    have hinput : input_ok input := hl input (List.mem_cons_self _ _)
    simp only [exchange_inputs]
    split_ifs with h1 h2 h3
    · exact ⟨hl, ho⟩
    · exact ⟨hl, ho⟩
    · obtain ⟨a, b⟩ := ih (i0 + 1) nb o hrest ho
      refine ⟨?_, b⟩
      intro x hx
      simp only [List.mem_cons] at hx
      rcases hx with rfl | hx
      · exact hinput
      · exact a x hx
    · have hf := find_idle_output_frame o.outputs.length o
      split
      · obtain ⟨a, b⟩ := ih (i0 + 1) nb (find_idle_output o.outputs.length o).1 hrest
          (by rw [hf.1]; exact ho)
        refine ⟨?_, b⟩
        intro x hx
        simp only [List.mem_cons] at hx
        rcases hx with rfl | hx
        · exact hinput
        · exact a x hx
      · rename_i k0 y0 hsome
        have hs := find_idle_output_some _ _ _ _ hsome
        have hy0 : output_ok y0 := ho y0 (List.getElem?_mem hs.1)
        have hex := exchanged_ok input y0 hinput hy0 (by simpa using h3)
        rw [pair_up_eq]
        obtain ⟨a, b⟩ := ih (i0 + 1) (nb - flag_value input.is_buffered)
          { (find_idle_output o.outputs.length o).1 with
            outputs := (find_idle_output o.outputs.length o).1.outputs.set k0
              (exchanged_output input y0)
            num_busy := (find_idle_output o.outputs.length o).1.num_busy + 1 -
              flag_value y0.is_busy }
          hrest (by
            intro y hy
            simp only [hf.1] at hy
            rcases List.mem_or_eq_of_mem_set hy with hy | rfl
            · exact ho y hy
            · exact hex.2)
        refine ⟨?_, b⟩
        intro x hx
        simp only [List.mem_cons] at hx
        rcases hx with rfl | hx
        · exact hex.1
        · exact a x hx

theorem exchange_buffered_records_ok (inputs : Inputs) (outputs : Outputs)
    (hl : ∀ x ∈ inputs.inputs, input_ok x) (ho : ∀ y ∈ outputs.outputs, output_ok y) :
    (∀ x ∈ (exchange_buffered_records inputs outputs).2.1.inputs, input_ok x) ∧
    (∀ y ∈ (exchange_buffered_records inputs outputs).2.2.1.outputs, output_ok y) :=
  exchange_inputs_ok _ _ _ _ hl ho
/-! ## Readiness poller -/

theorem move_closed_to_the_end_inv {α : Type} (is_closed : α → Bool) (clear : α → α)
    (Q : List α → Prop)
    (hset : ∀ (l : List α) (i : Nat) (x : α), l[i]? = some x → Q l → Q (l.set i (clear x)))
    (hswap : ∀ (l : List α) (i j : Nat) (x y : α), l[i]? = some x → l[j]? = some y → i ≠ j →
      Q l → Q ((l.set i y).set j x))
    (n i : Nat) (l : List α) (lc : Int) (h : Q l) :
    Q (move_closed_to_the_end is_closed clear n i l lc).1 := by
  induction n generalizing i l lc with
  | zero => exact h
  | succ n ih =>
    simp only [move_closed_to_the_end]
    split_ifs with c1
    · split
      · exact h
      · rename_i item hitem
        split_ifs with c2 c3
        · exact ih _ _ _ h
        · exact hset _ _ _ hitem h
        · have h1 := hset _ _ _ hitem h
          split
          · exact h1
          · rename_i other hother
            apply ih
            have hi : i < l.length := (List.getElem?_eq_some_iff.mp hitem).1
            refine hswap _ i _ (clear item) other ?_ hother ?_ h1
            · simp [hi]
            · intro hc
              omega
    · exact h

theorem update_readiness_inv (revents : Nat → Events) (p : Int)
    (Qi : List Input → Prop) (Qo : List Output → Prop)
    (hi : InputsStable Qi) (ho : OutputsStable Qo)
    (n i : Nat) (ins : Inputs) (outs : Outputs) (h1 : Qi ins.inputs) (h2 : Qo outs.outputs) :
    Qi (update_readiness revents p n i ins outs).1.inputs ∧
    Qo (update_readiness revents p n i ins outs).2.outputs := by
  induction n generalizing i ins outs with
  | zero => exact ⟨h1, h2⟩
  | succ n ih =>
    simp only [update_readiness]
    by_cases c : (i : Int) < p
    · rw [if_pos c]
      split
      · exact ih _ _ _ h1 h2
      · rename_i x hx
        exact ih _ _ _ (hi.1 _ _ _ _ _ hx h1) h2
    · rw [if_neg c]
      split
      · exact ih _ _ _ h1 h2
      · rename_i y hy
        exact ih _ _ _ h1 (ho.1 _ _ _ _ hy h2)

theorem mark_all_ready_inv (p : Int)
    (Qi : List Input → Prop) (Qo : List Output → Prop)
    (hi : InputsStable Qi) (ho : OutputsStable Qo)
    (n i : Nat) (ins : Inputs) (outs : Outputs) (h1 : Qi ins.inputs) (h2 : Qo outs.outputs) :
    Qi (mark_all_ready p n i ins outs).1.inputs ∧
    Qo (mark_all_ready p n i ins outs).2.outputs := by
  induction n generalizing i ins outs with
  | zero => exact ⟨h1, h2⟩
  | succ n ih =>
    simp only [mark_all_ready]
    by_cases c : (i : Int) < p
    · rw [if_pos c]
      split
      · exact ih _ _ _ h1 h2
      · rename_i x hx
        exact ih _ _ _ (hi.1 _ _ _ _ _ hx h1) h2
    · rw [if_neg c]
      split
      · exact ih _ _ _ h1 h2
      · rename_i y hy
        exact ih _ _ _ h1 (ho.1 _ _ _ _ hy h2)

theorem update_readiness_frame (revents : Nat → Events) (p : Int)
    (n i : Nat) (ins : Inputs) (outs : Outputs) :
    (update_readiness revents p n i ins outs).1.num_closed = ins.num_closed ∧
    (update_readiness revents p n i ins outs).1.num_buffered = ins.num_buffered ∧
    (update_readiness revents p n i ins outs).1.last_closed = ins.last_closed ∧
    (update_readiness revents p n i ins outs).2.num_closed = outs.num_closed ∧
    (update_readiness revents p n i ins outs).2.num_busy = outs.num_busy ∧
    (update_readiness revents p n i ins outs).2.last_closed = outs.last_closed ∧
    (update_readiness revents p n i ins outs).2.next_output = outs.next_output := by
  induction n generalizing i ins outs with
  | zero => simp [update_readiness]
  | succ n ih =>
    simp only [update_readiness]
    by_cases c : (i : Int) < p
    · rw [if_pos c]
      split
      · exact ih _ _ _
      · simpa using ih _ _ _
    · rw [if_neg c]
      split
      · exact ih _ _ _
      · simpa using ih _ _ _

theorem mark_all_ready_frame (p : Int) (n i : Nat) (ins : Inputs) (outs : Outputs) :
    (mark_all_ready p n i ins outs).1.num_closed = ins.num_closed ∧
    (mark_all_ready p n i ins outs).1.num_buffered = ins.num_buffered ∧
    (mark_all_ready p n i ins outs).1.last_closed = ins.last_closed ∧
    (mark_all_ready p n i ins outs).2.num_closed = outs.num_closed ∧
    (mark_all_ready p n i ins outs).2.num_busy = outs.num_busy ∧
    (mark_all_ready p n i ins outs).2.last_closed = outs.last_closed ∧
    (mark_all_ready p n i ins outs).2.next_output = outs.next_output := by
  induction n generalizing i ins outs with
  | zero => simp [mark_all_ready]
  | succ n ih =>
    simp only [mark_all_ready]
    by_cases c : (i : Int) < p
    · rw [if_pos c]
      split
      · exact ih _ _ _
      · simpa using ih _ _ _
    · rw [if_neg c]
      split
      · exact ih _ _ _
      · simpa using ih _ _ _

theorem move_closed_inputs_outputs_inv (Qi : List Input → Prop) (Qo : List Output → Prop)
    (hi : InputsStable Qi) (ho : OutputsStable Qo) (ins : Inputs) (outs : Outputs)
    (h1 : Qi ins.inputs) (h2 : Qo outs.outputs) :
    Qi (move_closed_inputs_outputs_to_the_end ins outs).1.inputs ∧
    Qo (move_closed_inputs_outputs_to_the_end ins outs).2.outputs := by
  unfold move_closed_inputs_outputs_to_the_end
  simp only []
  constructor
  · split_ifs
    · apply move_closed_to_the_end_inv _ _ Qi _ hi.2 _ _ _ _ h1
      intro l i x hx hq
      exact hi.1 l i x false x.is_near_eof hx hq
    · exact h1
  · split_ifs
    · apply move_closed_to_the_end_inv _ _ Qo _ ho.2 _ _ _ _ h2
      intro l i x hx hq
      exact ho.1 l i x false hx hq
    · exact h2

theorem move_closed_inputs_outputs_frame (ins : Inputs) (outs : Outputs) :
    (move_closed_inputs_outputs_to_the_end ins outs).1.num_closed = ins.num_closed ∧
    (move_closed_inputs_outputs_to_the_end ins outs).1.num_buffered = ins.num_buffered ∧
    (move_closed_inputs_outputs_to_the_end ins outs).1.num_readable = ins.num_readable ∧
    (move_closed_inputs_outputs_to_the_end ins outs).2.num_closed = outs.num_closed ∧
    (move_closed_inputs_outputs_to_the_end ins outs).2.num_busy = outs.num_busy ∧
    (move_closed_inputs_outputs_to_the_end ins outs).2.num_writable = outs.num_writable ∧
    (move_closed_inputs_outputs_to_the_end ins outs).2.next_output = outs.next_output := by
  unfold move_closed_inputs_outputs_to_the_end
  simp only []
  refine ⟨?_, ?_, ?_, ?_, ?_, ?_, ?_⟩ <;> split_ifs <;> rfl

theorem handle_events_inv (Qi : List Input → Prop) (Qo : List Output → Prop)
    (hi : InputsStable Qi) (ho : OutputsStable Qo) (ne : Int) (rev : Nat → Events)
    (p q : Int) (ins : Inputs) (outs : Outputs)
    (h1 : Qi ins.inputs) (h2 : Qo outs.outputs) :
    Qi (handle_events ne rev p q ins outs).2.1.inputs ∧
    Qo (handle_events ne rev p q ins outs).2.2.1.outputs := by
  unfold handle_events
  by_cases c1 : ne < 0
  · rw [if_pos c1]; exact ⟨h1, h2⟩
  · rw [if_neg c1]
    by_cases c2 : ne > 0
    · rw [if_pos c2]; exact update_readiness_inv _ _ Qi Qo hi ho _ _ _ _ h1 h2
    · rw [if_neg c2]; exact mark_all_ready_inv _ Qi Qo hi ho _ _ _ _ h1 h2

theorem handle_events_frame (ne : Int) (rev : Nat → Events)
    (p q : Int) (ins : Inputs) (outs : Outputs) :
    (handle_events ne rev p q ins outs).2.1.num_closed = ins.num_closed ∧
    (handle_events ne rev p q ins outs).2.1.num_buffered = ins.num_buffered ∧
    (handle_events ne rev p q ins outs).2.1.last_closed = ins.last_closed ∧
    (handle_events ne rev p q ins outs).2.2.1.num_closed = outs.num_closed ∧
    (handle_events ne rev p q ins outs).2.2.1.num_busy = outs.num_busy ∧
    (handle_events ne rev p q ins outs).2.2.1.last_closed = outs.last_closed ∧
    (handle_events ne rev p q ins outs).2.2.1.next_output = outs.next_output := by
  unfold handle_events
  by_cases c1 : ne < 0
  · rw [if_pos c1]; exact ⟨rfl, rfl, rfl, rfl, rfl, rfl, rfl⟩
  · rw [if_neg c1]
    by_cases c2 : ne > 0
    · rw [if_pos c2]; exact update_readiness_frame _ _ _ _ _ _
    · rw [if_neg c2]; exact mark_all_ready_frame _ _ _ _ _

theorem records_are_flowing_between_inv (Qi : List Input → Prop) (Qo : List Output → Prop)
    (hi : InputsStable Qi) (ho : OutputsStable Qo) (ne : Int) (rev : Nat → Events)
    (st : PollStatic) (ins : Inputs) (outs : Outputs)
    (h1 : Qi ins.inputs) (h2 : Qo outs.outputs) :
    Qi (records_are_flowing_between ne rev st ins outs).inputs.inputs ∧
    Qo (records_are_flowing_between ne rev st ins outs).outputs.outputs := by
  have hm := move_closed_inputs_outputs_inv Qi Qo hi ho ins outs h1 h2
  unfold records_are_flowing_between
  simp only []
  split_ifs
  · exact ⟨h1, h2⟩
  · exact hm
  · exact handle_events_inv Qi Qo hi ho _ _ _ _ _ _ hm.1 hm.2

theorem records_are_flowing_between_frame (ne : Int) (rev : Nat → Events)
    (st : PollStatic) (ins : Inputs) (outs : Outputs) :
    (records_are_flowing_between ne rev st ins outs).inputs.num_closed = ins.num_closed ∧
    (records_are_flowing_between ne rev st ins outs).inputs.num_buffered = ins.num_buffered ∧
    (records_are_flowing_between ne rev st ins outs).outputs.num_closed = outs.num_closed ∧
    (records_are_flowing_between ne rev st ins outs).outputs.num_busy = outs.num_busy ∧
    (records_are_flowing_between ne rev st ins outs).outputs.next_output = outs.next_output := by
  obtain ⟨m1, m2, _, m4, m5, _, m7⟩ := move_closed_inputs_outputs_frame ins outs
  unfold records_are_flowing_between
  simp only []
  split_ifs
  · exact ⟨rfl, rfl, rfl, rfl, rfl⟩
  · exact ⟨m1, m2, m4, m5, m7⟩
  · obtain ⟨u1, u2, _, u4, u5, _, u7⟩ := handle_events_frame ne rev
      ((move_closed_inputs_outputs_to_the_end ins outs).1.num_inputs -
        (move_closed_inputs_outputs_to_the_end ins outs).1.num_closed)
      ((allocate_fds st ins outs).num_inputs_outputs -
        (move_closed_inputs_outputs_to_the_end ins outs).1.num_closed -
        (move_closed_inputs_outputs_to_the_end ins outs).2.num_closed)
      { (move_closed_inputs_outputs_to_the_end ins outs).1 with num_readable := 0 }
      { (move_closed_inputs_outputs_to_the_end ins outs).2 with num_writable := 0 }
    exact ⟨u1.trans m1, u2.trans m2, u4.trans m4, u5.trans m5, u7.trans m7⟩
/-! ## Loop driver -/

theorem forall_mem_swap {α : Type} (P : α → Prop) (l : List α) (i j : Nat) (x y : α)
    (hx : l[i]? = some x) (hy : l[j]? = some y) (h : ∀ a ∈ l, P a) :
    ∀ a ∈ (l.set i y).set j x, P a := by
  intro a ha
  rcases List.mem_or_eq_of_mem_set ha with ha | rfl
  · rcases List.mem_or_eq_of_mem_set ha with ha | rfl
    · exact h a ha
    · exact h _ (List.getElem?_mem hy)
  · exact h _ (List.getElem?_mem hx)

theorem forall_inputs_stable (P : Input → Prop)
    (hP : ∀ (x : Input) (r e : Bool), P x → P { x with is_readable := r, is_near_eof := e }) :
    InputsStable (fun l => ∀ x ∈ l, P x) := by
  constructor
  · intro l i x r e hx h a ha
    rcases List.mem_or_eq_of_mem_set ha with ha | rfl
    · exact h a ha
    · exact hP _ _ _ (h _ (List.getElem?_mem hx))
  · intro l i j x y hx hy _ h
    exact forall_mem_swap P l i j x y hx hy h

theorem forall_outputs_stable (P : Output → Prop)
    (hP : ∀ (y : Output) (w : Bool), P y → P { y with is_writable := w }) :
    OutputsStable (fun l => ∀ y ∈ l, P y) := by
  constructor
  · intro l i y w hy h a ha
    rcases List.mem_or_eq_of_mem_set ha with ha | rfl
    · exact h a ha
    · exact hP _ _ (h _ (List.getElem?_mem hy))
  · intro l i j x y hx hy _ h
    exact forall_mem_swap P l i j x y hx hy h

theorem step_ok (os : Oracle) (m : Machine) (h : machine_ok m) : machine_ok (step os m) := by
  unfold step
  split
  · exact records_are_flowing_between_inv _ _
      (forall_inputs_stable input_ok (fun _ _ _ hx => hx))
      (forall_outputs_stable output_ok (fun _ _ hy => hy)) _ _ _ _ _ h.1 h.2
  · exact ⟨h.1, write_to_available_ok _ _ h.2⟩
  · exact ⟨read_from_available_ok _ _ h.1, h.2⟩
  · exact exchange_buffered_records_ok _ _ h.1 h.2
  · exact ⟨h.1, write_to_available_ok _ _ h.2⟩
  · exact h

theorem run_ok (answers : List Oracle) (m : Machine) (h : machine_ok m) :
    machine_ok (run answers m) := by
  induction answers generalizing m with
  | nil => exact h
  | cons os rest ih => exact ih _ (step_ok os m h)

theorem new_buffer_input_ok (cap : Nat) (x : Input) (hb : x.buffer = new_buffer cap)
    (hf : x.is_buffered = false) : input_ok x := by
  unfold input_ok record_boundary_ok
  rw [hb, hf]
  refine ⟨rfl, le_refl _, ?_, ⟨Or.inl rfl, ?_⟩, ?_⟩
  · show (0 : Int) ≤ (cap : Int)
    omega
  · intro j h1 h2 _
    change (0 : Int) ≤ j at h1
    change j < 0 + 0 at h2
    omega
  · show false = true ↔ (-1 : Int) ≠ -1
    simp

theorem new_buffer_output_ok (cap : Nat) (y : Output) (hb : y.buffer = new_buffer cap)
    (hf : y.is_busy = false) : output_ok y := by
  unfold output_ok
  rw [hb, hf]
  refine ⟨le_refl _, le_refl _, ?_, ?_, ?_⟩
  · show (0 : Int) + 0 ≤ (cap : Int)
    omega
  · show (-1 : Int) = 0 + 0 - 1
    omega
  · show false = true ↔ (0 : Int) < 0
    simp

theorem start_ok (cap : Nat) (ins outs : List (Int × String)) :
    machine_ok (start (fresh_inputs cap ins) (fresh_outputs cap outs)) := by
  constructor
  · intro x hx
    simp only [start, fresh_inputs, List.mem_map] at hx
    obtain ⟨e, _, rfl⟩ := hx
    exact new_buffer_input_ok cap _ rfl rfl
  · intro y hy
    simp only [start, fresh_outputs, List.mem_map] at hy
    obtain ⟨e, _, rfl⟩ := hy
    exact new_buffer_output_ok cap _ rfl rfl

theorem reachable_ok (cap : Nat) (ins outs : List (Int × String)) (m : Machine)
    (h : Reachable cap ins outs m) : machine_ok m := by
  obtain ⟨answers, rfl⟩ := h
  exact run_ok _ _ (start_ok cap ins outs)

theorem input_ok_boundary (x : Input) (h : input_ok x) : boundary_at_last_separator x.buffer := by
  obtain ⟨hb, hs, _, ⟨he, hl⟩, _⟩ := h
  constructor
  · constructor
    · intro e j j1 j2 j3
      have := hl j j1 j2 j3
      omega
    · intro hno
      rcases he with e | ⟨e1, e2, e3⟩
      · exact e
      · exact absurd e3 (hno _ e1 e2)
  · intro hne
    rcases he with e | ⟨e1, e2, e3⟩
    · exact absurd e hne
    · refine ⟨e1, e2, e3, ?_⟩
      intro j j1 j2 j3
      have := hl j (by omega) j2 j3
      omega

/-- C2. Record-boundary detection. In every state `m` reachable from the initial state
(empty buffers, `end_of_last_record = -1`), every input buffer, and every input buffer after
a call of `read_from_available` on whatever the reads answer, has `end_of_last_record = -1`
exactly when `data[begin .. begin+size)` holds no `\n`, and otherwise `end_of_last_record`
is the offset of the last `\n` of that range (however many reads the call made and whether or
not the buffer was enlarged between them). Hence no separator lies behind
`end_of_last_record`, and the bytes that `exchange_buffered_records` hands to an output end
with `\n`. -/
theorem record_boundary_detection (cap : Nat) (ins outs : List (Int × String)) (m : Machine)
    (rd : Nat → Nat → ReadResult) (h : Reachable cap ins outs m) :
    (∀ x ∈ m.inputs.inputs, boundary_at_last_separator x.buffer) ∧
    (∀ x ∈ (read_from_available rd m.inputs).2.1.inputs,
      boundary_at_last_separator x.buffer) ∧
    (∀ i k : Nat, (i, k) ∈ (exchange_buffered_records m.inputs m.outputs).2.2.2 →
      ∃ y, (exchange_buffered_records m.inputs m.outputs).2.2.1.outputs[k]? = some y ∧
        ends_with_separator y.buffer) := by
  have hm := reachable_ok cap ins outs m h
  refine ⟨fun x hx => input_ok_boundary x (hm.1 x hx),
    fun x hx => input_ok_boundary x (read_from_available_ok rd _ hm.1 x hx), ?_⟩
  intro i k hr
  obtain ⟨x, y, _, hx, _, hxb, _, _, hout⟩ :=
    exchange_inputs_routed m.inputs.inputs 0 m.inputs.num_buffered m.outputs i k hr
  refine ⟨exchanged_output x y, hout, ?_⟩
  obtain ⟨x1, x2, _, ⟨x4, _⟩, x6⟩ := hm.1 x (List.getElem?_mem hx)
  have hne : x.buffer.end_of_last_record ≠ -1 := x6.mp hxb
  rcases x4 with e | ⟨e1, e2, e3⟩
  · exact absurd e hne
  · obtain ⟨s1, _⟩ := swap_buffers_spec x y e2
    show 0 < (swap_buffers x y).2.buffer.size ∧
      (swap_buffers x y).2.buffer.data
        ((swap_buffers x y).2.buffer.begin + (swap_buffers x y).2.buffer.size - 1) = 10
    rw [s1]
    refine ⟨?_, ?_⟩
    · show 0 < x.buffer.end_of_last_record - x.buffer.begin + 1
      omega
    · show x.buffer.data (x.buffer.begin + (x.buffer.end_of_last_record - x.buffer.begin + 1) - 1)
        = 10
      have : x.buffer.begin + (x.buffer.end_of_last_record - x.buffer.begin + 1) - 1 =
          x.buffer.end_of_last_record := by omega
      rw [this]; exact e3

/-- The theorem `record_boundary_detection` at one input and one output, after a poll that
timed out, an idle writer stage, and a read of `a\nb`. -/
theorem record_boundary_detection_witness :
    (∀ x ∈ (run [quiet, quiet] one_to_one).inputs.inputs, boundary_at_last_separator x.buffer) ∧
    (∀ x ∈ (read_from_available (fun _ _ => ReadResult.data [97, 10, 98])
        (run [quiet, quiet] one_to_one).inputs).2.1.inputs,
      boundary_at_last_separator x.buffer) ∧
    (∀ i k : Nat, (i, k) ∈ (exchange_buffered_records (run [quiet, quiet] one_to_one).inputs
        (run [quiet, quiet] one_to_one).outputs).2.2.2 →
      ∃ y, (exchange_buffered_records (run [quiet, quiet] one_to_one).inputs
        (run [quiet, quiet] one_to_one).outputs).2.2.1.outputs[k]? = some y ∧
        ends_with_separator y.buffer) :=
  record_boundary_detection 4 [(3, "in")] [(4, "out")] (run [quiet, quiet] one_to_one)
    (fun _ _ => ReadResult.data [97, 10, 98]) ⟨[quiet, quiet], rfl⟩

/-! ## Counters -/

theorem count_flag_nil {α : Type} (p : α → Bool) : count_flag p ([] : List α) = 0 := rfl

theorem count_flag_cons {α : Type} (p : α → Bool) (a : α) (l : List α) :
    count_flag p (a :: l) = flag_value (p a) + count_flag p l := by
  unfold count_flag flag_value
  rw [List.countP_cons]
  cases p a
  · simp
  · simp; omega

theorem count_flag_set {α : Type} (p : α → Bool) (l : List α) (i : Nat) (a x : α)
    (h : l[i]? = some x) :
    count_flag p (l.set i a) = count_flag p l - flag_value (p x) + flag_value (p a) := by
  induction l generalizing i with
  | nil => simp at h
  | cons b rest ih =>
    cases i with
    | zero =>
      simp only [List.getElem?_cons_zero, Option.some.injEq] at h
      subst h
      simp only [List.set_cons_zero, count_flag_cons]
      omega
    | succ i =>
      simp only [List.getElem?_cons_succ] at h
      simp only [List.set_cons_succ, count_flag_cons, ih i h]
      omega

theorem count_flag_swap {α : Type} (p : α → Bool) (l : List α) (i j : Nat) (x y : α)
    (hx : l[i]? = some x) (hy : l[j]? = some y) (hij : i ≠ j) :
    count_flag p ((l.set i y).set j x) = count_flag p l := by
  have hy2 : (l.set i y)[j]? = some y := by rw [List.getElem?_set_ne hij]; exact hy
  rw [count_flag_set p _ j x y hy2, count_flag_set p l i y x hx]
  omega

theorem count_inputs_stable (p : Input → Bool) (c : Int)
    (hp : ∀ (x : Input) (r e : Bool), p { x with is_readable := r, is_near_eof := e } = p x) :
    InputsStable (fun l => c = count_flag p l) := by
  constructor
  · intro l i x r e hx h
    rw [count_flag_set p l i _ x hx, hp x r e]
    omega
  · intro l i j x y hx hy hij h
    rw [count_flag_swap p l i j x y hx hy hij]
    exact h

theorem count_outputs_stable (p : Output → Bool) (c : Int)
    (hp : ∀ (y : Output) (w : Bool), p { y with is_writable := w } = p y) :
    OutputsStable (fun l => c = count_flag p l) := by
  constructor
  · intro l i y w hy h
    rw [count_flag_set p l i _ y hy, hp y w]
    omega
  · intro l i j x y hx hy hij h
    rw [count_flag_swap p l i j x y hx hy hij]
    exact h

theorem records_are_flowing_between_counters (ne : Int) (rev : Nat → Events)
    (st : PollStatic) (ins : Inputs) (outs : Outputs) (h : counters_ok ins outs) :
    counters_ok (records_are_flowing_between ne rev st ins outs).inputs
      (records_are_flowing_between ne rev st ins outs).outputs := by
  obtain ⟨f1, f2, f3, f4, _⟩ := records_are_flowing_between_frame ne rev st ins outs
  obtain ⟨h1, h2, h3, h4⟩ := h
  have a := records_are_flowing_between_inv _ _
    (count_inputs_stable Input.is_closed ins.num_closed (fun _ _ _ => rfl))
    (count_outputs_stable Output.is_closed outs.num_closed (fun _ _ => rfl))
    ne rev st ins outs h1 h3
  have b := records_are_flowing_between_inv _ _
    (count_inputs_stable Input.is_buffered ins.num_buffered (fun _ _ _ => rfl))
    (count_outputs_stable Output.is_busy outs.num_busy (fun _ _ => rfl))
    ne rev st ins outs h2 h4
  exact ⟨f1.trans a.1, f2.trans b.1, f3.trans a.2, f4.trans b.2⟩
theorem after_read_counts (r : ReadReturn) (it : ReadIter) :
    (after_read r it).num_closed - flag_value (after_read r it).input.is_closed =
      it.num_closed - flag_value it.input.is_closed ∧
    (after_read r it).num_buffered - flag_value (after_read r it).input.is_buffered =
      it.num_buffered - flag_value it.input.is_buffered := by
  unfold after_read
  simp only []
  split_ifs
  · refine ⟨rfl, ?_⟩
    show (SET_FLAG _ _ _).2 - flag_value (SET_FLAG _ _ _).1 = _
    rw [SET_FLAG_snd, SET_FLAG_fst]
    omega
  · exact ⟨rfl, rfl⟩
  · exact ⟨rfl, rfl⟩

theorem close_input_counts (it : ReadIter) :
    (close_input it).num_closed - flag_value (close_input it).input.is_closed =
      it.num_closed - flag_value it.input.is_closed ∧
    (close_input it).num_buffered - flag_value (close_input it).input.is_buffered =
      it.num_buffered - flag_value it.input.is_buffered := by
  unfold close_input
  refine ⟨?_, rfl⟩
  show (SET_FLAG _ _ _).2 - flag_value (SET_FLAG _ _ _).1 = _
  rw [SET_FLAG_snd, SET_FLAG_fst]
  omega

theorem read_attempts_counts (rd : Nat → ReadResult) (n k : Nat) (it : ReadIter) :
    (read_attempts rd n k it).num_closed - flag_value (read_attempts rd n k it).input.is_closed =
      it.num_closed - flag_value it.input.is_closed ∧
    (read_attempts rd n k it).num_buffered -
        flag_value (read_attempts rd n k it).input.is_buffered =
      it.num_buffered - flag_value it.input.is_buffered := by
  induction n generalizing k it with
  | zero => exact ⟨rfl, rfl⟩
  | succ n ih =>
    simp only [read_attempts]
    split_ifs
    · exact ih _ _
    · exact ⟨rfl, rfl⟩
    · exact close_input_counts _
    · exact close_input_counts _
    · obtain ⟨a, b⟩ := ih (k + 1) (after_read (sys_read (rd k) it.input.buffer.data
        (it.input.buffer.begin + it.input.buffer.size)
        (it.input.buffer.capacity - it.input.buffer.size))
        { it with log := it.log ++ [Syscall.read it.input.fd
          (it.input.buffer.capacity - it.input.buffer.size)
          (sys_read (rd k) it.input.buffer.data (it.input.buffer.begin + it.input.buffer.size)
            (it.input.buffer.capacity - it.input.buffer.size)).num_bytes_read
          (sys_read (rd k) it.input.buffer.data (it.input.buffer.begin + it.input.buffer.size)
            (it.input.buffer.capacity - it.input.buffer.size)).bytes] })
      obtain ⟨c, d⟩ := after_read_counts (sys_read (rd k) it.input.buffer.data
        (it.input.buffer.begin + it.input.buffer.size)
        (it.input.buffer.capacity - it.input.buffer.size))
        { it with log := it.log ++ [Syscall.read it.input.fd
          (it.input.buffer.capacity - it.input.buffer.size)
          (sys_read (rd k) it.input.buffer.data (it.input.buffer.begin + it.input.buffer.size)
            (it.input.buffer.capacity - it.input.buffer.size)).num_bytes_read
          (sys_read (rd k) it.input.buffer.data (it.input.buffer.begin + it.input.buffer.size)
            (it.input.buffer.capacity - it.input.buffer.size)).bytes] }
      exact ⟨a.trans c, b.trans d⟩

theorem read_from_input_counts (rd : Nat → ReadResult) (x : Input) (nc nb : Int) :
    (read_from_input rd x nc nb).num_closed -
        flag_value (read_from_input rd x nc nb).input.is_closed = nc - flag_value x.is_closed ∧
    (read_from_input rd x nc nb).num_buffered -
        flag_value (read_from_input rd x nc nb).input.is_buffered =
      nb - flag_value x.is_buffered := by
  unfold read_from_input
  simp only []
  split_ifs
  · exact ⟨rfl, rfl⟩
  · exact ⟨rfl, rfl⟩
  · exact ⟨rfl, rfl⟩
  · exact read_attempts_counts _ _ _ _
  · exact read_attempts_counts _ _ _ _

theorem read_inputs_counts (rd : Nat → Nat → ReadResult) (i : Nat) (l : List Input)
    (nc nb : Int) :
    (read_inputs rd i l nc nb).num_closed -
        count_flag Input.is_closed (read_inputs rd i l nc nb).inputs =
      nc - count_flag Input.is_closed l ∧
    (read_inputs rd i l nc nb).num_buffered -
        count_flag Input.is_buffered (read_inputs rd i l nc nb).inputs =
      nb - count_flag Input.is_buffered l := by
  induction l generalizing i nc nb with
  | nil => exact ⟨rfl, rfl⟩
  | cons a rest ih =>
    simp only [read_inputs, count_flag_cons]
    obtain ⟨h1, h2⟩ := read_from_input_counts (rd i) a nc nb
    obtain ⟨h3, h4⟩ := ih (i + 1) (read_from_input (rd i) a nc nb).num_closed
      (read_from_input (rd i) a nc nb).num_buffered
    constructor <;> omega

theorem read_from_available_counters (rd : Nat → Nat → ReadResult) (ins : Inputs)
    (outs : Outputs) (h : counters_ok ins outs) :
    counters_ok (read_from_available rd ins).2.1 outs := by
  obtain ⟨h1, h2, h3, h4⟩ := h
  unfold read_from_available
  split_ifs
  · obtain ⟨a, b⟩ := read_inputs_counts rd 0 ins.inputs ins.num_closed ins.num_buffered
    refine ⟨?_, ?_, h3, h4⟩
    · show (read_inputs rd 0 ins.inputs ins.num_closed ins.num_buffered).num_closed =
        count_flag Input.is_closed
          (read_inputs rd 0 ins.inputs ins.num_closed ins.num_buffered).inputs
      omega
    · show (read_inputs rd 0 ins.inputs ins.num_closed ins.num_buffered).num_buffered =
        count_flag Input.is_buffered
          (read_inputs rd 0 ins.inputs ins.num_closed ins.num_buffered).inputs
      omega
  · exact ⟨h1, h2, h3, h4⟩

theorem write_to_output_counts (w : WriteResult) (y : Output) (nc nb : Int) :
    (write_to_output w y nc nb).num_closed -
        flag_value (write_to_output w y nc nb).output.is_closed = nc - flag_value y.is_closed ∧
    (write_to_output w y nc nb).num_busy -
        flag_value (write_to_output w y nc nb).output.is_busy = nb - flag_value y.is_busy := by
  unfold write_to_output
  simp only []
  split_ifs
  · exact ⟨rfl, rfl⟩
  · exact ⟨rfl, rfl⟩
  · refine ⟨rfl, ?_⟩
    show (SET_FLAG _ _ _).2 - flag_value (SET_FLAG _ _ _).1 = _
    rw [SET_FLAG_snd, SET_FLAG_fst]; omega
  · refine ⟨rfl, ?_⟩
    show (SET_FLAG _ _ _).2 - flag_value (SET_FLAG _ _ _).1 = _
    rw [SET_FLAG_snd, SET_FLAG_fst]; omega
  · refine ⟨rfl, ?_⟩
    show (SET_FLAG _ _ _).2 - flag_value (SET_FLAG _ _ _).1 = _
    rw [SET_FLAG_snd, SET_FLAG_fst]; omega
  · refine ⟨rfl, ?_⟩
    show (SET_FLAG _ _ _).2 - flag_value (SET_FLAG _ _ _).1 = _
    rw [SET_FLAG_snd, SET_FLAG_fst]; omega
  · refine ⟨?_, rfl⟩
    show (SET_FLAG _ _ _).2 - flag_value (SET_FLAG _ _ _).1 = _
    rw [SET_FLAG_snd, SET_FLAG_fst]; omega

theorem write_outputs_counts (wr : Nat → WriteResult) (i : Nat) (l : List Output)
    (nc nb : Int) :
    (write_outputs wr i l nc nb).num_closed -
        count_flag Output.is_closed (write_outputs wr i l nc nb).outputs =
      nc - count_flag Output.is_closed l ∧
    (write_outputs wr i l nc nb).num_busy -
        count_flag Output.is_busy (write_outputs wr i l nc nb).outputs =
      nb - count_flag Output.is_busy l := by
  induction l generalizing i nc nb with
  | nil => exact ⟨rfl, rfl⟩
  | cons a rest ih =>
    simp only [write_outputs, count_flag_cons]
    obtain ⟨h1, h2⟩ := write_to_output_counts (wr i) a nc nb
    obtain ⟨h3, h4⟩ := ih (i + 1) (write_to_output (wr i) a nc nb).num_closed
      (write_to_output (wr i) a nc nb).num_busy
    constructor <;> omega

theorem write_to_available_counters (wr : Nat → WriteResult) (ins : Inputs)
    (outs : Outputs) (h : counters_ok ins outs) :
    counters_ok ins (write_to_available wr outs).2.1 := by
  obtain ⟨h1, h2, h3, h4⟩ := h
  unfold write_to_available
  split_ifs
  · obtain ⟨a, b⟩ := write_outputs_counts wr 0 outs.outputs outs.num_closed outs.num_busy
    refine ⟨h1, h2, ?_, ?_⟩
    · show (write_outputs wr 0 outs.outputs outs.num_closed outs.num_busy).num_closed =
        count_flag Output.is_closed
          (write_outputs wr 0 outs.outputs outs.num_closed outs.num_busy).outputs
      omega
    · show (write_outputs wr 0 outs.outputs outs.num_closed outs.num_busy).num_busy =
        count_flag Output.is_busy
          (write_outputs wr 0 outs.outputs outs.num_closed outs.num_busy).outputs
      omega
  · exact ⟨h1, h2, h3, h4⟩
theorem exchange_inputs_counts (l : List Input) (i0 : Nat) (nb : Int) (o : Outputs) :
    (exchange_inputs i0 l nb o).num_buffered -
        count_flag Input.is_buffered (exchange_inputs i0 l nb o).inputs =
      nb - count_flag Input.is_buffered l ∧
    count_flag Input.is_closed (exchange_inputs i0 l nb o).inputs =
      count_flag Input.is_closed l ∧
    (exchange_inputs i0 l nb o).outputs.num_busy -
        count_flag Output.is_busy (exchange_inputs i0 l nb o).outputs.outputs =
      o.num_busy - count_flag Output.is_busy o.outputs ∧
    (exchange_inputs i0 l nb o).outputs.num_closed = o.num_closed ∧
    count_flag Output.is_closed (exchange_inputs i0 l nb o).outputs.outputs =
      count_flag Output.is_closed o.outputs := by
  induction l generalizing i0 nb o with
  | nil => exact ⟨rfl, rfl, rfl, rfl, rfl⟩
  | cons input rest ih =>
    simp only [exchange_inputs]
    split_ifs with h1 h2 h3
    · exact ⟨rfl, rfl, rfl, rfl, rfl⟩
    · exact ⟨rfl, rfl, rfl, rfl, rfl⟩
    · obtain ⟨a, b, c, d, e⟩ := ih (i0 + 1) nb o
      simp only [count_flag_cons]
      exact ⟨by omega, by omega, c, d, e⟩
    · obtain ⟨f1, f2, f3, _, _⟩ := find_idle_output_frame o.outputs.length o
      split
      · obtain ⟨a, b, c, d, e⟩ := ih (i0 + 1) nb (find_idle_output o.outputs.length o).1
        simp only [count_flag_cons]
        rw [f1, f2] at c
        rw [f3] at d
        rw [f1] at e
        exact ⟨by omega, by omega, c, d, e⟩
      · rename_i k0 y0 hsome
        have hs := find_idle_output_some _ _ _ _ hsome
        have hb : input.is_buffered = true := by simpa using h3
        have hq := pair_up_eq input nb (find_idle_output o.outputs.length o).1 k0 y0
        generalize pair_up input nb (find_idle_output o.outputs.length o).1 k0 y0 = q at hq ⊢
        obtain ⟨x1, nb1, o1⟩ := q
        simp only [Prod.mk.injEq] at hq
        obtain ⟨hx1, hnb1, ho1⟩ := hq
        obtain ⟨a, b, c, d, e⟩ := ih (i0 + 1) nb1 o1
        have g1 : o1.num_busy = o.num_busy + 1 - flag_value y0.is_busy := by rw [ho1, f2]
        have g2 : o1.num_closed = o.num_closed := by rw [ho1, f3]
        have g3 : count_flag Output.is_busy o1.outputs =
            count_flag Output.is_busy o.outputs - flag_value y0.is_busy + 1 := by
          rw [ho1]
          simp only [f1]
          rw [count_flag_set _ o.outputs k0 _ y0 hs.1]
          rfl
        have g4 : count_flag Output.is_closed o1.outputs =
            count_flag Output.is_closed o.outputs := by
          rw [ho1]
          simp only [f1]
          rw [count_flag_set _ o.outputs k0 _ y0 hs.1]
          have : (exchanged_output input y0).is_closed = y0.is_closed := rfl
          rw [this]; omega
        have g5 : flag_value x1.is_buffered = 0 := by rw [hx1]; rfl
        have g6 : flag_value x1.is_closed = flag_value input.is_closed := by rw [hx1]; rfl
        have g7 : flag_value input.is_buffered = 1 := by rw [hb]; rfl
        simp only [count_flag_cons]
        refine ⟨?_, ?_, ?_, ?_, ?_⟩ <;> omega

theorem exchange_buffered_records_counters (ins : Inputs) (outs : Outputs)
    (h : counters_ok ins outs) :
    counters_ok (exchange_buffered_records ins outs).2.1
      (exchange_buffered_records ins outs).2.2.1 := by
  obtain ⟨h1, h2, h3, h4⟩ := h
  obtain ⟨a, b, c, d, e⟩ := exchange_inputs_counts ins.inputs 0 ins.num_buffered outs
  refine ⟨?_, ?_, ?_, ?_⟩
  · show ins.num_closed = count_flag Input.is_closed
      (exchange_inputs 0 ins.inputs ins.num_buffered outs).inputs
    omega
  · show (exchange_inputs 0 ins.inputs ins.num_buffered outs).num_buffered =
      count_flag Input.is_buffered (exchange_inputs 0 ins.inputs ins.num_buffered outs).inputs
    omega
  · show (exchange_inputs 0 ins.inputs ins.num_buffered outs).outputs.num_closed =
      count_flag Output.is_closed
        (exchange_inputs 0 ins.inputs ins.num_buffered outs).outputs.outputs
    omega
  · show (exchange_inputs 0 ins.inputs ins.num_buffered outs).outputs.num_busy =
      count_flag Output.is_busy
        (exchange_inputs 0 ins.inputs ins.num_buffered outs).outputs.outputs
    omega

theorem step_counters (os : Oracle) (m : Machine) (h : counters_ok m.inputs m.outputs) :
    counters_ok (step os m).inputs (step os m).outputs := by
  unfold step
  split
  · exact records_are_flowing_between_counters _ _ _ _ _ h
  · exact write_to_available_counters _ _ _ h
  · exact read_from_available_counters _ _ _ h
  · exact exchange_buffered_records_counters _ _ h
  · exact write_to_available_counters _ _ _ h
  · exact h

theorem run_counters (answers : List Oracle) (m : Machine)
    (h : counters_ok m.inputs m.outputs) :
    counters_ok (run answers m).inputs (run answers m).outputs := by
  induction answers generalizing m with
  | nil => exact h
  | cons os rest ih => exact ih _ (step_counters os m h)

theorem count_flag_false {α β : Type} (p : α → Bool) (f : β → α) (l : List β)
    (h : ∀ b, p (f b) = false) : count_flag p (l.map f) = 0 := by
  induction l with
  | nil => rfl
  | cons a rest ih => rw [List.map_cons, count_flag_cons, ih, h]; rfl

theorem start_counters (cap : Nat) (ins outs : List (Int × String)) :
    counters_ok (start (fresh_inputs cap ins) (fresh_outputs cap outs)).inputs
      (start (fresh_inputs cap ins) (fresh_outputs cap outs)).outputs := by
  refine ⟨?_, ?_, ?_, ?_⟩
  · exact (count_flag_false Input.is_closed _ ins (fun _ => rfl)).symm
  · exact (count_flag_false Input.is_buffered _ ins (fun _ => rfl)).symm
  · exact (count_flag_false Output.is_closed _ outs (fun _ => rfl)).symm
  · exact (count_flag_false Output.is_busy _ outs (fun _ => rfl)).symm

theorem reachable_counters (cap : Nat) (ins outs : List (Int × String)) (m : Machine)
    (h : Reachable cap ins outs m) : counters_ok m.inputs m.outputs := by
  obtain ⟨answers, rfl⟩ := h
  exact run_counters _ _ (start_counters cap ins outs)

/-- C4, the code at the failing input. After the first output has been closed by a
fatal write error (it stays busy) and the input has read a second record, the state is
reachable, the input is buffered and the second output is open and idle, yet
`exchange_buffered_records` returns 0: `num_busy` (1, the closed output) equals
`num_outputs - num_closed` (2 - 1), so the loop stops as if every open output were busy. -/
theorem exchange_stops_with_idle_output :
    Reachable 4 [(3, "in")] [(4, "out0"), (5, "out1")] (run survivor_answers one_to_two) ∧
    (run survivor_answers one_to_two).stage = Stage.exchange ∧
    (run survivor_answers one_to_two).inputs.inputs.map Input.is_buffered = [true] ∧
    (run survivor_answers one_to_two).outputs.outputs.map
      (fun y => (y.fd, y.is_closed, y.is_busy)) = [(5, false, false), (4, true, true)] ∧
    ((run survivor_answers one_to_two).inputs.num_buffered,
      (run survivor_answers one_to_two).outputs.num_busy,
      (run survivor_answers one_to_two).outputs.num_closed) = (1, 1, 1) ∧
    (exchange_buffered_records (run survivor_answers one_to_two).inputs
      (run survivor_answers one_to_two).outputs).1 = 0 :=
  ⟨⟨survivor_answers, rfl⟩, by decide⟩

/-! ## Array lengths and the poller's statics -/

theorem read_inputs_length (rd : Nat → Nat → ReadResult) (i : Nat) (l : List Input)
    (nc nb : Int) : (read_inputs rd i l nc nb).inputs.length = l.length := by
  induction l generalizing i nc nb with
  | nil => rfl
  | cons a rest ih => simp only [read_inputs, List.length_cons, ih]

theorem write_outputs_length (wr : Nat → WriteResult) (i : Nat) (l : List Output)
    (nc nb : Int) : (write_outputs wr i l nc nb).outputs.length = l.length := by
  induction l generalizing i nc nb with
  | nil => rfl
  | cons a rest ih => simp only [write_outputs, List.length_cons, ih]

theorem exchange_inputs_length (l : List Input) (i0 : Nat) (nb : Int) (o : Outputs) :
    (exchange_inputs i0 l nb o).inputs.length = l.length ∧
    (exchange_inputs i0 l nb o).outputs.outputs.length = o.outputs.length := by
  induction l generalizing i0 nb o with
  | nil => exact ⟨rfl, rfl⟩
  | cons input rest ih =>
    simp only [exchange_inputs]
    split_ifs with h1 h2 h3
    · exact ⟨rfl, rfl⟩
    · exact ⟨rfl, rfl⟩
    · obtain ⟨a, b⟩ := ih (i0 + 1) nb o
      exact ⟨by simp only [List.length_cons, a], b⟩
    · have hf := find_idle_output_frame o.outputs.length o
      split
      · obtain ⟨a, b⟩ := ih (i0 + 1) nb (find_idle_output o.outputs.length o).1
        exact ⟨by simp only [List.length_cons, a], by rw [b, hf.1]⟩
      · rename_i k0 y0 hsome
        have hq := pair_up_eq input nb (find_idle_output o.outputs.length o).1 k0 y0
        generalize pair_up input nb (find_idle_output o.outputs.length o).1 k0 y0 = q at hq ⊢
        obtain ⟨x1, nb1, o1⟩ := q
        simp only [Prod.mk.injEq] at hq
        obtain ⟨_, _, ho1⟩ := hq
        obtain ⟨a, b⟩ := ih (i0 + 1) nb1 o1
        refine ⟨by simp only [List.length_cons, a], ?_⟩
        rw [b, ho1]
        simp only [List.length_set, hf.1]

theorem length_inputs_stable (n : Nat) : InputsStable (fun l => l.length = n) :=
  ⟨fun l i x r e _ h => by simpa using h, fun l i j x y _ _ _ h => by simpa using h⟩

theorem length_outputs_stable (n : Nat) : OutputsStable (fun l => l.length = n) :=
  ⟨fun l i y w _ h => by simpa using h, fun l i j x y _ _ _ h => by simpa using h⟩

theorem step_length (os : Oracle) (m : Machine) :
    (step os m).inputs.inputs.length = m.inputs.inputs.length ∧
    (step os m).outputs.outputs.length = m.outputs.outputs.length := by
  unfold step
  split
  · exact records_are_flowing_between_inv _ _ (length_inputs_stable _)
      (length_outputs_stable _) _ _ _ _ _ rfl rfl
  · refine ⟨rfl, ?_⟩
    show (write_to_available os.wr m.outputs).2.1.outputs.length = _
    unfold write_to_available
    split_ifs
    · exact write_outputs_length _ _ _ _ _
    · rfl
  · refine ⟨?_, rfl⟩
    show (read_from_available os.rd m.inputs).2.1.inputs.length = _
    unfold read_from_available
    split_ifs
    · exact read_inputs_length _ _ _ _ _
    · rfl
  · exact exchange_inputs_length _ _ _ _
  · refine ⟨rfl, ?_⟩
    show (write_to_available os.wr m.outputs).2.1.outputs.length = _
    unfold write_to_available
    split_ifs
    · exact write_outputs_length _ _ _ _ _
    · rfl
  · exact ⟨rfl, rfl⟩

theorem records_are_flowing_between_statics (ne : Int) (rev : Nat → Events)
    (st : PollStatic) (ins : Inputs) (outs : Outputs) :
    (records_are_flowing_between ne rev st ins outs).statics = st ∨
    (records_are_flowing_between ne rev st ins outs).statics = allocate_fds st ins outs := by
  unfold records_are_flowing_between
  simp only []
  split_ifs
  · left; rfl
  · right; rfl
  · right; rfl

theorem step_statics (os : Oracle) (m : Machine) (n : Int)
    (hn : m.inputs.num_inputs + m.outputs.num_outputs = n)
    (h : m.statics.fds_is_null = true ∨ m.statics.num_inputs_outputs = n) :
    (step os m).statics.fds_is_null = true ∨ (step os m).statics.num_inputs_outputs = n := by
  unfold step
  split
  · rcases records_are_flowing_between_statics os.num_events os.revents m.statics
      m.inputs m.outputs with e | e
    · show (records_are_flowing_between _ _ _ _ _).statics.fds_is_null = true ∨
        (records_are_flowing_between _ _ _ _ _).statics.num_inputs_outputs = n
      rw [e]; exact h
    · show (records_are_flowing_between _ _ _ _ _).statics.fds_is_null = true ∨
        (records_are_flowing_between _ _ _ _ _).statics.num_inputs_outputs = n
      rw [e]
      unfold allocate_fds
      split_ifs with c
      · right; exact hn
      · rcases h with h | h
        · exact absurd h c
        · right; exact h
  all_goals exact h

theorem run_length_statics (answers : List Oracle) (m : Machine) (n : Int)
    (hn : m.inputs.num_inputs + m.outputs.num_outputs = n)
    (h : m.statics.fds_is_null = true ∨ m.statics.num_inputs_outputs = n) :
    (run answers m).inputs.inputs.length = m.inputs.inputs.length ∧
    (run answers m).outputs.outputs.length = m.outputs.outputs.length ∧
    ((run answers m).statics.fds_is_null = true ∨
      (run answers m).statics.num_inputs_outputs = n) := by
  induction answers generalizing m with
  | nil => exact ⟨rfl, rfl, h⟩
  | cons os rest ih =>
    obtain ⟨l1, l2⟩ := step_length os m
    have hn' : (step os m).inputs.num_inputs + (step os m).outputs.num_outputs = n := by
      unfold Inputs.num_inputs Outputs.num_outputs at hn ⊢
      rw [l1, l2]; exact hn
    obtain ⟨a, b, c⟩ := ih (step os m) hn' (step_statics os m n hn h)
    exact ⟨a.trans l1, b.trans l2, c⟩

theorem run_returned (answers : List Oracle) (m : Machine) (h : m.stage = Stage.returned) :
    run answers m = m := by
  induction answers with
  | nil => rfl
  | cons os rest ih =>
    have : step os m = m := by unfold step; rw [h]
    simp only [run, this, ih]

theorem run_append (a b : List Oracle) (m : Machine) : run (a ++ b) m = run b (run a m) := by
  induction a generalizing m with
  | nil => rfl
  | cons os rest ih => exact ih (step os m)

/-- C5. Shutdown predicate. Whenever `inputs.num_closed == inputs.num_inputs`,
`inputs.num_buffered == 0` and `outputs.num_busy == 0`, `records_are_flowing_between` returns
0 with no system call made (no poll) and the statics, the inputs and the outputs exactly as
they were; so a loop that stands at the poller in such a state is left at the next stage
with nothing changed, and `mkmimo_nonblocking` returns 0. -/
theorem shutdown_predicate (num_events : Int) (revents : Nat → Events) (st : PollStatic)
    (ins : Inputs) (outs : Outputs)
    (h1 : ins.num_closed = ins.num_inputs) (h2 : ins.num_buffered = 0)
    (h3 : outs.num_busy = 0) :
    records_are_flowing_between num_events revents st ins outs =
      { ret := 0, statics := st, inputs := ins, outputs := outs, log := [] } ∧
    (∀ (log : List Syscall) (os : Oracle) (rest : List Oracle),
      run (os :: rest)
        { inputs := ins, outputs := outs, statics := st, log := log, stage := Stage.poller } =
        { inputs := ins, outputs := outs, statics := st, log := log,
          stage := Stage.returned }) ∧
    (∀ (cap : Nat) (set_nonblocking : Int → Int) (before : List Oracle) (os : Oracle)
      (rest : List Oracle) (ins0 : Inputs) (outs0 : Outputs) (log : List Syscall),
      (initialize_ios cap set_nonblocking ins0 outs0).1 = 0 →
      run before (start (initialize_ios cap set_nonblocking ins0 outs0).2.1
          (initialize_ios cap set_nonblocking ins0 outs0).2.2) =
        { inputs := ins, outputs := outs, statics := st, log := log, stage := Stage.poller } →
      mkmimo_nonblocking cap set_nonblocking (before ++ os :: rest) ins0 outs0 = some 0) := by
  have hf : ∀ (ne : Int) (rev : Nat → Events), records_are_flowing_between ne rev st ins outs =
      { ret := 0, statics := st, inputs := ins, outputs := outs, log := [] } := by
    intro ne rev
    unfold records_are_flowing_between
    rw [if_pos ⟨h1, h2, h3⟩]
  have hrun : ∀ (log : List Syscall) (os : Oracle) (rest : List Oracle),
      run (os :: rest)
        { inputs := ins, outputs := outs, statics := st, log := log, stage := Stage.poller } =
        { inputs := ins, outputs := outs, statics := st, log := log,
          stage := Stage.returned } := by
    intro log os rest
    have hs : step os
        { inputs := ins, outputs := outs, statics := st, log := log, stage := Stage.poller } =
        { inputs := ins, outputs := outs, statics := st, log := log,
          stage := Stage.returned } := by
      simp only [step, hf, List.append_nil, ne_eq, not_true_eq_false, if_false]
    simp only [run, hs]
    exact run_returned _ _ rfl
  refine ⟨hf _ _, hrun, ?_⟩
  intro cap nb before os rest ins0 outs0 log hinit hbefore
  unfold mkmimo_nonblocking
  simp only [hinit, ne_eq, not_true_eq_false, if_false]
  rw [run_append, hbefore, hrun]
  rfl

/-- The theorem `shutdown_predicate` at no input and one idle output. -/
theorem shutdown_predicate_witness :
    records_are_flowing_between 0 (fun _ => ⟨false, false, false⟩) ⟨true, 0⟩
        (fresh_inputs 4 []) (fresh_outputs 4 [(4, "out")]) =
      { ret := 0, statics := ⟨true, 0⟩, inputs := fresh_inputs 4 [],
        outputs := fresh_outputs 4 [(4, "out")], log := [] } :=
  (shutdown_predicate 0 (fun _ => ⟨false, false, false⟩) ⟨true, 0⟩
    (fresh_inputs 4 []) (fresh_outputs 4 [(4, "out")]) rfl rfl rfl).1

/-- C6, counterexample. With one open input and one open output, nothing buffered and
nothing busy, a failing `poll` (result -1) makes `records_are_flowing_between` return 0
although the input is not closed: the shutdown predicate does not hold. -/
theorem poll_failure_stops_the_loop :
    (records_are_flowing_between (-1) quiet.revents one_to_one.statics one_to_one.inputs
      one_to_one.outputs).ret = 0 ∧
    ¬ (one_to_one.inputs.num_closed = one_to_one.inputs.num_inputs ∧
       one_to_one.inputs.num_buffered = 0 ∧ one_to_one.outputs.num_busy = 0) := by
  decide

theorem handle_events_ret (ne : Int) (rev : Nat → Events) (p q : Int) (ins : Inputs)
    (outs : Outputs) :
    (handle_events ne rev p q ins outs).1 = if ne < 0 then 0 else 1 := by
  unfold handle_events
  by_cases c1 : ne < 0
  · rw [if_pos c1, if_pos c1]
  · rw [if_neg c1, if_neg c1]
    by_cases c2 : ne > 0
    · rw [if_pos c2]
    · rw [if_neg c2]

theorem poller_ret_zero_iff (num_events : Int) (revents : Nat → Events) (st : PollStatic)
    (ins : Inputs) (outs : Outputs) :
    ((records_are_flowing_between num_events revents st ins outs).ret = 0 ↔
      ((ins.num_closed = ins.num_inputs ∧ ins.num_buffered = 0 ∧ outs.num_busy = 0) ∨
       (allocate_fds st ins outs).num_inputs_outputs - ins.num_closed - outs.num_closed = 0 ∨
       num_events < 0)) ∧
    ((records_are_flowing_between num_events revents st ins outs).ret = 0 ∨
     (records_are_flowing_between num_events revents st ins outs).ret = 1) := by
  obtain ⟨m1, _, _, m4, _⟩ := move_closed_inputs_outputs_frame ins outs
  unfold records_are_flowing_between
  simp only []
  rw [m1, m4]
  by_cases c1 : ins.num_closed = ins.num_inputs ∧ ins.num_buffered = 0 ∧ outs.num_busy = 0
  · rw [if_pos c1]
    exact ⟨⟨fun _ => Or.inl c1, fun _ => rfl⟩, Or.inl rfl⟩
  · rw [if_neg c1]
    by_cases c2 : (allocate_fds st ins outs).num_inputs_outputs - ins.num_closed -
        outs.num_closed = 0
    · rw [if_pos c2]
      exact ⟨⟨fun _ => Or.inr (Or.inl c2), fun _ => rfl⟩, Or.inl rfl⟩
    · rw [if_neg c2]
      simp only [handle_events_ret]
      by_cases c3 : num_events < 0
      · rw [if_pos c3]
        exact ⟨⟨fun _ => Or.inr (Or.inr c3), fun _ => rfl⟩, Or.inl rfl⟩
      · rw [if_neg c3]
        refine ⟨⟨fun h => absurd h (by decide), ?_⟩, Or.inr rfl⟩
        rintro (h | h | h)
        · exact absurd h c1
        · exact absurd h c2
        · exact absurd h c3

/-- C6, amended. `records_are_flowing_between` returns 0 exactly when the shutdown predicate
holds (all inputs closed, `num_buffered == 0`, `num_busy == 0`), or no endpoint is left to
poll (`num_inputs_outputs - inputs.num_closed - outputs.num_closed == 0`), or the readiness
call returns a negative result; in every other case it returns 1. A poll failure stops the
loop. -/
theorem poller_stops_exactly_when (num_events : Int) (revents : Nat → Events) (st : PollStatic)
    (ins : Inputs) (outs : Outputs) :
    ((records_are_flowing_between num_events revents st ins outs).ret = 0 ↔
      ((ins.num_closed = ins.num_inputs ∧ ins.num_buffered = 0 ∧ outs.num_busy = 0) ∨
       (allocate_fds st ins outs).num_inputs_outputs - ins.num_closed - outs.num_closed = 0 ∨
       num_events < 0)) ∧
    ((records_are_flowing_between num_events revents st ins outs).ret = 0 ∨
     (records_are_flowing_between num_events revents st ins outs).ret = 1) :=
  poller_ret_zero_iff num_events revents st ins outs

/-- C7, counterexample. After the input has read `a\n`, the buffer has been handed to the
output and the output has written it completely, the output's buffer has `begin = 2`,
`size = 0` and `end_of_last_record = 1`: the boundary is neither `-1` nor inside
`[begin, begin + size)`. -/
theorem output_boundary_after_complete_write :
    Reachable 4 [(3, "in")] [(4, "out")] (run complete_write_answers one_to_one) ∧
    (run complete_write_answers one_to_one).outputs.outputs.map
      (fun y => (y.buffer.begin, y.buffer.size, y.buffer.end_of_last_record)) = [(2, 0, 1)] ∧
    ¬ ∀ y ∈ (run complete_write_answers one_to_one).outputs.outputs,
      y.buffer.end_of_last_record = -1 ∨
      (y.buffer.begin ≤ y.buffer.end_of_last_record ∧
        y.buffer.end_of_last_record < y.buffer.begin + y.buffer.size) :=
  ⟨⟨complete_write_answers, rfl⟩, by decide⟩

/-- C7, amended. In every state reachable from the initial state, at every stage boundary:
every input buffer has `0 ≤ begin`, `0 ≤ size`, `begin + size ≤ capacity` and
`end_of_last_record = -1` or `begin ≤ end_of_last_record < begin + size`; every output
buffer has `0 ≤ begin`, `0 ≤ size`, `begin + size ≤ capacity` and
`end_of_last_record = begin + size - 1`, so the boundary is inside `[begin, begin + size)`
as long as bytes are left (after a partial write) and is `begin - 1` once the buffer is
empty (never used, or written completely). -/
theorem buffer_invariant (cap : Nat) (ins outs : List (Int × String)) (m : Machine)
    (h : Reachable cap ins outs m) :
    (∀ x ∈ m.inputs.inputs,
      0 ≤ x.buffer.begin ∧ 0 ≤ x.buffer.size ∧
      x.buffer.begin + x.buffer.size ≤ x.buffer.capacity ∧
      (x.buffer.end_of_last_record = -1 ∨
        (x.buffer.begin ≤ x.buffer.end_of_last_record ∧
          x.buffer.end_of_last_record < x.buffer.begin + x.buffer.size))) ∧
    (∀ y ∈ m.outputs.outputs,
      0 ≤ y.buffer.begin ∧ 0 ≤ y.buffer.size ∧
      y.buffer.begin + y.buffer.size ≤ y.buffer.capacity ∧
      y.buffer.end_of_last_record = y.buffer.begin + y.buffer.size - 1 ∧
      (0 < y.buffer.size →
        y.buffer.begin ≤ y.buffer.end_of_last_record ∧
        y.buffer.end_of_last_record < y.buffer.begin + y.buffer.size) ∧
      (y.buffer.size = 0 → y.buffer.end_of_last_record = y.buffer.begin - 1)) := by
  obtain ⟨hi, ho⟩ := reachable_ok cap ins outs m h
  constructor
  · intro x hx
    obtain ⟨x1, x2, x3, ⟨x4, _⟩, _⟩ := hi x hx
    refine ⟨by omega, x2, by omega, ?_⟩
    rcases x4 with e | ⟨e1, e2, _⟩
    · exact Or.inl e
    · exact Or.inr ⟨e1, e2⟩
  · intro y hy
    obtain ⟨y1, y2, y3, y4, _⟩ := ho y hy
    exact ⟨y1, y2, y3, y4, fun _ => ⟨by omega, by omega⟩, fun _ => by omega⟩

/-- The theorem `buffer_invariant` at the state after a complete write. -/
theorem buffer_invariant_witness :
    (∀ x ∈ (run complete_write_answers one_to_one).inputs.inputs,
      0 ≤ x.buffer.begin ∧ 0 ≤ x.buffer.size ∧
      x.buffer.begin + x.buffer.size ≤ x.buffer.capacity ∧
      (x.buffer.end_of_last_record = -1 ∨
        (x.buffer.begin ≤ x.buffer.end_of_last_record ∧
          x.buffer.end_of_last_record < x.buffer.begin + x.buffer.size))) ∧
    (∀ y ∈ (run complete_write_answers one_to_one).outputs.outputs,
      0 ≤ y.buffer.begin ∧ 0 ≤ y.buffer.size ∧
      y.buffer.begin + y.buffer.size ≤ y.buffer.capacity ∧
      y.buffer.end_of_last_record = y.buffer.begin + y.buffer.size - 1 ∧
      (0 < y.buffer.size →
        y.buffer.begin ≤ y.buffer.end_of_last_record ∧
        y.buffer.end_of_last_record < y.buffer.begin + y.buffer.size) ∧
      (y.buffer.size = 0 → y.buffer.end_of_last_record = y.buffer.begin - 1)) :=
  buffer_invariant 4 [(3, "in")] [(4, "out")] (run complete_write_answers one_to_one)
    ⟨complete_write_answers, rfl⟩

/-- C8, counterexample. Two inputs reach end of file in the same reader stage while the
output is busy. The compaction of the next poller call clears `is_readable` of the first
closed input only, the poll covers no input, and the poller leaves `num_readable = 0` while
one (closed) input still has `is_readable` set. -/
theorem stale_readable_flag :
    Reachable 4 [(3, "in0"), (4, "in1")] [(5, "out")] (run stale_answers two_to_one) ∧
    (run stale_answers two_to_one).stage = Stage.writer ∧
    (run stale_answers two_to_one).inputs.inputs.map
      (fun x => (x.fd, x.is_closed, x.is_readable)) = [(3, true, false), (4, true, true)] ∧
    (run stale_answers two_to_one).inputs.num_readable = 0 ∧
    count_flag Input.is_readable (run stale_answers two_to_one).inputs.inputs = 1 :=
  ⟨⟨stale_answers, rfl⟩, by decide⟩
theorem count_flag_append {α : Type} (p : α → Bool) (l1 l2 : List α) :
    count_flag p (l1 ++ l2) = count_flag p l1 + count_flag p l2 := by
  unfold count_flag
  rw [List.countP_append]
  push_cast
  rfl

theorem count_flag_le_length {α : Type} (p : α → Bool) (l : List α) :
    0 ≤ count_flag p l ∧ count_flag p l ≤ l.length := by
  unfold count_flag
  have := List.countP_le_length p (l := l)
  omega

theorem count_take_succ_set {α : Type} (p : α → Bool) (l : List α) (i : Nat) (a x : α)
    (h : l[i]? = some x) :
    count_flag p ((l.set i a).take (i + 1)) = count_flag p (l.take i) + flag_value (p a) := by
  have h2 : (l.take (i + 1))[i]? = some x := by
    rw [List.getElem?_take]; simp [h]
  rw [List.set_take, count_flag_set p _ i a x h2, List.take_succ, h, count_flag_append]
  simp only [Option.toList, count_flag_cons, count_flag_nil]
  omega

theorem take_succ_none {α : Type} (l : List α) (i : Nat) (h : l[i]? = none) :
    l.take (i + 1) = l.take i := by
  rw [List.take_succ, h]; simp

theorem update_readiness_counts (rev : Nat → Events) (P : Nat) (n i : Nat)
    (ins : Inputs) (outs : Outputs)
    (h1 : ins.num_readable = count_flag Input.is_readable (ins.inputs.take (min i P)))
    (h2 : outs.num_writable = count_flag Output.is_writable (outs.outputs.take (i - P))) :
    (update_readiness rev P n i ins outs).1.num_readable =
      count_flag Input.is_readable
        ((update_readiness rev P n i ins outs).1.inputs.take (min (i + n) P)) ∧
    (update_readiness rev P n i ins outs).2.num_writable =
      count_flag Output.is_writable
        ((update_readiness rev P n i ins outs).2.outputs.take (i + n - P)) := by
  induction n generalizing i ins outs with
  | zero => exact ⟨h1, h2⟩
  | succ n ih =>
    simp only [update_readiness]
    have e : i + (n + 1) = (i + 1) + n := by omega
    rw [e]
    by_cases c : (i : Int) < (P : Int)
    · rw [if_pos c]
      have c' : i < P := by omega
      have m1 : min i P = i := by omega
      have m2 : min (i + 1) P = i + 1 := by omega
      have m3 : i + 1 - P = i - P := by omega
      split
      · rename_i hnone
        apply ih
        · rw [m2, take_succ_none _ _ hnone, ← m1]; exact h1
        · rw [m3]; exact h2
      · rename_i x hx
        apply ih
        · show (if _ then ins.num_readable + 1 else ins.num_readable) =
            count_flag Input.is_readable ((ins.inputs.set i _).take (min (i + 1) P))
          rw [m2, count_take_succ_set _ _ _ _ x hx, h1, m1]
          show _ = _ + flag_value ((rev i).pollin || (rev i).pollhup)
          cases ((rev i).pollin || (rev i).pollhup) <;> simp [flag_value]
        · rw [m3]; exact h2
    · rw [if_neg c]
      have c' : P ≤ i := by omega
      have m1 : min i P = P := by omega
      have m2 : min (i + 1) P = P := by omega
      have m3 : i + 1 - P = (i - P) + 1 := by omega
      have m4 : ((i : Int) - (P : Int)).toNat = i - P := by omega
      rw [m4]
      split
      · rename_i hnone
        apply ih
        · rw [m2, ← m1]; exact h1
        · rw [m3, take_succ_none _ _ hnone]; exact h2
      · rename_i y hy
        apply ih
        · rw [m2, ← m1]; exact h1
        · show (if _ then outs.num_writable + 1 else outs.num_writable) =
            count_flag Output.is_writable ((outs.outputs.set (i - P) _).take (i + 1 - P))
          rw [m3, count_take_succ_set _ _ _ _ y hy, h2]
          show _ = _ + flag_value (!y.is_busy || ((rev i).pollout || (rev i).pollhup))
          cases (!y.is_busy || ((rev i).pollout || (rev i).pollhup)) <;> simp [flag_value]

theorem mark_all_ready_counts (P : Nat) (n i : Nat)
    (ins : Inputs) (outs : Outputs)
    (h1 : ins.num_readable = count_flag Input.is_readable (ins.inputs.take (min i P)))
    (h2 : outs.num_writable = count_flag Output.is_writable (outs.outputs.take (i - P))) :
    (mark_all_ready P n i ins outs).1.num_readable =
      count_flag Input.is_readable
        ((mark_all_ready P n i ins outs).1.inputs.take (min (i + n) P)) ∧
    (mark_all_ready P n i ins outs).2.num_writable =
      count_flag Output.is_writable
        ((mark_all_ready P n i ins outs).2.outputs.take (i + n - P)) := by
  induction n generalizing i ins outs with
  | zero => exact ⟨h1, h2⟩
  | succ n ih =>
    simp only [mark_all_ready]
    have e : i + (n + 1) = (i + 1) + n := by omega
    rw [e]
    by_cases c : (i : Int) < (P : Int)
    · rw [if_pos c]
      have c' : i < P := by omega
      have m1 : min i P = i := by omega
      have m2 : min (i + 1) P = i + 1 := by omega
      have m3 : i + 1 - P = i - P := by omega
      split
      · rename_i hnone
        apply ih
        · rw [m2, take_succ_none _ _ hnone, ← m1]; exact h1
        · rw [m3]; exact h2
      · rename_i x hx
        apply ih
        · show ins.num_readable + 1 =
            count_flag Input.is_readable ((ins.inputs.set i _).take (min (i + 1) P))
          rw [m2, count_take_succ_set _ _ _ _ x hx, h1, m1]
          rfl
        · rw [m3]; exact h2
    · rw [if_neg c]
      have c' : P ≤ i := by omega
      have m1 : min i P = P := by omega
      have m2 : min (i + 1) P = P := by omega
      have m3 : i + 1 - P = (i - P) + 1 := by omega
      have m4 : ((i : Int) - (P : Int)).toNat = i - P := by omega
      rw [m4]
      split
      · rename_i hnone
        apply ih
        · rw [m2, ← m1]; exact h1
        · rw [m3, take_succ_none _ _ hnone]; exact h2
      · rename_i y hy
        apply ih
        · rw [m2, ← m1]; exact h1
        · show outs.num_writable + 1 =
            count_flag Output.is_writable ((outs.outputs.set (i - P) _).take (i + 1 - P))
          rw [m3, count_take_succ_set _ _ _ _ y hy, h2]
          rfl
theorem handle_events_counts (ne : Int) (rev : Nat → Events) (P Q : Nat) (hPQ : P ≤ Q)
    (ins : Inputs) (outs : Outputs)
    (h1 : ins.num_readable = 0) (h2 : outs.num_writable = 0)
    (hr : (handle_events ne rev P Q ins outs).1 ≠ 0) :
    (handle_events ne rev P Q ins outs).2.1.num_readable =
      count_flag Input.is_readable ((handle_events ne rev P Q ins outs).2.1.inputs.take P) ∧
    (handle_events ne rev P Q ins outs).2.2.1.num_writable =
      count_flag Output.is_writable
        ((handle_events ne rev P Q ins outs).2.2.1.outputs.take (Q - P)) := by
  have m1 : min (0 + Q) P = P := by omega
  have m2 : 0 + Q - P = Q - P := by omega
  have m3 : ((Q : Nat) : Int).toNat = Q := by omega
  have z1 : ins.num_readable = count_flag Input.is_readable (ins.inputs.take (min 0 P)) := by
    rw [h1, Nat.zero_min, List.take_zero]; rfl
  have z2 : outs.num_writable = count_flag Output.is_writable (outs.outputs.take (0 - P)) := by
    rw [h2, Nat.zero_sub, List.take_zero]; rfl
  unfold handle_events at hr ⊢
  by_cases c1 : ne < 0
  · rw [if_pos c1] at hr; exact absurd rfl hr
  · rw [if_neg c1]
    by_cases c2 : ne > 0
    · rw [if_pos c2]
      have := update_readiness_counts rev P Q 0 ins outs z1 z2
      rw [m1, m2] at this
      rw [m3]
      exact this
    · rw [if_neg c2]
      have := mark_all_ready_counts P Q 0 ins outs z1 z2
      rw [m1, m2] at this
      rw [m3]
      exact this

theorem poller_readiness_counts (ne : Int) (rev : Nat → Events) (st : PollStatic)
    (ins : Inputs) (outs : Outputs) (hc : counters_ok ins outs)
    (hs : st.fds_is_null = true ∨ st.num_inputs_outputs = ins.num_inputs + outs.num_outputs)
    (hr : (records_are_flowing_between ne rev st ins outs).ret ≠ 0) :
    (records_are_flowing_between ne rev st ins outs).inputs.num_readable =
      count_flag Input.is_readable
        ((records_are_flowing_between ne rev st ins outs).inputs.inputs.take
          ((records_are_flowing_between ne rev st ins outs).inputs.num_inputs -
            (records_are_flowing_between ne rev st ins outs).inputs.num_closed).toNat) ∧
    (records_are_flowing_between ne rev st ins outs).outputs.num_writable =
      count_flag Output.is_writable
        ((records_are_flowing_between ne rev st ins outs).outputs.outputs.take
          ((records_are_flowing_between ne rev st ins outs).outputs.num_outputs -
            (records_are_flowing_between ne rev st ins outs).outputs.num_closed).toNat) := by
  obtain ⟨f1, _, f3, _, _⟩ := records_are_flowing_between_frame ne rev st ins outs
  obtain ⟨l1, l2⟩ := records_are_flowing_between_inv _ _ (length_inputs_stable _)
    (length_outputs_stable _) ne rev st ins outs rfl rfl
  have n1 : (records_are_flowing_between ne rev st ins outs).inputs.num_inputs =
      ins.num_inputs := by unfold Inputs.num_inputs; rw [l1]
  have n2 : (records_are_flowing_between ne rev st ins outs).outputs.num_outputs =
      outs.num_outputs := by unfold Outputs.num_outputs; rw [l2]
  rw [n1, n2, f1, f3]
  obtain ⟨m1, _, _, m4, _⟩ := move_closed_inputs_outputs_frame ins outs
  obtain ⟨k1, k2⟩ := move_closed_inputs_outputs_inv _ _ (length_inputs_stable _)
    (length_outputs_stable _) ins outs rfl rfl
  have hst : (allocate_fds st ins outs).num_inputs_outputs = ins.num_inputs + outs.num_outputs := by
    unfold allocate_fds
    split_ifs with c
    · rfl
    · rcases hs with h | h
      · exact absurd h c
      · exact h
  obtain ⟨c1, _, c3, _⟩ := hc
  have b1 := count_flag_le_length Input.is_closed ins.inputs
  have b2 := count_flag_le_length Output.is_closed outs.outputs
  have hni : ins.num_inputs = (ins.inputs.length : Int) := rfl
  have hno : outs.num_outputs = (outs.outputs.length : Int) := rfl
  unfold records_are_flowing_between at hr ⊢
  simp only [] at hr ⊢
  split_ifs at hr ⊢ with d1 d2
  · exact absurd rfl hr
  · exact absurd rfl hr
  · have e1 : (move_closed_inputs_outputs_to_the_end ins outs).1.num_inputs -
        (move_closed_inputs_outputs_to_the_end ins outs).1.num_closed =
        (((ins.num_inputs - ins.num_closed).toNat : Nat) : Int) := by
      unfold Inputs.num_inputs
      rw [k1, m1]
      unfold Inputs.num_inputs at hni
      omega
    have e2 : (allocate_fds st ins outs).num_inputs_outputs -
        (move_closed_inputs_outputs_to_the_end ins outs).1.num_closed -
        (move_closed_inputs_outputs_to_the_end ins outs).2.num_closed =
        ((((ins.num_inputs - ins.num_closed).toNat +
          (outs.num_outputs - outs.num_closed).toNat : Nat)) : Int) := by
      rw [hst, m1, m4]
      push_cast
      omega
    rw [e1, e2] at hr ⊢
    have := handle_events_counts ne rev (ins.num_inputs - ins.num_closed).toNat
      ((ins.num_inputs - ins.num_closed).toNat + (outs.num_outputs - outs.num_closed).toNat)
      (by omega)
      { (move_closed_inputs_outputs_to_the_end ins outs).1 with num_readable := 0 }
      { (move_closed_inputs_outputs_to_the_end ins outs).2 with num_writable := 0 }
      rfl rfl hr
    rw [Nat.add_sub_cancel_left] at this
    exact this

/-- C8, amended. In every reachable state the counters that `SET` maintains are exact:
`inputs.num_closed`, `inputs.num_buffered`, `outputs.num_closed` and `outputs.num_busy` are
the numbers of endpoints with `is_closed`, `is_buffered`, `is_busy` set. `num_readable` and
`num_writable` are recomputed by the poller: after a call that returns 1 they are the
numbers of polled endpoints (the first `num_inputs - num_closed` inputs, the first
`num_outputs - num_closed` outputs) with `is_readable`, `is_writable` set; a flag left on
an endpoint behind the polled ones is not counted. -/
theorem counters_exact (cap : Nat) (ins outs : List (Int × String)) (m : Machine) (os : Oracle)
    (h : Reachable cap ins outs m) :
    counters_ok m.inputs m.outputs ∧
    ((records_are_flowing_between os.num_events os.revents m.statics m.inputs m.outputs).ret
        ≠ 0 →
      (records_are_flowing_between os.num_events os.revents m.statics m.inputs
          m.outputs).inputs.num_readable =
        count_flag Input.is_readable
          ((records_are_flowing_between os.num_events os.revents m.statics m.inputs
            m.outputs).inputs.inputs.take
            ((records_are_flowing_between os.num_events os.revents m.statics m.inputs
                m.outputs).inputs.num_inputs -
              (records_are_flowing_between os.num_events os.revents m.statics m.inputs
                m.outputs).inputs.num_closed).toNat) ∧
      (records_are_flowing_between os.num_events os.revents m.statics m.inputs
          m.outputs).outputs.num_writable =
        count_flag Output.is_writable
          ((records_are_flowing_between os.num_events os.revents m.statics m.inputs
            m.outputs).outputs.outputs.take
            ((records_are_flowing_between os.num_events os.revents m.statics m.inputs
                m.outputs).outputs.num_outputs -
              (records_are_flowing_between os.num_events os.revents m.statics m.inputs
                m.outputs).outputs.num_closed).toNat)) := by
  have hc := reachable_counters cap ins outs m h
  refine ⟨hc, ?_⟩
  obtain ⟨answers, rfl⟩ := h
  obtain ⟨l1, l2, hs⟩ := run_length_statics answers
    (start (fresh_inputs cap ins) (fresh_outputs cap outs)) _ rfl (Or.inl rfl)
  apply poller_readiness_counts _ _ _ _ _ hc
  unfold Inputs.num_inputs Outputs.num_outputs at hs ⊢
  rw [l1, l2]
  exact hs

/-- The theorem `counters_exact` at the state in which a closed input keeps a stale
`is_readable`. -/
theorem counters_exact_witness :
    counters_ok (run stale_answers two_to_one).inputs (run stale_answers two_to_one).outputs :=
  (counters_exact 4 [(3, "in0"), (4, "in1")] [(5, "out")] (run stale_answers two_to_one) quiet
    ⟨stale_answers, rfl⟩).1

theorem write_to_output_counters_irrelevant (w : WriteResult) (y : Output) (nc nb : Int) :
    (write_to_output w y nc nb).output = (write_to_output w y 0 0).output := by
  unfold write_to_output
  simp only []
  split_ifs <;> simp only [SET_FLAG_fst]

theorem write_outputs_getElem (wr : Nat → WriteResult) (i0 : Nat) (l : List Output)
    (nc nb : Int) (j : Nat) :
    (write_outputs wr i0 l nc nb).outputs[j]? =
      (l[j]?).map (fun y => (write_to_output (wr (i0 + j)) y 0 0).output) := by
  induction l generalizing i0 nc nb j with
  | nil => simp [write_outputs]
  | cons a rest ih =>
    simp only [write_outputs]
    cases j with
    | zero =>
      simp only [List.getElem?_cons_zero, Option.map_some', Nat.add_zero]
      rw [write_to_output_counters_irrelevant]
    | succ j =>
      simp only [List.getElem?_cons_succ]
      rw [ih]
      have : i0 + 1 + j = i0 + (j + 1) := by omega
      rw [this]

theorem write_to_output_skip (w : WriteResult) (y : Output) (nc nb : Int)
    (h : y.is_busy = false ∨ y.is_writable = false) :
    (write_to_output w y nc nb).output = y := by
  unfold write_to_output
  simp only []
  rcases h with h | h
  · rw [if_pos (by simp [h])]
  · by_cases c : (!y.is_busy) = true
    · rw [if_pos c]
    · rw [if_neg c, if_pos (by simp [h])]

theorem write_to_output_accepted (n : Nat) (y : Output) (nc nb : Int)
    (h1 : y.is_busy = true) (h2 : y.is_writable = true) (h3 : 0 < y.buffer.size)
    (h4 : (n : Int) ≤ y.buffer.size) :
    (write_to_output (.accepted n) y nc nb).output =
      { y with buffer := { y.buffer with begin := y.buffer.begin + n,
                                         size := y.buffer.size - n },
               is_busy := if y.buffer.size - n = 0 then false else true } := by
  unfold write_to_output
  simp only []
  rw [if_neg (by simp [h1]), if_neg (by simp [h2]), if_neg (by omega)]
  have hs : (sys_write (.accepted n) y.buffer.size).1 = n := by
    simp only [sys_write]; omega
  rw [if_pos (by rw [hs]; omega)]
  simp only [SET_FLAG_fst, hs]

theorem write_to_output_eagain (y : Output) (nc nb : Int)
    (h1 : y.is_busy = true) (h2 : y.is_writable = true) (h3 : 0 < y.buffer.size) :
    (write_to_output .eagain y nc nb).output = y := by
  unfold write_to_output
  simp only []
  rw [if_neg (by simp [h1]), if_neg (by simp [h2]), if_neg (by omega)]
  have hs : (sys_write .eagain y.buffer.size) = (-1, true) := rfl
  rw [if_neg (by rw [hs]; decide), if_pos (by rw [hs])]
  simp only [SET_FLAG_fst]
  cases y
  simp only [Output.mk.injEq, true_and] at h1 ⊢
  simp [h1]

/-- C9. Writer step. For the output `y = outputs[i]`, `write_to_available` leaves an output
`y'` at index `i` such that: if `y` is not busy or not writable, `y' = y`; if the stage
does not run (`num_writable ≤ 0`), `y' = y`; otherwise, for `y` busy and writable with
`size = s > 0`: if the write accepts `n ≤ s` bytes then `begin` grows by `n`, `size` is
`s - n`, the memory, the capacity and `end_of_last_record` are unchanged, the bytes left are
`data[begin+n .. begin+s)`, `is_busy` holds iff `s - n ≠ 0`, and the other flags are
unchanged; if the write fails with `EAGAIN` then `y' = y` (buffer unchanged, still busy,
still open). -/
theorem writer_step (wr : Nat → WriteResult) (outs : Outputs) (i : Nat) (y : Output)
    (hy : outs.outputs[i]? = some y) :
    ∃ y', (write_to_available wr outs).2.1.outputs[i]? = some y' ∧
      ((y.is_busy = false ∨ y.is_writable = false) → y' = y) ∧
      (outs.num_writable ≤ 0 → y' = y) ∧
      (0 < outs.num_writable → y.is_busy = true → y.is_writable = true →
        0 < y.buffer.size →
        (∀ n : Nat, wr i = WriteResult.accepted n → (n : Int) ≤ y.buffer.size →
          y'.buffer.begin = y.buffer.begin + n ∧
          y'.buffer.size = y.buffer.size - n ∧
          y'.buffer.data = y.buffer.data ∧
          y'.buffer.capacity = y.buffer.capacity ∧
          y'.buffer.end_of_last_record = y.buffer.end_of_last_record ∧
          y'.buffer.contents =
            bytes_at y.buffer.data (y.buffer.begin + n) (y.buffer.size - n) ∧
          (y'.is_busy = true ↔ y.buffer.size - n ≠ 0) ∧
          y'.is_closed = y.is_closed ∧ y'.is_writable = y.is_writable ∧
          y'.fd = y.fd ∧ y'.name = y.name) ∧
        (wr i = WriteResult.eagain → y' = y)) := by
  unfold write_to_available
  by_cases hw : outs.num_writable > 0
  · rw [if_pos hw]
    simp only []
    rw [write_outputs_getElem, hy]
    simp only [Option.map_some', Nat.zero_add]
    refine ⟨_, rfl, ?_, ?_, ?_⟩
    · exact write_to_output_skip _ _ _ _
    · intro h; omega
    · intro _ h1 h2 h3
      constructor
      · intro n hn hle
        rw [hn, write_to_output_accepted n y 0 0 h1 h2 h3 hle]
        refine ⟨rfl, rfl, rfl, rfl, rfl, rfl, ?_, rfl, rfl, rfl, rfl⟩
        show (if y.buffer.size - n = 0 then false else true) = true ↔ _
        split_ifs with c <;> simp [c]
      · intro hn
        rw [hn]
        exact write_to_output_eagain y 0 0 h1 h2 h3
  · rw [if_neg hw]
    refine ⟨y, hy, fun _ => rfl, fun _ => rfl, ?_⟩
    intro h; omega

/-- The theorem `writer_step` at one busy, writable output holding two bytes, of which the
write accepts one. -/
theorem writer_step_witness :
    ∃ y', (write_to_available (fun _ => WriteResult.accepted 1)
        ⟨[busy_output], 1, 0, 0, 1, 1⟩).2.1.outputs[0]? = some y' ∧
      ((busy_output.is_busy = false ∨ busy_output.is_writable = false) → y' = busy_output) ∧
      ((1 : Int) ≤ 0 → y' = busy_output) ∧
      ((0 : Int) < 1 → busy_output.is_busy = true → busy_output.is_writable = true →
        0 < busy_output.buffer.size →
        (∀ n : Nat, WriteResult.accepted 1 = WriteResult.accepted n →
          (n : Int) ≤ busy_output.buffer.size →
          y'.buffer.begin = busy_output.buffer.begin + n ∧
          y'.buffer.size = busy_output.buffer.size - n ∧
          y'.buffer.data = busy_output.buffer.data ∧
          y'.buffer.capacity = busy_output.buffer.capacity ∧
          y'.buffer.end_of_last_record = busy_output.buffer.end_of_last_record ∧
          y'.buffer.contents = bytes_at busy_output.buffer.data
            (busy_output.buffer.begin + n) (busy_output.buffer.size - n) ∧
          (y'.is_busy = true ↔ busy_output.buffer.size - n ≠ 0) ∧
          y'.is_closed = busy_output.is_closed ∧ y'.is_writable = busy_output.is_writable ∧
          y'.fd = busy_output.fd ∧ y'.name = busy_output.name) ∧
        (WriteResult.accepted 1 = WriteResult.eagain → y' = busy_output)) :=
  writer_step (fun _ => WriteResult.accepted 1) ⟨[busy_output], 1, 0, 0, 1, 1⟩ 0 busy_output rfl

/-- C10, the code at the failing input. Within one cycle the first output (descriptor 20)
is closed after a fatal write error; the writer stage that follows the next exchange of the
same cycle writes to descriptor 20 again and closes it a second time: the closed output is
still busy and writable, and the writer's loop does not test `is_closed`. -/
theorem closed_output_is_written_and_closed_again :
    Reachable 4 [(10, "in0"), (11, "in1"), (12, "in2"), (13, "in3")]
      [(20, "out0"), (21, "out1"), (22, "out2")] (run closed_output_answers four_to_three) ∧
    calls_on 20 (run closed_output_answers four_to_three).log =
      [Syscall.write 20 [97, 10] (-1), Syscall.close 20,
       Syscall.write 20 [97, 10] (-1), Syscall.close 20] ∧
    (run (closed_output_answers.take 5) four_to_three).outputs.outputs.map
      (fun y => (y.fd, y.is_closed)) = [(20, true), (21, false), (22, false)] ∧
    (run (closed_output_answers.take 6) four_to_three).stage = Stage.writer_after_exchange :=
  ⟨⟨closed_output_answers, rfl⟩, by decide⟩

/-! ## Bytes read and bytes written -/

/-- C3, counterexample. One input delivers the byte `a` and then end of file; no write
fails (none is made). The loop is left with one byte read and no byte written. -/
theorem partial_record_is_not_copied :
    (run partial_record_answers one_to_one).stage = Stage.returned ∧
    bytes_read (run partial_record_answers one_to_one).log = [97] ∧
    bytes_written (run partial_record_answers one_to_one).log = [] ∧
    calls_on 4 (run partial_record_answers one_to_one).log = [] := by
  decide

theorem bytes_read_append (a b : List Syscall) :
    bytes_read (a ++ b) = bytes_read a ++ bytes_read b := by
  induction a with
  | nil => rfl
  | cons c rest ih =>
    show c.bytes_in ++ bytes_read (rest ++ b) = (c.bytes_in ++ bytes_read rest) ++ bytes_read b
    rw [ih, List.append_assoc]

theorem bytes_written_append (a b : List Syscall) :
    bytes_written (a ++ b) = bytes_written a ++ bytes_written b := by
  induction a with
  | nil => rfl
  | cons c rest ih =>
    show c.bytes_out ++ bytes_written (rest ++ b) =
      (c.bytes_out ++ bytes_written rest) ++ bytes_written b
    rw [ih, List.append_assoc]

theorem sys_read_no_bytes (res : ReadResult) (data : Int → Nat) (off count : Int)
    (h : (sys_read res data off count).num_bytes_read ≤ 0) :
    (sys_read res data off count).bytes = [] := by
  cases res with
  | data bytes =>
    simp only [sys_read] at h ⊢
    apply List.eq_nil_of_length_eq_zero
    omega
  | eagain => rfl
  | error => rfl

theorem after_read_contents (r : ReadReturn) (it : ReadIter)
    (hs : 0 ≤ it.input.buffer.size) (hpos : 0 ≤ r.num_bytes_read)
    (hbytes : bytes_at r.data (it.input.buffer.begin + it.input.buffer.size) r.num_bytes_read
      = r.bytes)
    (hdata : ∀ j : Int, j < it.input.buffer.begin + it.input.buffer.size →
      r.data j = it.input.buffer.data j) :
    (after_read r it).input.buffer.contents = it.input.buffer.contents ++ r.bytes ∧
    (after_read r it).log = it.log := by
  obtain ⟨f1, _, f3, f4⟩ := scan_buffer_frame
      { it.input.buffer with data := r.data, size := it.input.buffer.size + r.num_bytes_read }
      it.scan_end_of_record_down_to
  have hc : (scan_buffer
      { it.input.buffer with data := r.data, size := it.input.buffer.size + r.num_bytes_read }
      it.scan_end_of_record_down_to).contents = it.input.buffer.contents ++ r.bytes := by
    unfold Buffer.contents
    rw [f1, f3, f4]
    show bytes_at r.data it.input.buffer.begin (it.input.buffer.size + r.num_bytes_read) = _
    rw [← bytes_at_append _ _ _ _ hs hpos, hbytes]
    congr 1
    apply bytes_at_congr
    intro k k0 k1
    exact hdata _ (by omega)
  unfold after_read
  simp only []
  split_ifs
  · exact ⟨hc, rfl⟩
  · exact ⟨hc, rfl⟩
  · exact ⟨hc, rfl⟩

theorem read_attempts_log (rd : Nat → ReadResult) (n k : Nat) (it : ReadIter)
    (h : read_iter_ok it) :
    ∃ d, bytes_read (read_attempts rd n k it).log = bytes_read it.log ++ d ∧
      (read_attempts rd n k it).input.buffer.contents = it.input.buffer.contents ++ d ∧
      bytes_written (read_attempts rd n k it).log = bytes_written it.log := by
  induction n generalizing k it with
  | zero => exact ⟨[], by simp [read_attempts], by simp [read_attempts], rfl⟩
  | succ n ih =>
    simp only [read_attempts]
    by_cases c1 : it.input.buffer.capacity - it.input.buffer.size ≤ 0
    · rw [if_pos c1]; exact ih _ _ h
    · rw [if_neg c1]
      have hle := sys_read_le (rd k) it.input.buffer.data
        (it.input.buffer.begin + it.input.buffer.size)
        (it.input.buffer.capacity - it.input.buffer.size) (by omega)
      have hbf := fun j hj => sys_read_data_before (rd k) it.input.buffer.data
        (it.input.buffer.begin + it.input.buffer.size)
        (it.input.buffer.capacity - it.input.buffer.size) j hj
      have hby := sys_read_bytes (rd k) it.input.buffer.data
        (it.input.buffer.begin + it.input.buffer.size)
        (it.input.buffer.capacity - it.input.buffer.size)
      have hnb := sys_read_no_bytes (rd k) it.input.buffer.data
        (it.input.buffer.begin + it.input.buffer.size)
        (it.input.buffer.capacity - it.input.buffer.size)
      generalize sys_read (rd k) it.input.buffer.data
        (it.input.buffer.begin + it.input.buffer.size)
        (it.input.buffer.capacity - it.input.buffer.size) = r at hle hbf hby hnb ⊢
      have hlog : ∀ l : List Syscall, bytes_read (it.log ++
          [Syscall.read it.input.fd (it.input.buffer.capacity - it.input.buffer.size)
            r.num_bytes_read r.bytes] ++ l) = bytes_read it.log ++ r.bytes ++ bytes_read l := by
        intro l
        simp only [bytes_read_append, bytes_read, Syscall.bytes_in, List.append_nil]
      have hlogw : ∀ l : List Syscall, bytes_written (it.log ++
          [Syscall.read it.input.fd (it.input.buffer.capacity - it.input.buffer.size)
            r.num_bytes_read r.bytes] ++ l) = bytes_written it.log ++ bytes_written l := by
        intro l
        simp only [bytes_written_append, bytes_written, Syscall.bytes_out, List.append_nil]
      split_ifs with c2 c3 c4
      · refine ⟨[], ?_, by simp, ?_⟩
        · have hb0 := hnb (by omega)
          simpa [hb0, bytes_read] using hlog []
        · simpa [bytes_written] using hlogw []
      · refine ⟨[], ?_, by simp [close_input], ?_⟩
        · have hb0 := hnb (by omega)
          simpa [hb0, bytes_read, Syscall.bytes_in, close_input] using
            hlog [Syscall.close it.input.fd]
        · simpa [bytes_written, Syscall.bytes_out, close_input] using
            hlogw [Syscall.close it.input.fd]
      · refine ⟨[], ?_, by simp [close_input], ?_⟩
        · have hb0 := hnb (by omega)
          simpa [hb0, bytes_read, Syscall.bytes_in, close_input] using
            hlog [Syscall.close it.input.fd]
        · simpa [bytes_written, Syscall.bytes_out, close_input] using
            hlogw [Syscall.close it.input.fd]
      · have hok := after_read_ok r
          { it with log := it.log ++ [Syscall.read it.input.fd
            (it.input.buffer.capacity - it.input.buffer.size) r.num_bytes_read r.bytes] }
          h (by omega) hle hbf
        obtain ⟨a1, a2⟩ := after_read_contents r
          { it with log := it.log ++ [Syscall.read it.input.fd
            (it.input.buffer.capacity - it.input.buffer.size) r.num_bytes_read r.bytes] }
          h.1.2.1 (by omega) (hby (by omega)) hbf
        obtain ⟨d, d1, d2, d3⟩ := ih (k + 1) _ hok
        refine ⟨r.bytes ++ d, ?_, ?_, ?_⟩
        · rw [d1, a2]
          have := hlog []
          simp only [List.append_nil, bytes_read] at this
          rw [this, List.append_assoc]
        · rw [d2, a1, List.append_assoc]
        · rw [d3, a2]
          have := hlogw []
          simp only [List.append_nil, bytes_written] at this
          exact this

theorem read_from_input_log (rd : Nat → ReadResult) (x : Input) (nc nb : Int)
    (h : input_ok x) :
    (read_from_input rd x nc nb).input.buffer.contents =
      x.buffer.contents ++ bytes_read (read_from_input rd x nc nb).log ∧
    bytes_written (read_from_input rd x nc nb).log = [] := by
  have hstart : read_iter_ok ⟨x, nc, nb, x.buffer.end_of_last_record + 1, []⟩ := by
    obtain ⟨hb, hs, _, ⟨he, _⟩, _⟩ := id h
    refine ⟨h, ?_, ?_⟩
    · show 0 ≤ x.buffer.end_of_last_record + 1
      rcases he with e | e <;> omega
    · show x.buffer.end_of_last_record + 1 ≤ x.buffer.size
      rcases he with e | e <;> omega
  unfold read_from_input
  simp only []
  split_ifs
  · exact ⟨by simp [bytes_read], rfl⟩
  · exact ⟨by simp [bytes_read], rfl⟩
  · exact ⟨by simp [bytes_read], rfl⟩
  · obtain ⟨d, d1, d2, d3⟩ := read_attempts_log rd 2 0 _ hstart
    rw [d1, d2, d3]
    exact ⟨by simp [bytes_read], rfl⟩
  · obtain ⟨d, d1, d2, d3⟩ := read_attempts_log rd 1 0 _ hstart
    rw [d1, d2, d3]
    exact ⟨by simp [bytes_read], rfl⟩
theorem bytes_at_take (d : Int → Nat) (s m k : Int) (h0 : 0 ≤ k) (h1 : k ≤ m) :
    (bytes_at d s m).take k.toNat = bytes_at d s k := by
  have e : m = k + (m - k) := by omega
  rw [e, ← bytes_at_append d s k (m - k) h0 (by omega)]
  exact List.take_left' (bytes_at_length d s k)

theorem write_to_output_log (w : WriteResult) (y : Output) (nc nb : Int) (h : output_ok y) :
    bytes_written (write_to_output w y nc nb).log ++
        (write_to_output w y nc nb).output.buffer.contents = y.buffer.contents ∧
    bytes_read (write_to_output w y nc nb).log = [] ∧
    (w ≠ WriteResult.error → (write_to_output w y nc nb).output.is_closed = y.is_closed) := by
  obtain ⟨h1, h2, _, _, _⟩ := h
  have hle := sys_write_le w y.buffer.size
  have herr : w ≠ WriteResult.error → ¬ ((sys_write w y.buffer.size).1 < 0 ∧
      (sys_write w y.buffer.size).2 = false) := by
    intro hw
    cases w with
    | accepted n => simp only [sys_write]; omega
    | eagain => simp [sys_write]
    | error => exact absurd rfl hw
  unfold write_to_output
  simp only []
  generalize sys_write w y.buffer.size = r at hle herr ⊢
  split_ifs with c1 c2 c3 c4 c5 c6
  · exact ⟨rfl, rfl, fun _ => rfl⟩
  · exact ⟨rfl, rfl, fun _ => rfl⟩
  · exact ⟨rfl, rfl, fun _ => rfl⟩
  · refine ⟨?_, rfl, fun _ => rfl⟩
    show (bytes_at y.buffer.data y.buffer.begin y.buffer.size).take r.1.toNat ++ [] ++
      bytes_at y.buffer.data (y.buffer.begin + r.1) (y.buffer.size - r.1) = _
    rw [List.append_nil, bytes_at_take _ _ _ _ (by omega) (by omega),
      bytes_at_append _ _ _ _ (by omega) (by omega)]
    unfold Buffer.contents
    congr 1
    omega
  · refine ⟨?_, rfl, fun _ => rfl⟩
    show (bytes_at y.buffer.data y.buffer.begin y.buffer.size).take r.1.toNat ++ [] ++
      bytes_at y.buffer.data (y.buffer.begin + r.1) (y.buffer.size - r.1) = _
    rw [List.append_nil, bytes_at_take _ _ _ _ (by omega) (by omega),
      bytes_at_append _ _ _ _ (by omega) (by omega)]
    unfold Buffer.contents
    congr 1
    omega
  · refine ⟨?_, rfl, fun _ => rfl⟩
    show (bytes_at y.buffer.data y.buffer.begin y.buffer.size).take r.1.toNat ++ [] ++
      y.buffer.contents = _
    have : r.1.toNat = 0 := by omega
    rw [this]
    simp
  · refine ⟨?_, rfl, ?_⟩
    · show (bytes_at y.buffer.data y.buffer.begin y.buffer.size).take r.1.toNat ++ ([] ++ []) ++
        y.buffer.contents = _
      have : r.1.toNat = 0 := by omega
      rw [this]
      simp
    · intro hw
      exfalso
      exact herr hw ⟨by omega, by simpa using c6⟩

/-! ## One input, one output -/

theorem exchanged_contents (x : Input) (y : Output) (hx : input_ok x)
    (hb : x.is_buffered = true) :
    (exchanged_output x y).buffer.contents ++ (exchanged_input x y).buffer.contents =
      x.buffer.contents := by
  obtain ⟨x1, x2, x3, ⟨x4, x5⟩, x6⟩ := hx
  have hne : x.buffer.end_of_last_record ≠ -1 := x6.mp hb
  rcases x4 with e | ⟨e1, e2, _⟩
  · exact absurd e hne
  · obtain ⟨s1, s2, _, s4, s5, _⟩ := swap_buffers_spec x y e2
    have hc1 : (exchanged_output x y).buffer.contents =
        bytes_at x.buffer.data x.buffer.begin
          (x.buffer.end_of_last_record - x.buffer.begin + 1) := by
      show Buffer.contents (swap_buffers x y).2.buffer = _
      rw [s1]; rfl
    have hc2 : (exchanged_input x y).buffer.contents =
        bytes_at x.buffer.data (x.buffer.end_of_last_record + 1)
          ((x.buffer.begin + x.buffer.size) - (x.buffer.end_of_last_record + 1)) := by
      show bytes_at (swap_buffers x y).1.buffer.data (swap_buffers x y).1.buffer.begin
        (swap_buffers x y).1.buffer.size = _
      rw [s2, s4]
      apply bytes_at_congr
      intro j h0 h1
      rw [zero_add]
      exact s5 j h0 (by rw [s4]; exact h1)
    rw [hc1, hc2]
    have e3 : x.buffer.end_of_last_record + 1 =
        x.buffer.begin + (x.buffer.end_of_last_record - x.buffer.begin + 1) := by omega
    rw [e3, bytes_at_append _ _ _ _ (by omega) (by omega)]
    unfold Buffer.contents
    congr 1
    omega

theorem single_input_stable (x : Input) :
    InputsStable (fun l => ∃ x', l = [x'] ∧ x'.buffer = x.buffer ∧
      x'.is_closed = x.is_closed ∧ x'.is_buffered = x.is_buffered) := by
  constructor
  · rintro l i a r e ha ⟨x', rfl, h1, h2, h3⟩
    cases i with
    | zero =>
      simp only [List.getElem?_cons_zero, Option.some.injEq] at ha
      subst ha
      exact ⟨_, rfl, h1, h2, h3⟩
    | succ i => simp at ha
  · rintro l i j a b ha hb hij ⟨x', rfl, _⟩
    cases i with
    | zero =>
      cases j with
      | zero => exact absurd rfl hij
      | succ j => simp at hb
    | succ i => simp at ha

theorem single_output_stable (y : Output) :
    OutputsStable (fun l => ∃ y', l = [y'] ∧ y'.buffer = y.buffer ∧
      y'.is_closed = y.is_closed ∧ y'.is_busy = y.is_busy) := by
  constructor
  · rintro l i a w ha ⟨y', rfl, h1, h2, h3⟩
    cases i with
    | zero =>
      simp only [List.getElem?_cons_zero, Option.some.injEq] at ha
      subst ha
      exact ⟨_, rfl, h1, h2, h3⟩
    | succ i => simp at ha
  · rintro l i j a b ha hb hij ⟨y', rfl, _⟩
    cases i with
    | zero =>
      cases j with
      | zero => exact absurd rfl hij
      | succ j => simp at hb
    | succ i => simp at ha

theorem handle_events_log (ne : Int) (rev : Nat → Events) (p q : Int) (ins : Inputs)
    (outs : Outputs) :
    bytes_read (handle_events ne rev p q ins outs).2.2.2 = [] ∧
    bytes_written (handle_events ne rev p q ins outs).2.2.2 = [] := by
  unfold handle_events
  by_cases c1 : ne < 0
  · rw [if_pos c1]; exact ⟨rfl, rfl⟩
  · rw [if_neg c1]
    by_cases c2 : ne > 0
    · rw [if_pos c2]
      simp only []
      split_ifs
      · exact ⟨rfl, rfl⟩
      · exact ⟨rfl, rfl⟩
    · rw [if_neg c2]; exact ⟨rfl, rfl⟩

theorem records_are_flowing_between_log (ne : Int) (rev : Nat → Events) (st : PollStatic)
    (ins : Inputs) (outs : Outputs) :
    bytes_read (records_are_flowing_between ne rev st ins outs).log = [] ∧
    bytes_written (records_are_flowing_between ne rev st ins outs).log = [] := by
  unfold records_are_flowing_between
  simp only []
  split_ifs
  · exact ⟨rfl, rfl⟩
  · exact ⟨rfl, rfl⟩
  · exact handle_events_log _ _ _ _ _ _
theorem count_flag_single {α : Type} (p : α → Bool) (a : α) :
    count_flag p [a] = flag_value (p a) := by
  rw [count_flag_cons, count_flag_nil]; omega

theorem exchange_single (x : Input) (nb : Int) (o : Outputs) (y : Output)
    (ho : o.outputs = [y]) :
    ((exchange_inputs 0 [x] nb o).inputs = [x] ∧
      (exchange_inputs 0 [x] nb o).outputs.outputs = [y]) ∨
    (x.is_buffered = true ∧ y.is_busy = false ∧
      (exchange_inputs 0 [x] nb o).inputs = [exchanged_input x y] ∧
      (exchange_inputs 0 [x] nb o).outputs.outputs = [exchanged_output x y]) := by
  simp only [exchange_inputs]
  split_ifs with h1 h2 h3
  · exact Or.inl ⟨rfl, ho⟩
  · exact Or.inl ⟨rfl, ho⟩
  · exact Or.inl ⟨rfl, ho⟩
  · have hf := find_idle_output_frame o.outputs.length o
    split
    · exact Or.inl ⟨rfl, by rw [hf.1]; exact ho⟩
    · rename_i k0 y0 hsome
      have hs := find_idle_output_some _ _ _ _ hsome
      rw [ho] at hs
      have hk : k0 = 0 ∧ y0 = y := by
        cases k0 with
        | zero =>
          simp only [List.getElem?_cons_zero, Option.some.injEq] at hs
          exact ⟨rfl, hs.1.symm⟩
        | succ k => simp at hs
      obtain ⟨rfl, rfl⟩ := hk
      right
      rw [pair_up_eq]
      refine ⟨by simpa using h3, hs.2, rfl, ?_⟩
      show (find_idle_output o.outputs.length o).1.outputs.set 0 _ = _
      rw [hf.1, ho]
      rfl

theorem step_copy_inv (os : Oracle) (m : Machine) (hok : machine_ok m)
    (hc : counters_ok m.inputs m.outputs)
    (hs : m.statics.fds_is_null = true ∨ m.statics.num_inputs_outputs = 2)
    (hp : 0 ≤ os.num_events) (hw : ∀ i, os.wr i ≠ WriteResult.error)
    (h : copy_inv m) : copy_inv (step os m) := by
  obtain ⟨x, y, hx, hy, hyc, hlog, hret⟩ := h
  have hxok : input_ok x := hok.1 x (by rw [hx]; exact List.mem_singleton_self x)
  have hyok : output_ok y := hok.2 y (by rw [hy]; exact List.mem_singleton_self y)
  obtain ⟨c1, c2, c3, c4⟩ := hc
  rw [hx, count_flag_single] at c1 c2
  rw [hy, count_flag_single] at c3 c4
  unfold step
  split
  · -- the poller
    rename_i hst
    obtain ⟨⟨x', hx', b1, b2, b3⟩, ⟨y', hy', d1, d2, d3⟩⟩ :=
      records_are_flowing_between_inv _ _ (single_input_stable x) (single_output_stable y)
        os.num_events os.revents m.statics m.inputs m.outputs
        ⟨x, hx, rfl, rfl, rfl⟩ ⟨y, hy, rfl, rfl, rfl⟩
    obtain ⟨l1, l2⟩ := records_are_flowing_between_log os.num_events os.revents m.statics
      m.inputs m.outputs
    refine ⟨x', y', hx', hy', by rw [d2]; exact hyc, ?_, ?_⟩
    · show bytes_written (m.log ++ _) ++ _ ++ _ = bytes_read (m.log ++ _)
      rw [bytes_written_append, bytes_read_append, l1, l2, List.append_nil, List.append_nil,
        d1, b1]
      exact hlog
    · intro hstage
      have hr : (records_are_flowing_between os.num_events os.revents m.statics m.inputs
          m.outputs).ret = 0 := by
        by_contra hne
        simp only [hne, ne_eq, not_false_eq_true, if_true] at hstage
        cases hstage
      rcases (poller_ret_zero_iff os.num_events os.revents m.statics m.inputs
        m.outputs).1.mp hr with ⟨p1, p2, p3⟩ | p | p
      · have hn : m.inputs.num_inputs = 1 := by unfold Inputs.num_inputs; rw [hx]; rfl
        rw [hn] at p1
        refine ⟨?_, ?_, ?_⟩
        · rw [b2]
          cases hcl : x.is_closed
          · rw [hcl] at c1; simp only [flag_value] at c1; simp at c1; omega
          · rfl
        · rw [b3]
          cases hbf : x.is_buffered
          · rfl
          · rw [hbf] at c2; simp only [flag_value] at c2; simp at c2; omega
        · rw [d3]
          cases hbs : y.is_busy
          · rfl
          · rw [hbs] at c4; simp only [flag_value] at c4; simp at c4; omega
      · exfalso
        have hn1 : m.inputs.num_inputs = 1 := by unfold Inputs.num_inputs; rw [hx]; rfl
        have hn2 : m.outputs.num_outputs = 1 := by unfold Outputs.num_outputs; rw [hy]; rfl
        have ha : (allocate_fds m.statics m.inputs m.outputs).num_inputs_outputs = 2 := by
          unfold allocate_fds
          split_ifs with c
          · show m.inputs.num_inputs + m.outputs.num_outputs = 2
            rw [hn1, hn2]; rfl
          · rcases hs with hs | hs
            · exact absurd hs c
            · exact hs
        have hfv : flag_value x.is_closed ≤ 1 := by
          cases x.is_closed <;> decide
        have hf0 : flag_value false = 0 := rfl
        rw [ha, c3, hyc, hf0, c1] at p
        omega
      · exact absurd p (by omega)
  · -- the writer
    have hl := write_to_output_log (os.wr 0) y m.outputs.num_closed m.outputs.num_busy hyok
    by_cases cw : m.outputs.num_writable > 0
    · refine ⟨x, (write_to_output (os.wr 0) y m.outputs.num_closed m.outputs.num_busy).output,
        hx, ?_, ?_, ?_, ?_⟩
      · simp only [write_to_available, cw, if_true, hy, write_outputs]
      · rw [hl.2.2 (hw 0)]; exact hyc
      · simp only [write_to_available, cw, if_true, hy, write_outputs, List.append_nil]
        rw [bytes_written_append, bytes_read_append, hl.2.1, List.append_nil, ← hlog,
          ← hl.1]
        simp only [List.append_assoc]
      · intro hstage; cases hstage
    · refine ⟨x, y, hx, ?_, hyc, ?_, ?_⟩
      · simp only [write_to_available, cw, if_false, hy]
      · simp only [write_to_available, cw, if_false, List.append_nil]
        exact hlog
      · intro hstage; cases hstage
  · -- the reader
    have hl := read_from_input_log (os.rd 0) x m.inputs.num_closed m.inputs.num_buffered hxok
    by_cases cr : m.inputs.num_readable > 0
    · refine ⟨(read_from_input (os.rd 0) x m.inputs.num_closed m.inputs.num_buffered).input, y,
        ?_, hy, hyc, ?_, ?_⟩
      · simp only [read_from_available, cr, if_true, hx, read_inputs]
      · simp only [read_from_available, cr, if_true, hx, read_inputs, List.append_nil]
        rw [bytes_written_append, bytes_read_append, hl.2, List.append_nil, hl.1, ← hlog]
        simp only [List.append_assoc]
      · intro hstage
        simp only [read_from_available, cr, if_true] at hstage
        split_ifs at hstage
    · refine ⟨x, y, ?_, hy, hyc, ?_, ?_⟩
      · simp only [read_from_available, cr, if_false, hx]
      · simp only [read_from_available, cr, if_false, List.append_nil]
        exact hlog
      · intro hstage
        simp only [read_from_available, cr, if_false] at hstage
        split_ifs at hstage
  · -- the exchange
    have he := exchange_single x m.inputs.num_buffered m.outputs y hy
    have hstage : (if (exchange_buffered_records m.inputs m.outputs).1 > 0
        then Stage.writer_after_exchange else Stage.poller) ≠ Stage.returned := by
      split_ifs <;> decide
    rcases he with ⟨e1, e2⟩ | ⟨e1, e2, e3, e4⟩
    · refine ⟨x, y, ?_, ?_, hyc, hlog, fun hc => absurd hc hstage⟩
      · show (exchange_inputs 0 m.inputs.inputs _ _).inputs = [x]
        rw [hx]; exact e1
      · show (exchange_inputs 0 m.inputs.inputs _ _).outputs.outputs = [y]
        rw [hx]; exact e2
    · refine ⟨exchanged_input x y, exchanged_output x y, ?_, ?_, hyc, ?_,
        fun hc => absurd hc hstage⟩
      · show (exchange_inputs 0 m.inputs.inputs _ _).inputs = _
        rw [hx]; exact e3
      · show (exchange_inputs 0 m.inputs.inputs _ _).outputs.outputs = _
        rw [hx]; exact e4
      · have hy0 : y.buffer.contents = [] := by
          obtain ⟨_, y2, _, _, y5⟩ := hyok
          have : ¬ (0 < y.buffer.size) := by
            intro hc; rw [y5.mpr hc] at e2; cases e2
          exact bytes_at_nonpos _ _ _ (by omega)
        rw [hy0, List.append_nil] at hlog
        show bytes_written m.log ++ _ ++ _ = bytes_read m.log
        rw [List.append_assoc, exchanged_contents x y hxok e1]
        exact hlog
  · -- the writer after an exchange
    have hl := write_to_output_log (os.wr 0) y m.outputs.num_closed m.outputs.num_busy hyok
    by_cases cw : m.outputs.num_writable > 0
    · refine ⟨x, (write_to_output (os.wr 0) y m.outputs.num_closed m.outputs.num_busy).output,
        hx, ?_, ?_, ?_, ?_⟩
      · simp only [write_to_available, cw, if_true, hy, write_outputs]
      · rw [hl.2.2 (hw 0)]; exact hyc
      · simp only [write_to_available, cw, if_true, hy, write_outputs, List.append_nil]
        rw [bytes_written_append, bytes_read_append, hl.2.1, List.append_nil, ← hlog,
          ← hl.1]
        simp only [List.append_assoc]
      · intro hstage; cases hstage
    · refine ⟨x, y, hx, ?_, hyc, ?_, ?_⟩
      · simp only [write_to_available, cw, if_false, hy]
      · simp only [write_to_available, cw, if_false, List.append_nil]
        exact hlog
      · intro hstage; cases hstage
  · -- past the loop
    rename_i hst
    exact ⟨x, y, hx, hy, hyc, hlog, hret⟩
theorem run_copy_inv (answers : List Oracle) (m : Machine) (hok : machine_ok m)
    (hc : counters_ok m.inputs m.outputs)
    (hs : m.statics.fds_is_null = true ∨ m.statics.num_inputs_outputs = 2)
    (hp : ∀ os ∈ answers, 0 ≤ os.num_events)
    (hw : ∀ os ∈ answers, ∀ k, os.wr k ≠ WriteResult.error)
    (h : copy_inv m) : copy_inv (run answers m) ∧ machine_ok (run answers m) := by
  induction answers generalizing m with
  | nil => exact ⟨h, hok⟩
  | cons os rest ih =>
    have hn : m.inputs.num_inputs + m.outputs.num_outputs = 2 := by
      obtain ⟨x, y, hx, hy, _⟩ := h
      unfold Inputs.num_inputs Outputs.num_outputs
      rw [hx, hy]; rfl
    exact ih (step os m) (step_ok os m hok) (step_counters os m hc)
      (step_statics os m 2 hn hs)
      (fun o ho => hp o (List.mem_cons_of_mem _ ho))
      (fun o ho => hw o (List.mem_cons_of_mem _ ho))
      (step_copy_inv os m hok hc hs (hp os (List.mem_cons_self _ _))
        (hw os (List.mem_cons_self _ _)) h)

theorem start_copy_inv (cap : Nat) (i o : Int × String) :
    copy_inv (start (fresh_inputs cap [i]) (fresh_outputs cap [o])) := by
  refine ⟨_, _, rfl, rfl, rfl, rfl, ?_⟩
  intro h
  cases h

/-- C3, amended. One input, one output, no poll failure and no write that fails fatally:
when the loop of `mkmimo_nonblocking` is left, the bytes written to the output followed by
the bytes `rest` still held in the input's buffer are, byte for byte, the bytes read from
the input, and `rest` holds no `\n`: exactly the unterminated record at the end of the input
is not written. In particular the bytes written equal the bytes read whenever the bytes
read are empty or end with `\n`. -/
theorem one_to_one_copy (cap : Nat) (i o : Int × String) (answers : List Oracle)
    (hp : ∀ os ∈ answers, 0 ≤ os.num_events)
    (hw : ∀ os ∈ answers, ∀ k, os.wr k ≠ WriteResult.error)
    (hexit : (run answers (start (fresh_inputs cap [i]) (fresh_outputs cap [o]))).stage =
      Stage.returned) :
    ∃ rest,
      (run answers (start (fresh_inputs cap [i]) (fresh_outputs cap [o]))).inputs.inputs.map
        (fun x => x.buffer.contents) = [rest] ∧
      bytes_written (run answers (start (fresh_inputs cap [i]) (fresh_outputs cap [o]))).log
        ++ rest =
        bytes_read (run answers (start (fresh_inputs cap [i]) (fresh_outputs cap [o]))).log ∧
      (∀ b ∈ rest, b ≠ 10) ∧
      ((bytes_read (run answers (start (fresh_inputs cap [i]) (fresh_outputs cap [o]))).log = []
          ∨ (bytes_read (run answers
              (start (fresh_inputs cap [i]) (fresh_outputs cap [o]))).log).getLast? = some 10) →
        bytes_written (run answers (start (fresh_inputs cap [i]) (fresh_outputs cap [o]))).log =
          bytes_read (run answers (start (fresh_inputs cap [i]) (fresh_outputs cap [o]))).log)
    := by
  obtain ⟨⟨x, y, hx, hy, _, hlog, hret⟩, hok⟩ := run_copy_inv answers
    (start (fresh_inputs cap [i]) (fresh_outputs cap [o]))
    (start_ok cap [i] [o]) (start_counters cap [i] [o]) (Or.inl rfl) hp hw
    (start_copy_inv cap i o)
  obtain ⟨r1, r2, r3⟩ := hret hexit
  have hxok : input_ok x := hok.1 x (by rw [hx]; exact List.mem_singleton_self x)
  have hyok : output_ok y := hok.2 y (by rw [hy]; exact List.mem_singleton_self y)
  have hy0 : y.buffer.contents = [] := by
    obtain ⟨_, y2, _, _, y5⟩ := hyok
    have : ¬ (0 < y.buffer.size) := by
      intro hc; rw [y5.mpr hc] at r3; cases r3
    exact bytes_at_nonpos _ _ _ (by omega)
  rw [hy0, List.append_nil] at hlog
  have hno : ∀ b ∈ x.buffer.contents, b ≠ 10 := by
    obtain ⟨x1, x2, _, ⟨x4, x5⟩, x6⟩ := hxok
    have he : x.buffer.end_of_last_record = -1 := by
      by_contra hne
      rw [x6.mpr hne] at r2
      cases r2
    intro b hb hb10
    simp only [Buffer.contents, bytes_at, List.mem_map, List.mem_range] at hb
    obtain ⟨k, hk, rfl⟩ := hb
    have := x5 (x.buffer.begin + k) (by omega) (by omega) hb10
    omega
  refine ⟨x.buffer.contents, by rw [hx]; rfl, hlog, hno, ?_⟩
  rintro (h0 | h10)
  · rw [h0] at hlog ⊢
    exact (List.append_eq_nil.mp hlog).1
  · by_cases hr : x.buffer.contents = []
    · rw [hr, List.append_nil] at hlog
      exact hlog
    · exfalso
      rw [← hlog, List.getLast?_append_of_ne_nil _ hr] at h10
      exact hno 10 (List.mem_of_getLast?_eq_some h10) rfl
/-- The theorem `one_to_one_copy` at a run that copies `a\n`. -/
theorem one_to_one_copy_witness :
    ∃ rest,
      (run full_copy_answers one_to_one).inputs.inputs.map
        (fun x => x.buffer.contents) = [rest] ∧
      bytes_written (run full_copy_answers one_to_one).log ++ rest =
        bytes_read (run full_copy_answers one_to_one).log ∧
      (∀ b ∈ rest, b ≠ 10) ∧
      ((bytes_read (run full_copy_answers one_to_one).log = []
          ∨ (bytes_read (run full_copy_answers one_to_one).log).getLast? = some 10) →
        bytes_written (run full_copy_answers one_to_one).log =
          bytes_read (run full_copy_answers one_to_one).log) :=
  one_to_one_copy 4 (3, "in") (4, "out") full_copy_answers (by decide)
    (by
      intro os hos k
      simp only [full_copy_answers, complete_write_answers, List.cons_append, List.nil_append,
        List.mem_cons, List.mem_singleton, List.not_mem_nil, or_false] at hos
      rcases hos with rfl | rfl | rfl | rfl | rfl | rfl | rfl | rfl | rfl | rfl <;>
        exact WriteResult.noConfusion)
    (by decide)

/-! ## Flags and buffer contents -/

theorem count_flag_eq_zero {α : Type} (p : α → Bool) (l : List α) (h : count_flag p l = 0) :
    ∀ a ∈ l, p a = false := by
  induction l with
  | nil => intro a ha; cases ha
  | cons b rest ih =>
    rw [count_flag_cons] at h
    have h1 := (count_flag_le_length p rest).1
    have h2 : 0 ≤ flag_value (p b) := by unfold flag_value; split_ifs <;> omega
    intro a ha
    rcases List.mem_cons.mp ha with rfl | ha
    · cases hp : p a
      · rfl
      · rw [hp] at h; simp only [flag_value] at h; simp at h; omega
    · exact ih (by omega) a ha

theorem count_flag_pos_of_mem {α : Type} (p : α → Bool) (l : List α) (a : α) (ha : a ∈ l)
    (hp : p a = true) : 0 < count_flag p l := by
  by_contra hc
  have h0 : count_flag p l = 0 := by
    have := (count_flag_le_length p l).1
    omega
  have := count_flag_eq_zero p l h0 a ha
  rw [hp] at this
  cases this

/-- C17. Buffered flag matches buffer contents. In every state reachable from the initial
state, at every stage boundary, every input (open or closed) has `is_buffered` set exactly
when `end_of_last_record ≥ begin`, which is exactly when `end_of_last_record ≠ -1`; so
when `inputs.num_buffered == 0` (as in the shutdown predicate) no input is buffered, every
input buffer has `end_of_last_record = -1`, and no input buffer holds a record
separator. -/
theorem buffered_flag_matches_buffer (cap : Nat) (ins outs : List (Int × String))
    (m : Machine) (h : Reachable cap ins outs m) :
    (∀ x ∈ m.inputs.inputs,
      (x.is_buffered = true ↔ x.buffer.begin ≤ x.buffer.end_of_last_record) ∧
      (x.buffer.begin ≤ x.buffer.end_of_last_record ↔ x.buffer.end_of_last_record ≠ -1)) ∧
    (m.inputs.num_buffered = 0 →
      ∀ x ∈ m.inputs.inputs, x.is_buffered = false ∧ x.buffer.end_of_last_record = -1 ∧
        ∀ j : Int, x.buffer.begin ≤ j → j < x.buffer.begin + x.buffer.size →
          x.buffer.data j ≠ 10) := by
  obtain ⟨hi, _⟩ := reachable_ok cap ins outs m h
  obtain ⟨_, c2, _, _⟩ := reachable_counters cap ins outs m h
  have key : ∀ x ∈ m.inputs.inputs,
      (x.buffer.begin ≤ x.buffer.end_of_last_record ↔ x.buffer.end_of_last_record ≠ -1) := by
    intro x hx
    obtain ⟨x1, _, _, ⟨x4, _⟩, _⟩ := hi x hx
    rcases x4 with e | ⟨e1, _, _⟩
    · constructor
      · intro hle hne; omega
      · intro hne; exact absurd e hne
    · constructor
      · intro _; omega
      · intro _; exact e1
  constructor
  · intro x hx
    obtain ⟨_, _, _, _, x6⟩ := hi x hx
    exact ⟨x6.trans (key x hx).symm, key x hx⟩
  · intro h0 x hx
    rw [c2] at h0
    have hb := count_flag_eq_zero Input.is_buffered _ h0 x hx
    obtain ⟨x1, _, _, ⟨x4, x5⟩, x6⟩ := hi x hx
    have he : x.buffer.end_of_last_record = -1 := by
      by_contra hne
      rw [x6.mpr hne] at hb
      cases hb
    refine ⟨hb, he, ?_⟩
    intro j j1 j2 j3
    have := x5 j j1 j2 j3
    omega

/-- The theorem `buffered_flag_matches_buffer` at the state in which the input holds the
byte `a` and has been closed. -/
theorem buffered_flag_matches_buffer_witness :
    (∀ x ∈ (run partial_record_answers one_to_one).inputs.inputs,
      (x.is_buffered = true ↔ x.buffer.begin ≤ x.buffer.end_of_last_record) ∧
      (x.buffer.begin ≤ x.buffer.end_of_last_record ↔ x.buffer.end_of_last_record ≠ -1)) ∧
    ((run partial_record_answers one_to_one).inputs.num_buffered = 0 →
      ∀ x ∈ (run partial_record_answers one_to_one).inputs.inputs,
        x.is_buffered = false ∧ x.buffer.end_of_last_record = -1 ∧
        ∀ j : Int, x.buffer.begin ≤ j → j < x.buffer.begin + x.buffer.size →
          x.buffer.data j ≠ 10) :=
  buffered_flag_matches_buffer 4 [(3, "in")] [(4, "out")]
    (run partial_record_answers one_to_one) ⟨partial_record_answers, rfl⟩

/-- C18. Busy flag matches buffer contents. In every state reachable from the initial
state, at every stage boundary, every output has `is_busy` set exactly when its buffer's
`size > 0`; so when `outputs.num_busy == 0` (as in the shutdown predicate) no output is
busy and every output buffer is empty: no output holds unwritten bytes. -/
theorem busy_flag_matches_buffer (cap : Nat) (ins outs : List (Int × String))
    (m : Machine) (h : Reachable cap ins outs m) :
    (∀ y ∈ m.outputs.outputs, (y.is_busy = true ↔ 0 < y.buffer.size)) ∧
    (m.outputs.num_busy = 0 →
      ∀ y ∈ m.outputs.outputs, y.is_busy = false ∧ y.buffer.size = 0 ∧
        y.buffer.contents = []) := by
  obtain ⟨_, ho⟩ := reachable_ok cap ins outs m h
  obtain ⟨_, _, _, c4⟩ := reachable_counters cap ins outs m h
  constructor
  · intro y hy
    exact (ho y hy).2.2.2.2
  · intro h0 y hy
    rw [c4] at h0
    have hb := count_flag_eq_zero Output.is_busy _ h0 y hy
    obtain ⟨_, y2, _, _, y5⟩ := ho y hy
    have hs : y.buffer.size = 0 := by
      by_contra hne
      rw [y5.mpr (by omega)] at hb
      cases hb
    exact ⟨hb, hs, bytes_at_nonpos _ _ _ (by omega)⟩

/-- The theorem `busy_flag_matches_buffer` at the state after a complete write. -/
theorem busy_flag_matches_buffer_witness :
    (∀ y ∈ (run complete_write_answers one_to_one).outputs.outputs,
      (y.is_busy = true ↔ 0 < y.buffer.size)) ∧
    ((run complete_write_answers one_to_one).outputs.num_busy = 0 →
      ∀ y ∈ (run complete_write_answers one_to_one).outputs.outputs,
        y.is_busy = false ∧ y.buffer.size = 0 ∧ y.buffer.contents = []) :=
  busy_flag_matches_buffer 4 [(3, "in")] [(4, "out")]
    (run complete_write_answers one_to_one) ⟨complete_write_answers, rfl⟩

/-! ## The counters of each stage -/

theorem move_closed_inputs_outputs_counters (ins : Inputs) (outs : Outputs)
    (h : counters_ok ins outs) :
    counters_ok (move_closed_inputs_outputs_to_the_end ins outs).1
      (move_closed_inputs_outputs_to_the_end ins outs).2 := by
  obtain ⟨f1, f2, _, f4, f5, _, _⟩ := move_closed_inputs_outputs_frame ins outs
  obtain ⟨h1, h2, h3, h4⟩ := h
  have a := move_closed_inputs_outputs_inv _ _
    (count_inputs_stable Input.is_closed ins.num_closed (fun _ _ _ => rfl))
    (count_outputs_stable Output.is_closed outs.num_closed (fun _ _ => rfl))
    ins outs h1 h3
  have b := move_closed_inputs_outputs_inv _ _
    (count_inputs_stable Input.is_buffered ins.num_buffered (fun _ _ _ => rfl))
    (count_outputs_stable Output.is_busy outs.num_busy (fun _ _ => rfl))
    ins outs h2 h4
  exact ⟨f1.trans a.1, f2.trans b.1, f4.trans a.2, f5.trans b.2⟩

theorem exchange_inputs_num_exchanges (l : List Input) (i0 : Nat) (nb : Int) (o : Outputs) :
    (exchange_inputs i0 l nb o).num_exchanges = nb - (exchange_inputs i0 l nb o).num_buffered ∧
    (exchange_inputs i0 l nb o).num_exchanges =
      (exchange_inputs i0 l nb o).outputs.num_busy - o.num_busy ∧
    (exchange_inputs i0 l nb o).num_exchanges = (exchange_inputs i0 l nb o).routed.length := by
  induction l generalizing i0 nb o with
  | nil => simp [exchange_inputs]
  | cons input rest ih =>
    simp only [exchange_inputs]
    split_ifs with h1 h2 h3
    · simp
    · simp
    · exact ih (i0 + 1) nb o
    · obtain ⟨f1, f2, f3, _, _⟩ := find_idle_output_frame o.outputs.length o
      split
      · obtain ⟨a, b, c⟩ := ih (i0 + 1) nb (find_idle_output o.outputs.length o).1
        rw [f2] at b
        exact ⟨a, b, c⟩
      · rename_i k0 y0 hsome
        have hs := find_idle_output_some _ _ _ _ hsome
        have hb : input.is_buffered = true := by simpa using h3
        have hq := pair_up_eq input nb (find_idle_output o.outputs.length o).1 k0 y0
        generalize pair_up input nb (find_idle_output o.outputs.length o).1 k0 y0 = q at hq ⊢
        obtain ⟨x1, nb1, o1⟩ := q
        simp only [Prod.mk.injEq] at hq
        obtain ⟨hx1, hnb1, ho1⟩ := hq
        obtain ⟨a, b, c⟩ := ih (i0 + 1) nb1 o1
        have g1 : o1.num_busy = o.num_busy + 1 - flag_value y0.is_busy := by rw [ho1, f2]
        have g2 : flag_value y0.is_busy = 0 := by rw [hs.2]; rfl
        have g3 : flag_value input.is_buffered = 1 := by rw [hb]; rfl
        refine ⟨?_, ?_, ?_⟩
        · show (exchange_inputs (i0 + 1) rest nb1 o1).num_exchanges + 1 =
            nb - (exchange_inputs (i0 + 1) rest nb1 o1).num_buffered
          omega
        · show (exchange_inputs (i0 + 1) rest nb1 o1).num_exchanges + 1 =
            (exchange_inputs (i0 + 1) rest nb1 o1).outputs.num_busy - o.num_busy
          omega
        · show (exchange_inputs (i0 + 1) rest nb1 o1).num_exchanges + 1 =
            (((i0, k0) :: (exchange_inputs (i0 + 1) rest nb1 o1).routed).length : Int)
          rw [List.length_cons]
          push_cast
          omega

/-- C19. The counters that drive shutdown and exchange stay exact. `SET` changes a counter
by exactly one, and only when the flag value changes. Starting from endpoint sets whose
`inputs.num_closed`, `inputs.num_buffered`, `outputs.num_closed` and `outputs.num_busy` are
the numbers of endpoints with `is_closed`, `is_buffered`, `is_busy` set, the same holds
after a reader stage, after an exchange stage, after a writer stage and after the
compaction, whatever the operating system answers; and the value the exchange stage
returns is the decrease of `inputs.num_buffered` and the increase of `outputs.num_busy`
(and the number of pairs it routed). -/
theorem counters_stay_exact (ins : Inputs) (outs : Outputs) (h : counters_ok ins outs) :
    (∀ (a : Bool) (n : Int) (v : Bool),
      SET_FLAG a n v = (v, if a = v then n else if v = true then n + 1 else n - 1)) ∧
    (∀ rd, counters_ok (read_from_available rd ins).2.1 outs) ∧
    (∀ wr, counters_ok ins (write_to_available wr outs).2.1) ∧
    counters_ok (exchange_buffered_records ins outs).2.1
      (exchange_buffered_records ins outs).2.2.1 ∧
    counters_ok (move_closed_inputs_outputs_to_the_end ins outs).1
      (move_closed_inputs_outputs_to_the_end ins outs).2 ∧
    (exchange_buffered_records ins outs).1 =
      ins.num_buffered - (exchange_buffered_records ins outs).2.1.num_buffered ∧
    (exchange_buffered_records ins outs).1 =
      (exchange_buffered_records ins outs).2.2.1.num_busy - outs.num_busy ∧
    (exchange_buffered_records ins outs).1 =
      (exchange_buffered_records ins outs).2.2.2.length := by
  obtain ⟨a, b, c⟩ := exchange_inputs_num_exchanges ins.inputs 0 ins.num_buffered outs
  refine ⟨?_, fun rd => read_from_available_counters rd ins outs h,
    fun wr => write_to_available_counters wr ins outs h,
    exchange_buffered_records_counters ins outs h,
    move_closed_inputs_outputs_counters ins outs h, a, b, c⟩
  intro a n v
  unfold SET_FLAG
  cases a <;> cases v <;> simp

/-- The theorem `counters_stay_exact` at the endpoint sets of a state in which one input is
buffered and the exchange follows. -/
theorem counters_stay_exact_witness :
    counters_ok one_buffered.inputs one_buffered.outputs ∧
    (exchange_buffered_records one_buffered.inputs one_buffered.outputs).1 =
      one_buffered.inputs.num_buffered -
        (exchange_buffered_records one_buffered.inputs one_buffered.outputs).2.1.num_buffered ∧
    (exchange_buffered_records one_buffered.inputs one_buffered.outputs).1 =
      (exchange_buffered_records one_buffered.inputs one_buffered.outputs).2.2.1.num_busy -
        one_buffered.outputs.num_busy :=
  ⟨reachable_counters 4 [(3, "in")] [(4, "out")] one_buffered
      ⟨complete_write_answers.take 3, rfl⟩,
   (counters_stay_exact one_buffered.inputs one_buffered.outputs
      (reachable_counters 4 [(3, "in")] [(4, "out")] one_buffered
        ⟨complete_write_answers.take 3, rfl⟩)).2.2.2.2.2.1,
   (counters_stay_exact one_buffered.inputs one_buffered.outputs
      (reachable_counters 4 [(3, "in")] [(4, "out")] one_buffered
        ⟨complete_write_answers.take 3, rfl⟩)).2.2.2.2.2.2.1⟩

/-! ## End of file, read errors and buffer growth in the reader -/

theorem read_attempts_closes (rd : Nat → ReadResult) (n k : Nat) (it : ReadIter)
    (hopen : it.input.is_closed = false)
    (hroom : it.input.buffer.size < it.input.buffer.capacity)
    (h : rd k = ReadResult.data [] ∨ rd k = ReadResult.error) :
    read_attempts rd (n + 1) k it =
      { input := { it.input with is_closed := true }, num_closed := it.num_closed + 1,
        num_buffered := it.num_buffered,
        scan_end_of_record_down_to := it.scan_end_of_record_down_to,
        log := it.log ++
          [Syscall.read it.input.fd (it.input.buffer.capacity - it.input.buffer.size)
            (if rd k = ReadResult.error then -1 else 0) [],
           Syscall.close it.input.fd] } := by
  have hc : ¬ it.input.buffer.capacity - it.input.buffer.size ≤ 0 := by omega
  rcases h with h | h
  · simp [read_attempts, hc, h, sys_read, close_input, SET_FLAG, hopen]
  · simp [read_attempts, hc, h, sys_read, close_input, SET_FLAG, hopen]

theorem read_attempts_eagain (rd : Nat → ReadResult) (n k : Nat) (it : ReadIter)
    (hroom : it.input.buffer.size < it.input.buffer.capacity)
    (h : rd k = ReadResult.eagain) :
    read_attempts rd (n + 1) k it =
      { it with log := it.log ++
          [Syscall.read it.input.fd (it.input.buffer.capacity - it.input.buffer.size) (-1) []] } := by
  have hc : ¬ it.input.buffer.capacity - it.input.buffer.size ≤ 0 := by omega
  simp [read_attempts, hc, h, sys_read]

theorem read_from_input_closed (rd : Nat → ReadResult) (x : Input) (nc nb : Int)
    (h : x.is_closed = true) :
    (read_from_input rd x nc nb).input = x ∧ (read_from_input rd x nc nb).log = [] ∧
    (read_from_input rd x nc nb).num_closed = nc ∧
    (read_from_input rd x nc nb).num_buffered = nb := by
  simp [read_from_input, h]

theorem read_inputs_closed_getElem (rd : Nat → Nat → ReadResult) (i0 : Nat) (l : List Input)
    (nc nb : Int) (j : Nat) (x : Input) (hx : l[j]? = some x) (hc : x.is_closed = true) :
    (read_inputs rd i0 l nc nb).inputs[j]? = some x := by
  induction l generalizing i0 nc nb j with
  | nil => simp at hx
  | cons a rest ih =>
    simp only [read_inputs]
    cases j with
    | zero =>
      simp only [List.getElem?_cons_zero, Option.some.injEq] at hx ⊢
      subst hx
      exact (read_from_input_closed _ _ _ _ hc).1
    | succ j =>
      simp only [List.getElem?_cons_succ] at hx ⊢
      exact ih _ _ _ _ hx

/-! ## What later stages do to a closed input -/

theorem exists_inputs_stable (P : Input → Prop)
    (hP : ∀ (x : Input) (r e : Bool), P x → P { x with is_readable := r, is_near_eof := e }) :
    InputsStable (fun l => ∃ x ∈ l, P x) := by
  constructor
  · intro l i x r e hx ⟨a, ha, hpa⟩
    obtain ⟨k, hk, hka⟩ := List.getElem_of_mem ha
    by_cases hki : k = i
    · subst hki
      have hax : a = x := by
        rw [List.getElem?_eq_getElem hk, hka] at hx
        exact Option.some.inj hx
      subst hax
      refine ⟨_, ?_, hP a r e hpa⟩
      apply List.getElem?_mem (n := k)
      rw [List.getElem?_set_self hk]
    · refine ⟨a, ?_, hpa⟩
      apply List.getElem?_mem (n := k)
      rw [List.getElem?_set_ne (Ne.symm hki), List.getElem?_eq_getElem hk, hka]
  · intro l i j x y hx hy hij ⟨a, ha, hpa⟩
    refine ⟨a, ?_, hpa⟩
    obtain ⟨k, hk, hka⟩ := List.getElem_of_mem ha
    have hi : i < l.length := by
      rcases Nat.lt_or_ge i l.length with h | h
      · exact h
      · rw [List.getElem?_eq_none h] at hx; cases hx
    have hj : j < l.length := by
      rcases Nat.lt_or_ge j l.length with h | h
      · exact h
      · rw [List.getElem?_eq_none h] at hy; cases hy
    by_cases hkj : k = j
    · subst hkj
      have hay : a = y := by
        rw [List.getElem?_eq_getElem hk, hka] at hy
        exact Option.some.inj hy
      subst hay
      apply List.getElem?_mem (n := i)
      rw [List.getElem?_set_ne (Ne.symm hij), List.getElem?_set_self hi]
    · by_cases hki : k = i
      · subst hki
        have hax : a = x := by
          rw [List.getElem?_eq_getElem hk, hka] at hx
          exact Option.some.inj hx
        subst hax
        apply List.getElem?_mem (n := j)
        rw [List.getElem?_set_self (by rw [List.length_set]; exact hj)]
      · apply List.getElem?_mem (n := k)
        rw [List.getElem?_set_ne (Ne.symm hkj), List.getElem?_set_ne (Ne.symm hki),
          List.getElem?_eq_getElem hk, hka]

theorem trivial_outputs_stable : OutputsStable (fun _ => True) :=
  ⟨fun _ _ _ _ _ _ => trivial, fun _ _ _ _ _ _ _ _ _ => trivial⟩

theorem exchange_inputs_getElem (l : List Input) (i0 : Nat) (nb : Int) (o : Outputs)
    (j : Nat) (x : Input) (hx : l[j]? = some x) :
    (exchange_inputs i0 l nb o).inputs[j]? = some x ∨
    ∃ k, (i0 + j, k) ∈ (exchange_inputs i0 l nb o).routed := by
  induction l generalizing i0 nb o j with
  | nil => simp at hx
  | cons input rest ih =>
    simp only [exchange_inputs]
    split_ifs with h1 h2 h3
    · exact Or.inl hx
    · exact Or.inl hx
    · cases j with
      | zero => exact Or.inl (by simpa using hx)
      | succ j =>
        simp only [List.getElem?_cons_succ] at hx ⊢
        rcases ih (i0 + 1) nb o j hx with h | ⟨k, hk⟩
        · exact Or.inl h
        · exact Or.inr ⟨k, by rw [show i0 + (j + 1) = i0 + 1 + j by omega]; exact hk⟩
    · split
      · cases j with
        | zero => exact Or.inl (by simpa using hx)
        | succ j =>
          simp only [List.getElem?_cons_succ] at hx ⊢
          rcases ih (i0 + 1) nb _ j hx with h | ⟨k, hk⟩
          · exact Or.inl h
          · exact Or.inr ⟨k, by rw [show i0 + (j + 1) = i0 + 1 + j by omega]; exact hk⟩
      · rename_i k0 y0 hsome
        cases j with
        | zero => exact Or.inr ⟨k0, List.mem_cons_self _ _⟩
        | succ j =>
          simp only [List.getElem?_cons_succ] at hx ⊢
          rcases ih (i0 + 1) _ _ j hx with h | ⟨k, hk⟩
          · exact Or.inl h
          · exact Or.inr ⟨k, by
              rw [show i0 + (j + 1) = i0 + 1 + j by omega]
              exact List.mem_cons_of_mem _ hk⟩

theorem closed_input_step (os : Oracle) (m : Machine) (x : Input)
    (hx : x ∈ m.inputs.inputs) (hc : x.is_closed = true) :
    (∃ x1 ∈ (step os m).inputs.inputs, x1.fd = x.fd ∧ x1.name = x.name ∧
      x1.buffer = x.buffer ∧ x1.is_closed = true ∧ x1.is_buffered = x.is_buffered) ∨
    (m.stage = Stage.exchange ∧ x.is_buffered = true ∧
      ∃ i k, (i, k) ∈ (exchange_buffered_records m.inputs m.outputs).2.2.2 ∧
        m.inputs.inputs[i]? = some x) := by
  have self : ∃ x1 ∈ m.inputs.inputs, x1.fd = x.fd ∧ x1.name = x.name ∧
      x1.buffer = x.buffer ∧ x1.is_closed = true ∧ x1.is_buffered = x.is_buffered :=
    ⟨x, hx, rfl, rfl, rfl, hc, rfl⟩
  unfold step
  split
  · left
    exact (records_are_flowing_between_inv _ _
      (exists_inputs_stable (fun x1 => x1.fd = x.fd ∧ x1.name = x.name ∧
        x1.buffer = x.buffer ∧ x1.is_closed = true ∧ x1.is_buffered = x.is_buffered)
        (fun _ _ _ h => h))
      trivial_outputs_stable os.num_events os.revents m.statics m.inputs m.outputs
      self trivial).1
  · exact Or.inl self
  · left
    obtain ⟨j, hj, hjx⟩ := List.getElem_of_mem hx
    have hj2 : m.inputs.inputs[j]? = some x := by rw [List.getElem?_eq_getElem hj, hjx]
    refine ⟨x, ?_, rfl, rfl, rfl, hc, rfl⟩
    show x ∈ (read_from_available os.rd m.inputs).2.1.inputs
    unfold read_from_available
    split_ifs
    · exact List.getElem?_mem
        (read_inputs_closed_getElem os.rd 0 m.inputs.inputs _ _ j x hj2 hc)
    · exact hx
  · rename_i hstage
    obtain ⟨j, hj, hjx⟩ := List.getElem_of_mem hx
    have hj2 : m.inputs.inputs[j]? = some x := by rw [List.getElem?_eq_getElem hj, hjx]
    rcases exchange_inputs_getElem m.inputs.inputs 0 m.inputs.num_buffered m.outputs j x hj2
      with h | ⟨k, hk⟩
    · left
      exact ⟨x, List.getElem?_mem h, rfl, rfl, rfl, hc, rfl⟩
    · right
      rw [Nat.zero_add] at hk
      obtain ⟨x0, y0, _, h0, _, hb, _⟩ :=
        exchange_inputs_routed m.inputs.inputs 0 m.inputs.num_buffered m.outputs j k hk
      rw [Nat.sub_zero, hj2] at h0
      have : x = x0 := Option.some.inj h0
      subst this
      exact ⟨hstage, hb, j, k, hk, hj2⟩
  · exact Or.inl self
  · exact Or.inl self

/-- C13. End of file and read errors keep buffered records. In any pass of the reader's
inner loop on an open input whose buffer has room (so that a read is attempted): when the
read returns 0 or fails with an error other than `EAGAIN`, the pass leaves the input marked
closed, `inputs.num_closed` larger by exactly one, `num_buffered`, `is_buffered` and the
buffer (begin, size, end_of_last_record, contents) unchanged, and the inner loop ends after
the `close`, with no further read; every later reader stage skips the closed input without
a system call. When the read fails with `EAGAIN` nothing changes and the inner loop ends.
The body of the reader's loop enters these passes for every open readable input whose
buffer is not full. If the closed input is buffered, the shutdown predicate is false in every
state with exact counters that contains it, and every later stage leaves it closed and
buffered with the same buffer, except an exchange stage that routes it to an output. -/
theorem eof_and_read_errors_keep_buffered_records
    (rd : Nat → ReadResult) (n k : Nat) (it : ReadIter)
    (hopen : it.input.is_closed = false)
    (hroom : it.input.buffer.size < it.input.buffer.capacity) :
    ((rd k = ReadResult.data [] ∨ rd k = ReadResult.error) →
      read_attempts rd (n + 1) k it =
        { input := { it.input with is_closed := true }, num_closed := it.num_closed + 1,
          num_buffered := it.num_buffered,
          scan_end_of_record_down_to := it.scan_end_of_record_down_to,
          log := it.log ++
            [Syscall.read it.input.fd (it.input.buffer.capacity - it.input.buffer.size)
              (if rd k = ReadResult.error then -1 else 0) [],
             Syscall.close it.input.fd] }) ∧
    (rd k = ReadResult.eagain →
      read_attempts rd (n + 1) k it =
        { it with log := it.log ++
            [Syscall.read it.input.fd (it.input.buffer.capacity - it.input.buffer.size)
              (-1) []] }) ∧
    (∀ (nc nb : Int), it.input.is_readable = true →
      read_from_input rd it.input nc nb =
        read_attempts rd (if it.input.is_near_eof = true then 2 else 1) 0
          { input := it.input, num_closed := nc, num_buffered := nb,
            scan_end_of_record_down_to := it.input.buffer.end_of_last_record + 1,
            log := [] }) ∧
    (∀ (rd1 : Nat → ReadResult) (nc nb : Int),
      (read_from_input rd1 { it.input with is_closed := true } nc nb).input =
          { it.input with is_closed := true } ∧
        (read_from_input rd1 { it.input with is_closed := true } nc nb).log = []) ∧
    (it.input.is_buffered = true →
      (∀ (ins : Inputs) (outs : Outputs), counters_ok ins outs →
        { it.input with is_closed := true } ∈ ins.inputs →
        ¬ (ins.num_closed = ins.num_inputs ∧ ins.num_buffered = 0 ∧ outs.num_busy = 0)) ∧
      (∀ (os : Oracle) (m : Machine), { it.input with is_closed := true } ∈ m.inputs.inputs →
        (∃ x1 ∈ (step os m).inputs.inputs, x1.fd = it.input.fd ∧
          x1.buffer = it.input.buffer ∧ x1.is_closed = true ∧ x1.is_buffered = true) ∨
        (m.stage = Stage.exchange ∧
          ∃ i j, (i, j) ∈ (exchange_buffered_records m.inputs m.outputs).2.2.2 ∧
            m.inputs.inputs[i]? = some { it.input with is_closed := true }))) := by
  refine ⟨read_attempts_closes rd n k it hopen hroom, read_attempts_eagain rd n k it hroom,
    ?_, ?_, ?_⟩
  · intro nc nb hr
    have hne : ¬ it.input.buffer.size = it.input.buffer.capacity := by omega
    simp [read_from_input, hopen, hr, hne]
  · intro rd1 nc nb
    have := read_from_input_closed rd1 { it.input with is_closed := true } nc nb rfl
    exact ⟨this.1, this.2.1⟩
  · intro hb
    constructor
    · intro ins outs hc hx hp
      have := count_flag_pos_of_mem Input.is_buffered ins.inputs _ hx hb
      rw [← hc.2.1] at this
      omega
    · intro os m hx
      rcases closed_input_step os m _ hx rfl with ⟨x1, h1, h2, _, h3, h4, h5⟩ | ⟨h1, _, h2⟩
      · exact Or.inl ⟨x1, h1, h2, h3, h4, h5.trans hb⟩
      · exact Or.inr ⟨h1, h2⟩

/-- The theorem `eof_and_read_errors_keep_buffered_records` at an input that holds the
record `a\n` and the byte `b`, and then reads end of file. -/
theorem eof_and_read_errors_keep_buffered_records_witness :
    read_attempts (fun _ => ReadResult.data []) 1 0
        { input := buffered_input, num_closed := 0, num_buffered := 1,
          scan_end_of_record_down_to := 2, log := [] } =
      { input := { buffered_input with is_closed := true }, num_closed := 0 + 1,
        num_buffered := 1, scan_end_of_record_down_to := 2,
        log := [] ++ [Syscall.read 3 (4 - 3) 0 [], Syscall.close 3] } :=
  (eof_and_read_errors_keep_buffered_records (fun _ => ReadResult.data []) 0 0
    { input := buffered_input, num_closed := 0, num_buffered := 1,
      scan_end_of_record_down_to := 2, log := [] } rfl (by decide)).1 (Or.inl rfl)

theorem after_read_log (r : ReadReturn) (it : ReadIter) : (after_read r it).log = it.log := by
  unfold after_read
  simp only []
  split_ifs <;> rfl

theorem read_attempts_log_prefix (rd : Nat → ReadResult) (n k : Nat) (it : ReadIter) :
    ∃ rest, (read_attempts rd n k it).log = it.log ++ rest := by
  induction n generalizing k it with
  | zero => exact ⟨[], by simp [read_attempts]⟩
  | succ n ih =>
    simp only [read_attempts]
    by_cases c1 : it.input.buffer.capacity - it.input.buffer.size ≤ 0
    · rw [if_pos c1]; exact ih _ _
    · rw [if_neg c1]
      generalize sys_read (rd k) it.input.buffer.data
        (it.input.buffer.begin + it.input.buffer.size)
        (it.input.buffer.capacity - it.input.buffer.size) = r
      by_cases c2 : r.num_bytes_read < 0
      · rw [if_pos c2]
        by_cases c3 : r.errno_is_EAGAIN = true
        · rw [if_pos c3]; exact ⟨_, rfl⟩
        · rw [if_neg c3]
          exact ⟨_, by simp only [close_input, List.append_assoc]; rfl⟩
      · rw [if_neg c2]
        by_cases c4 : r.num_bytes_read = 0
        · rw [if_pos c4]
          exact ⟨_, by simp only [close_input, List.append_assoc]; rfl⟩
        · rw [if_neg c4]
          obtain ⟨rest, hrest⟩ := ih (k + 1) (after_read r { it with log := it.log ++
            [Syscall.read it.input.fd (it.input.buffer.capacity - it.input.buffer.size)
              r.num_bytes_read r.bytes] })
          rw [hrest, after_read_log]
          exact ⟨_, by simp only [List.append_assoc]; rfl⟩

theorem read_attempts_first_read (rd : Nat → ReadResult) (n k : Nat) (it : ReadIter)
    (hroom : it.input.buffer.size < it.input.buffer.capacity) :
    ∃ (m : Int) (bytes : List Nat) (rest : List Syscall),
      (read_attempts rd (n + 1) k it).log = it.log ++
        Syscall.read it.input.fd (it.input.buffer.capacity - it.input.buffer.size) m bytes ::
          rest := by
  refine ⟨(sys_read (rd k) it.input.buffer.data (it.input.buffer.begin + it.input.buffer.size)
      (it.input.buffer.capacity - it.input.buffer.size)).num_bytes_read,
    (sys_read (rd k) it.input.buffer.data (it.input.buffer.begin + it.input.buffer.size)
      (it.input.buffer.capacity - it.input.buffer.size)).bytes, ?_⟩
  have c1 : ¬ it.input.buffer.capacity - it.input.buffer.size ≤ 0 := by omega
  simp only [read_attempts]
  rw [if_neg c1]
  generalize sys_read (rd k) it.input.buffer.data
    (it.input.buffer.begin + it.input.buffer.size)
    (it.input.buffer.capacity - it.input.buffer.size) = r
  by_cases c2 : r.num_bytes_read < 0
  · rw [if_pos c2]
    by_cases c3 : r.errno_is_EAGAIN = true
    · rw [if_pos c3]; exact ⟨[], rfl⟩
    · rw [if_neg c3]
      exact ⟨_, by simp only [close_input, List.append_assoc]; rfl⟩
  · rw [if_neg c2]
    by_cases c4 : r.num_bytes_read = 0
    · rw [if_pos c4]
      exact ⟨_, by simp only [close_input, List.append_assoc]; rfl⟩
    · rw [if_neg c4]
      obtain ⟨rest, hrest⟩ := read_attempts_log_prefix rd n (k + 1)
        (after_read r { it with log := it.log ++
          [Syscall.read it.input.fd (it.input.buffer.capacity - it.input.buffer.size)
            r.num_bytes_read r.bytes] })
      rw [hrest, after_read_log]
      exact ⟨_, by simp only [List.append_assoc]; rfl⟩

theorem read_attempts_grows (rd : Nat → ReadResult) (n k : Nat) (it : ReadIter)
    (hopen : it.input.is_closed = false)
    (hroom : it.input.buffer.size < it.input.buffer.capacity)
    (hpos : 0 < (sys_read (rd k) it.input.buffer.data
      (it.input.buffer.begin + it.input.buffer.size)
      (it.input.buffer.capacity - it.input.buffer.size)).num_bytes_read)
    (hfull : (scan_buffer { it.input.buffer with
        data := (sys_read (rd k) it.input.buffer.data
          (it.input.buffer.begin + it.input.buffer.size)
          (it.input.buffer.capacity - it.input.buffer.size)).data
        size := it.input.buffer.size + (sys_read (rd k) it.input.buffer.data
          (it.input.buffer.begin + it.input.buffer.size)
          (it.input.buffer.capacity - it.input.buffer.size)).num_bytes_read }
      it.scan_end_of_record_down_to).size = it.input.buffer.capacity)
    (hnone : (scan_buffer { it.input.buffer with
        data := (sys_read (rd k) it.input.buffer.data
          (it.input.buffer.begin + it.input.buffer.size)
          (it.input.buffer.capacity - it.input.buffer.size)).data
        size := it.input.buffer.size + (sys_read (rd k) it.input.buffer.data
          (it.input.buffer.begin + it.input.buffer.size)
          (it.input.buffer.capacity - it.input.buffer.size)).num_bytes_read }
      it.scan_end_of_record_down_to).end_of_last_record = -1) :
    read_attempts rd (n + 1) k it =
      read_attempts rd n (k + 1)
        { it with
          input := { it.input with buffer := { (scan_buffer { it.input.buffer with
              data := (sys_read (rd k) it.input.buffer.data
                (it.input.buffer.begin + it.input.buffer.size)
                (it.input.buffer.capacity - it.input.buffer.size)).data
              size := it.input.buffer.size + (sys_read (rd k) it.input.buffer.data
                (it.input.buffer.begin + it.input.buffer.size)
                (it.input.buffer.capacity - it.input.buffer.size)).num_bytes_read }
            it.scan_end_of_record_down_to) with capacity := it.input.buffer.capacity * 2 } }
          scan_end_of_record_down_to := it.input.buffer.begin + it.input.buffer.capacity
          log := it.log ++
            [Syscall.read it.input.fd (it.input.buffer.capacity - it.input.buffer.size)
              (sys_read (rd k) it.input.buffer.data
                (it.input.buffer.begin + it.input.buffer.size)
                (it.input.buffer.capacity - it.input.buffer.size)).num_bytes_read
              (sys_read (rd k) it.input.buffer.data
                (it.input.buffer.begin + it.input.buffer.size)
                (it.input.buffer.capacity - it.input.buffer.size)).bytes] } := by
  have c1 : ¬ it.input.buffer.capacity - it.input.buffer.size ≤ 0 := by omega
  simp only [read_attempts]
  rw [if_neg c1]
  generalize sys_read (rd k) it.input.buffer.data
    (it.input.buffer.begin + it.input.buffer.size)
    (it.input.buffer.capacity - it.input.buffer.size) = r at hpos hfull hnone ⊢
  rw [if_neg (by omega), if_neg (by omega)]
  congr 1
  obtain ⟨f1, f2, f3, f4⟩ := scan_buffer_frame { it.input.buffer with
    data := r.data, size := it.input.buffer.size + r.num_bytes_read }
    it.scan_end_of_record_down_to
  unfold after_read
  simp only []
  rw [if_neg (by rw [hnone]; decide)]
  have hcap : (scan_buffer { it.input.buffer with
    data := r.data, size := it.input.buffer.size + r.num_bytes_read }
    it.scan_end_of_record_down_to).capacity = it.input.buffer.capacity := f2
  rw [if_pos (by simp [hopen, hfull, hcap])]
  simp only [enlarge_buffer, hcap, hfull, f3]

/-- C16, as the claim states it, fails. The input has five bytes `a` on offer at every read
and is not near end of file; the read of the reader stage takes four of them, which leaves
the buffer full without a record boundary, and the capacity is doubled to 8; but the reader
stage makes no second read on the input: the read of 4 bytes is the only system call on
descriptor 3, and the reader stage is over (the poller is next). -/
theorem growth_is_not_followed_by_a_read :
    calls_on 3 (run oversized_answers one_to_one).log = [Syscall.read 3 4 4 [97, 97, 97, 97]] ∧
    (run oversized_answers one_to_one).stage = Stage.poller ∧
    (run oversized_answers one_to_one).inputs.inputs.map
        (fun x => (x.is_closed, x.is_near_eof, x.buffer.capacity, x.buffer.size,
          x.buffer.end_of_last_record)) = [(false, false, 8, 4, -1)] ∧
    (run oversized_answers one_to_one).inputs.inputs.map (fun x => x.buffer.contents) =
      [[97, 97, 97, 97]] := by
  decide

/-- C16, amended. For an open readable input whose buffer holds `size ≥ 0` bytes and is not
full, when the first read of the reader's pass returns bytes and leaves the buffer full
(`size == capacity`) with no record boundary (`end_of_last_record == -1`), the reader
doubles the capacity; contents, `begin`, `size` and `end_of_last_record` are as the read
left them. If the input is not near end of file that read is the only system call of the
reader stage on the input: the next read on it, of `capacity` bytes (the room the doubling
made), is the first system call of the next reader stage that finds it readable. If the
input is near end of file, the second read, of `capacity` bytes, follows in the same
reader stage. -/
theorem oversized_record_grows_the_buffer (rd : Nat → ReadResult) (x : Input) (nc nb : Int)
    (hopen : x.is_closed = false) (hread : x.is_readable = true)
    (hsize : 0 ≤ x.buffer.size) (hroom : x.buffer.size < x.buffer.capacity)
    (hpos : 0 < (sys_read (rd 0) x.buffer.data (x.buffer.begin + x.buffer.size)
      (x.buffer.capacity - x.buffer.size)).num_bytes_read)
    (hfull : (read_and_scan (rd 0) x.buffer (x.buffer.end_of_last_record + 1)).size =
      x.buffer.capacity)
    (hnone : (read_and_scan (rd 0) x.buffer
      (x.buffer.end_of_last_record + 1)).end_of_last_record = -1) :
    (x.is_near_eof = false →
      read_from_input rd x nc nb =
        { input := { x with buffer :=
            { read_and_scan (rd 0) x.buffer (x.buffer.end_of_last_record + 1) with
              capacity := x.buffer.capacity * 2 } }
          num_closed := nc, num_buffered := nb
          scan_end_of_record_down_to := x.buffer.begin + x.buffer.capacity
          log := [Syscall.read x.fd (x.buffer.capacity - x.buffer.size)
            (sys_read (rd 0) x.buffer.data (x.buffer.begin + x.buffer.size)
              (x.buffer.capacity - x.buffer.size)).num_bytes_read
            (sys_read (rd 0) x.buffer.data (x.buffer.begin + x.buffer.size)
              (x.buffer.capacity - x.buffer.size)).bytes] }) ∧
    (∀ (rd1 : Nat → ReadResult) (nc1 nb1 : Int) (e : Bool),
      ∃ (n : Int) (bytes : List Nat) (rest : List Syscall),
        (read_from_input rd1
          { x with
            buffer := { read_and_scan (rd 0) x.buffer (x.buffer.end_of_last_record + 1) with
              capacity := x.buffer.capacity * 2 }
            is_readable := true, is_near_eof := e } nc1 nb1).log =
          Syscall.read x.fd x.buffer.capacity n bytes :: rest) ∧
    (x.is_near_eof = true →
      ∃ (n : Int) (bytes : List Nat) (rest : List Syscall),
        (read_from_input rd x nc nb).log =
          Syscall.read x.fd (x.buffer.capacity - x.buffer.size)
            (sys_read (rd 0) x.buffer.data (x.buffer.begin + x.buffer.size)
              (x.buffer.capacity - x.buffer.size)).num_bytes_read
            (sys_read (rd 0) x.buffer.data (x.buffer.begin + x.buffer.size)
              (x.buffer.capacity - x.buffer.size)).bytes ::
          Syscall.read x.fd x.buffer.capacity n bytes :: rest) := by
  have hne : ¬ x.buffer.size = x.buffer.capacity := by omega
  have grow := fun (n : Nat) => read_attempts_grows rd n 0
    { input := x, num_closed := nc, num_buffered := nb,
      scan_end_of_record_down_to := x.buffer.end_of_last_record + 1, log := [] }
    hopen hroom hpos hfull hnone
  refine ⟨?_, ?_, ?_⟩
  · intro hnear
    have e : read_from_input rd x nc nb = read_attempts rd (0 + 1) 0
        { input := x, num_closed := nc, num_buffered := nb,
          scan_end_of_record_down_to := x.buffer.end_of_last_record + 1, log := [] } := by
      simp [read_from_input, hopen, hread, hnear, hne]
    rw [e, grow 0]
    rfl
  · intro rd1 nc1 nb1 e
    obtain ⟨m, bytes, rest, hrest⟩ := read_attempts_first_read rd1 (if e = true then 1 else 0) 0
      { input := { x with
          buffer := { read_and_scan (rd 0) x.buffer (x.buffer.end_of_last_record + 1) with
            capacity := x.buffer.capacity * 2 }
          is_readable := true, is_near_eof := e }
        num_closed := nc1, num_buffered := nb1
        scan_end_of_record_down_to := -1 + 1, log := [] }
      (by show (read_and_scan _ _ _).size < x.buffer.capacity * 2; rw [hfull]; omega)
    refine ⟨m, bytes, rest, ?_⟩
    have hn : (if e = true then 2 else 1) = (if e = true then 1 else 0) + 1 := by
      cases e <;> rfl
    have hne2 : ¬ (read_and_scan (rd 0) x.buffer (x.buffer.end_of_last_record + 1)).size =
        x.buffer.capacity * 2 := by rw [hfull]; omega
    have e : read_from_input rd1
        { x with
          buffer := { read_and_scan (rd 0) x.buffer (x.buffer.end_of_last_record + 1) with
            capacity := x.buffer.capacity * 2 }
          is_readable := true, is_near_eof := e } nc1 nb1 =
        read_attempts rd1 ((if e = true then 1 else 0) + 1) 0
          { input := { x with
              buffer := { read_and_scan (rd 0) x.buffer (x.buffer.end_of_last_record + 1) with
                capacity := x.buffer.capacity * 2 }
              is_readable := true, is_near_eof := e }
            num_closed := nc1, num_buffered := nb1
            scan_end_of_record_down_to := -1 + 1, log := [] } := by
      simp [read_from_input, hopen, hnone, hne2, hn]
    rw [e, hrest]
    simp only [List.nil_append, hfull]
    congr 2
    omega
  · intro hnear
    have g := grow 1
    obtain ⟨m, bytes, rest, hrest⟩ := read_attempts_first_read rd 0 1
      { input := { x with buffer :=
          { read_and_scan (rd 0) x.buffer (x.buffer.end_of_last_record + 1) with
            capacity := x.buffer.capacity * 2 } }
        num_closed := nc, num_buffered := nb
        scan_end_of_record_down_to := x.buffer.begin + x.buffer.capacity
        log := [] ++ [Syscall.read x.fd (x.buffer.capacity - x.buffer.size)
          (sys_read (rd 0) x.buffer.data (x.buffer.begin + x.buffer.size)
            (x.buffer.capacity - x.buffer.size)).num_bytes_read
          (sys_read (rd 0) x.buffer.data (x.buffer.begin + x.buffer.size)
            (x.buffer.capacity - x.buffer.size)).bytes] }
      (by show (read_and_scan _ _ _).size < x.buffer.capacity * 2; rw [hfull]; omega)
    refine ⟨m, bytes, rest, ?_⟩
    have e : read_from_input rd x nc nb = read_attempts rd (1 + 1) 0
        { input := x, num_closed := nc, num_buffered := nb,
          scan_end_of_record_down_to := x.buffer.end_of_last_record + 1, log := [] } := by
      simp [read_from_input, hopen, hread, hnear, hne]
    rw [e, g]
    refine Eq.trans hrest ?_
    have hfull1 := hfull
    simp only [read_and_scan] at hfull1
    simp only [List.nil_append, List.singleton_append, hfull1, read_and_scan]
    congr 2
    rw [show x.buffer.capacity * 2 - x.buffer.capacity = x.buffer.capacity by omega]

/-- The theorem `oversized_record_grows_the_buffer` at an input with an empty buffer of 4
bytes that has five bytes `a` on offer: one read, and the capacity is 8. -/
theorem oversized_record_grows_the_buffer_witness :
    read_from_input (fun _ => ReadResult.data [97, 97, 97, 97, 97]) ready_input 0 0 =
      { input := { ready_input with buffer :=
          { read_and_scan (ReadResult.data [97, 97, 97, 97, 97]) ready_input.buffer
              (ready_input.buffer.end_of_last_record + 1) with
            capacity := ready_input.buffer.capacity * 2 } }
        num_closed := 0, num_buffered := 0
        scan_end_of_record_down_to := ready_input.buffer.begin + ready_input.buffer.capacity
        log := [Syscall.read ready_input.fd
          (ready_input.buffer.capacity - ready_input.buffer.size)
          (sys_read (ReadResult.data [97, 97, 97, 97, 97]) ready_input.buffer.data
            (ready_input.buffer.begin + ready_input.buffer.size)
            (ready_input.buffer.capacity - ready_input.buffer.size)).num_bytes_read
          (sys_read (ReadResult.data [97, 97, 97, 97, 97]) ready_input.buffer.data
            (ready_input.buffer.begin + ready_input.buffer.size)
            (ready_input.buffer.capacity - ready_input.buffer.size)).bytes] } :=
  (oversized_record_grows_the_buffer (fun _ => ReadResult.data [97, 97, 97, 97, 97])
    ready_input 0 0 rfl rfl (by decide) (by decide) (by decide) (by decide) (by decide)).1 rfl

theorem closed_unbuffered_run (answers : List Oracle) (m : Machine) (fd : Int) (name : String)
    (buf : Buffer)
    (h : ∃ x ∈ m.inputs.inputs, x.fd = fd ∧ x.name = name ∧ x.buffer = buf ∧
      x.is_closed = true ∧ x.is_buffered = false) :
    ∃ x ∈ (run answers m).inputs.inputs, x.fd = fd ∧ x.name = name ∧ x.buffer = buf ∧
      x.is_closed = true ∧ x.is_buffered = false := by
  induction answers generalizing m with
  | nil => exact h
  | cons os rest ih =>
    obtain ⟨x, hx, h1, h2, h3, h4, h5⟩ := h
    apply ih
    rcases closed_input_step os m x hx h4 with ⟨x1, g0, g1, g2, g3, g4, g5⟩ | ⟨_, hb, _⟩
    · exact ⟨x1, g0, g1.trans h1, g2.trans h2, g3.trans h3, g4, g5.trans h5⟩
    · rw [h5] at hb; cases hb

/-- C12. The final partial record is dropped. Once an input is closed and not buffered, it
stays in the array of inputs, closed and not buffered and with the same buffer (same
contents, `begin`, `size`, `end_of_last_record`), whatever stages follow and whatever the
operating system answers; the reader makes no system call on it; and every input that an
exchange stage of a later state routes to an output is a buffered one, so its buffer is
never handed to an output. For an input that delivers `p\npar` and then end of file, the
loop is left with `p\n` written to the output and `par` still in the closed input's buffer,
and no further answer of the operating system changes that. -/
theorem final_partial_record_is_dropped (answers : List Oracle) (m : Machine) (x : Input)
    (hx : x ∈ m.inputs.inputs) (hc : x.is_closed = true) (hb : x.is_buffered = false) :
    (∃ x1 ∈ (run answers m).inputs.inputs, x1.fd = x.fd ∧ x1.name = x.name ∧
      x1.buffer = x.buffer ∧ x1.is_closed = true ∧ x1.is_buffered = false) ∧
    (∀ (rd : Nat → ReadResult) (nc nb : Int),
      (read_from_input rd x nc nb).input = x ∧ (read_from_input rd x nc nb).log = []) ∧
    (∀ (i k : Nat) (z : Input),
      (i, k) ∈ (exchange_buffered_records (run answers m).inputs
        (run answers m).outputs).2.2.2 →
      (run answers m).inputs.inputs[i]? = some z → z.is_buffered = true) ∧
    ((run final_partial_answers one_to_one).stage = Stage.returned ∧
      bytes_read (run final_partial_answers one_to_one).log = [112, 10, 112, 97, 114] ∧
      bytes_written (run final_partial_answers one_to_one).log = [112, 10] ∧
      (run final_partial_answers one_to_one).inputs.inputs.map
        (fun z => (z.is_closed, z.is_buffered, z.buffer.contents)) =
          [(true, false, [112, 97, 114])] ∧
      (run final_partial_answers one_to_one).outputs.outputs.map
        (fun y => (y.is_busy, y.buffer.contents)) = [(false, [])] ∧
      ∀ more : List Oracle,
        run (final_partial_answers ++ more) one_to_one =
          run final_partial_answers one_to_one) := by
  refine ⟨closed_unbuffered_run answers m x.fd x.name x.buffer ⟨x, hx, rfl, rfl, rfl, hc, hb⟩,
    ?_, ?_, by decide, by decide, by decide, by decide, by decide, ?_⟩
  · intro rd nc nb
    have := read_from_input_closed rd x nc nb hc
    exact ⟨this.1, this.2.1⟩
  · intro i k z hik hz
    obtain ⟨x0, y0, _, h0, _, hbuf, _⟩ :=
      exchange_inputs_routed (run answers m).inputs.inputs 0
        (run answers m).inputs.num_buffered (run answers m).outputs i k hik
    rw [Nat.sub_zero, hz] at h0
    rw [Option.some.inj h0]
    exact hbuf
  · intro more
    rw [run_append]
    exact run_returned more _ (by decide)

/-- The theorem `final_partial_record_is_dropped` at the input that closed while holding
the byte `a`, followed by one more stage. -/
theorem final_partial_record_is_dropped_witness :
    closed_partial_input ∈ (run partial_record_answers one_to_one).inputs.inputs ∧
    closed_partial_input.is_closed = true ∧ closed_partial_input.is_buffered = false ∧
    ∃ x1 ∈ (run [quiet] (run partial_record_answers one_to_one)).inputs.inputs,
      x1.fd = closed_partial_input.fd ∧ x1.name = closed_partial_input.name ∧
      x1.buffer = closed_partial_input.buffer ∧ x1.is_closed = true ∧
      x1.is_buffered = false :=
  ⟨List.get_mem _ _ _, by decide, by decide,
    (final_partial_record_is_dropped [quiet] (run partial_record_answers one_to_one)
      closed_partial_input (List.get_mem _ _ _) (by decide) (by decide)).1⟩

/-! ## Round-robin selection of an idle output -/

theorem cursor_step (o : Outputs) (c : Nat) (hc : o.next_output = (c : Int)) :
    (o.next_output + 1).tmod o.num_outputs = (((c + 1) % o.outputs.length : Nat) : Int) := by
  unfold Outputs.num_outputs
  rw [hc, Int.tmod_eq_emod (by omega) (by omega), Int.natCast_mod]
  push_cast
  rfl

theorem find_idle_output_all_busy (m : Nat) (o : Outputs) (c : Nat)
    (hc : o.next_output = (c : Int)) (hcn : c < o.outputs.length)
    (hbusy : ∀ d < m, ∀ y, o.outputs[(c + d) % o.outputs.length]? = some y →
      y.is_busy = true) :
    find_idle_output m o =
      ({ o with next_output := (((c + m) % o.outputs.length : Nat) : Int) }, none) := by
  induction m generalizing o c with
  | zero =>
    simp only [find_idle_output, Nat.add_zero, Nat.mod_eq_of_lt hcn, ← hc]
  | succ m ih =>
    have h0 : o.next_output.toNat = c := by rw [hc]; simp
    have hget : o.outputs[c]? = some (o.outputs.get ⟨c, hcn⟩) := by
      rw [List.getElem?_eq_getElem hcn]; rfl
    have hb : (o.outputs.get ⟨c, hcn⟩).is_busy = true := by
      apply hbusy 0 (by omega)
      rw [Nat.add_zero, Nat.mod_eq_of_lt hcn]
      exact hget
    simp only [find_idle_output, h0, hget, hb, if_true]
    have hpos : 0 < o.outputs.length := by omega
    rw [ih { o with next_output := (o.next_output + 1).tmod o.num_outputs }
      ((c + 1) % o.outputs.length) (cursor_step o c hc) (Nat.mod_lt _ hpos)]
    · simp only [Prod.mk.injEq, and_true]
      congr 2
      rw [Nat.mod_add_mod]
      congr 1
      omega
    · intro d hd y hy
      apply hbusy (d + 1) (by omega) y
      rw [← hy]
      show o.outputs[(c + (d + 1)) % o.outputs.length]? =
        o.outputs[((c + 1) % o.outputs.length + d) % o.outputs.length]?
      rw [Nat.mod_add_mod]
      congr 2
      omega

theorem find_idle_output_first_idle (m : Nat) (o : Outputs) (c : Nat)
    (hc : o.next_output = (c : Int)) (hcn : c < o.outputs.length)
    (d : Nat) (hd : d < m)
    (hbusy : ∀ e < d, ∀ y, o.outputs[(c + e) % o.outputs.length]? = some y →
      y.is_busy = true)
    (y : Output) (hy : o.outputs[(c + d) % o.outputs.length]? = some y)
    (hidle : y.is_busy = false) :
    find_idle_output m o =
      ({ o with next_output := ((((c + d) % o.outputs.length + 1) % o.outputs.length : Nat) : Int) },
       some ((c + d) % o.outputs.length, y)) := by
  induction m generalizing o c d with
  | zero => omega
  | succ m ih =>
    have h0 : o.next_output.toNat = c := by rw [hc]; simp
    have hget : o.outputs[c]? = some (o.outputs.get ⟨c, hcn⟩) := by
      rw [List.getElem?_eq_getElem hcn]; rfl
    have hpos : 0 < o.outputs.length := by omega
    cases d with
    | zero =>
      simp only [Nat.add_zero, Nat.mod_eq_of_lt hcn] at hy ⊢
      rw [hget] at hy
      have hy2 : o.outputs.get ⟨c, hcn⟩ = y := Option.some.inj hy
      simp only [find_idle_output, h0, hget, hy2, hidle, Bool.false_eq_true, if_false,
        cursor_step o c hc]
    | succ d =>
      have hb : (o.outputs.get ⟨c, hcn⟩).is_busy = true := by
        apply hbusy 0 (by omega)
        rw [Nat.add_zero, Nat.mod_eq_of_lt hcn]
        exact hget
      have e1 : ((c + 1) % o.outputs.length + d) % o.outputs.length =
          (c + (d + 1)) % o.outputs.length := by
        rw [Nat.mod_add_mod]
        congr 1
        omega
      simp only [find_idle_output, h0, hget, hb, if_true]
      rw [ih { o with next_output := (o.next_output + 1).tmod o.num_outputs }
        ((c + 1) % o.outputs.length) (cursor_step o c hc) (Nat.mod_lt _ hpos) d (by omega)
        ?_ (by show o.outputs[((c + 1) % o.outputs.length + d) % o.outputs.length]? = some y
               rw [e1]; exact hy)]
      · show ({ o with next_output := _ }, some (_, y)) = _
        simp only [e1]
      · intro e he z hz
        apply hbusy (e + 1) (by omega) z
        rw [← hz]
        show o.outputs[(c + (e + 1)) % o.outputs.length]? =
          o.outputs[((c + 1) % o.outputs.length + e) % o.outputs.length]?
        rw [Nat.mod_add_mod]
        congr 2
        omega

theorem find_idle_output_cursor (m : Nat) (o : Outputs) (h : cursor_ok o) :
    cursor_ok (find_idle_output m o).1 := by
  induction m generalizing o with
  | zero => exact h
  | succ m ih =>
    have h1 : cursor_ok { o with next_output := (o.next_output + 1).tmod o.num_outputs } := by
      unfold cursor_ok Outputs.num_outputs
      obtain ⟨a, b⟩ := h
      show 0 ≤ (o.next_output + 1).tmod (o.outputs.length : Int) ∧
        (0 < o.outputs.length →
          (o.next_output + 1).tmod (o.outputs.length : Int) < o.outputs.length)
      rw [Int.tmod_eq_emod (by omega) (by omega)]
      constructor
      · by_cases hn : o.outputs.length = 0
        · rw [hn]; simp; omega
        · exact Int.emod_nonneg _ (by omega)
      · intro hpos
        exact Int.emod_lt_of_pos _ (by omega)
    simp only [find_idle_output]
    split
    · exact ih _ h1
    · split_ifs
      · exact ih _ h1
      · exact h1

theorem exchange_inputs_cursor (l : List Input) (i0 : Nat) (nb : Int) (o : Outputs)
    (h : cursor_ok o) : cursor_ok (exchange_inputs i0 l nb o).outputs := by
  induction l generalizing i0 nb o with
  | nil => exact h
  | cons input rest ih =>
    simp only [exchange_inputs]
    split_ifs with h1 h2 h3
    · exact h
    · exact h
    · exact ih _ _ _ h
    · have hf := find_idle_output_cursor o.outputs.length o h
      split
      · exact ih _ _ _ hf
      · rename_i k0 y0 hsome
        have hq := pair_up_eq input nb (find_idle_output o.outputs.length o).1 k0 y0
        generalize pair_up input nb (find_idle_output o.outputs.length o).1 k0 y0 = q at hq ⊢
        obtain ⟨x1, nb1, o1⟩ := q
        simp only [Prod.mk.injEq] at hq
        obtain ⟨_, _, ho1⟩ := hq
        apply ih
        rw [ho1]
        unfold cursor_ok at hf ⊢
        simpa using hf

theorem write_to_available_next_output (wr : Nat → WriteResult) (outs : Outputs) :
    (write_to_available wr outs).2.1.next_output = outs.next_output ∧
    (write_to_available wr outs).2.1.last_closed = outs.last_closed := by
  unfold write_to_available
  split_ifs <;> exact ⟨rfl, rfl⟩

theorem step_cursor (os : Oracle) (m : Machine) (h : cursor_ok m.outputs) :
    cursor_ok (step os m).outputs := by
  have hl := (step_length os m).2
  unfold cursor_ok at h ⊢
  rw [hl]
  suffices hs : (step os m).outputs.next_output = m.outputs.next_output ∨
      (0 ≤ (step os m).outputs.next_output ∧
        (0 < m.outputs.outputs.length →
          (step os m).outputs.next_output < m.outputs.outputs.length)) by
    rcases hs with hs | hs
    · rw [hs]; exact h
    · exact hs
  unfold step
  split
  · left
    exact (records_are_flowing_between_frame _ _ _ _ _).2.2.2.2
  · left
    exact (write_to_available_next_output _ _).1
  · left; rfl
  · right
    have := exchange_inputs_cursor m.inputs.inputs 0 m.inputs.num_buffered m.outputs h
    unfold cursor_ok at this
    rw [(exchange_inputs_length m.inputs.inputs 0 m.inputs.num_buffered m.outputs).2] at this
    exact this
  · left
    exact (write_to_available_next_output _ _).1
  · left; rfl

theorem run_cursor (answers : List Oracle) (m : Machine) (h : cursor_ok m.outputs) :
    cursor_ok (run answers m).outputs := by
  induction answers generalizing m with
  | nil => exact h
  | cons os rest ih => exact ih _ (step_cursor os m h)

theorem reachable_cursor (cap : Nat) (ins outs : List (Int × String)) (m : Machine)
    (h : Reachable cap ins outs m) : cursor_ok m.outputs := by
  obtain ⟨answers, rfl⟩ := h
  apply run_cursor
  unfold cursor_ok start fresh_outputs
  simp

theorem exchange_two_by_two (ins : Inputs) (outs : Outputs) (x0 x1 : Input) (y0 y1 : Output)
    (hi : ins.inputs = [x0, x1]) (ho : outs.outputs = [y0, y1])
    (hx0 : x0.is_buffered = true) (hx1 : x1.is_buffered = true)
    (hy0 : y0.is_busy = false) (hy1 : y1.is_busy = false)
    (hnb : ins.num_buffered = 2) (hbusy : outs.num_busy = 0) (hclosed : outs.num_closed = 0)
    (hc : outs.next_output = 0 ∨ outs.next_output = 1) :
    (exchange_buffered_records ins outs).2.2.2 =
      [(0, outs.next_output.toNat), (1, 1 - outs.next_output.toNat)] := by
  obtain ⟨l, lc, c, ncl, nw, nbusy⟩ := outs
  obtain ⟨li, a1, a2, a3, nbuf⟩ := ins
  simp only at hi ho hnb hbusy hclosed hc
  subst hi ho hnb hbusy hclosed
  have t1 : (1 : Int).tmod 2 = 1 := by decide
  have t2 : (2 : Int).tmod 2 = 0 := by decide
  rcases hc with hc | hc
  · subst hc
    simp [exchange_buffered_records, exchange_inputs, find_idle_output, pair_up_eq,
      Outputs.num_outputs, hx0, hx1, hy0, hy1, t1, t2, flag_value, exchanged_output]
  · subst hc
    simp [exchange_buffered_records, exchange_inputs, find_idle_output, pair_up_eq,
      Outputs.num_outputs, hx0, hx1, hy0, hy1, t1, t2, flag_value, exchanged_output]

/-- C11. Round-robin selection. Let the outputs be `n > 0` with the cursor
`next_output = c`, `0 ≤ c < n`. The probing loop that the exchange runs for a buffered
input makes up to `n` probes in the cyclic order `c, c+1 mod n, ...`: if the output at
offset `d < n` from the cursor is the first that is not busy, it is the output chosen, and
afterwards `next_output = (chosen index + 1) mod n`; if all `n` outputs are busy no output is
chosen and `next_output` is `c` again. A buffered input that the exchange reaches (inputs are
buffered, not all open outputs are counted busy) is routed to that first idle output. The
cursor stays in `[0, n)`: after the probing loop, and in every reachable state before and
after an exchange stage. Consequently, with two buffered inputs and two idle outputs the
exchange routes the first input to the output under the cursor and the second input to the
other output: each output receives exactly one buffer. -/
theorem round_robin_selection (o : Outputs) (c : Nat)
    (hc : o.next_output = (c : Int)) (hcn : c < o.outputs.length) :
    (∀ (d : Nat) (y : Output), d < o.outputs.length →
      (∀ e < d, ∀ z, o.outputs[(c + e) % o.outputs.length]? = some z → z.is_busy = true) →
      o.outputs[(c + d) % o.outputs.length]? = some y → y.is_busy = false →
      find_idle_output o.outputs.length o =
          ({ o with next_output :=
              ((((c + d) % o.outputs.length + 1) % o.outputs.length : Nat) : Int) },
           some ((c + d) % o.outputs.length, y)) ∧
        ∀ (i : Nat) (x : Input) (rest : List Input) (nb : Int),
          0 < nb → o.num_busy ≠ o.num_outputs - o.num_closed → x.is_buffered = true →
          (exchange_inputs i (x :: rest) nb o).routed.head? =
            some (i, (c + d) % o.outputs.length)) ∧
    ((∀ y ∈ o.outputs, y.is_busy = true) → find_idle_output o.outputs.length o = (o, none)) ∧
    cursor_ok (find_idle_output o.outputs.length o).1 ∧
    (∀ (cap : Nat) (ins outs : List (Int × String)) (m : Machine),
      Reachable cap ins outs m →
      cursor_ok m.outputs ∧ cursor_ok (exchange_buffered_records m.inputs m.outputs).2.2.1) ∧
    (∀ (ins : Inputs) (outs : Outputs) (x0 x1 : Input) (y0 y1 : Output),
      ins.inputs = [x0, x1] → outs.outputs = [y0, y1] →
      x0.is_buffered = true → x1.is_buffered = true →
      y0.is_busy = false → y1.is_busy = false →
      ins.num_buffered = 2 → outs.num_busy = 0 → outs.num_closed = 0 →
      outs.next_output = 0 ∨ outs.next_output = 1 →
      (exchange_buffered_records ins outs).2.2.2 =
        [(0, outs.next_output.toNat), (1, 1 - outs.next_output.toNat)]) := by
  have hok : cursor_ok o := by
    unfold cursor_ok
    rw [hc]
    exact ⟨by omega, fun _ => by omega⟩
  refine ⟨?_, ?_, find_idle_output_cursor _ o hok, ?_, ?_⟩
  · intro d y hd hbusy hy hidle
    have hf := find_idle_output_first_idle o.outputs.length o c hc hcn d hd hbusy y hy hidle
    refine ⟨hf, ?_⟩
    intro i x rest nb h1 h2 h3
    simp only [exchange_inputs]
    rw [if_neg (by omega), if_neg h2, h3]
    simp only [Bool.not_true, Bool.false_eq_true, if_false]
    rw [hf]
    simp
  · intro hall
    rw [find_idle_output_all_busy o.outputs.length o c hc hcn
      (fun d _ y hy => hall y (List.getElem?_mem hy))]
    rw [Nat.add_mod_right, Nat.mod_eq_of_lt hcn, ← hc]
  · intro cap ins outs m hm
    have := reachable_cursor cap ins outs m hm
    exact ⟨this, exchange_inputs_cursor _ _ _ _ this⟩
  · intro ins outs x0 x1 y0 y1 h1 h2 h3 h4 h5 h6 h7 h8 h9 h10
    exact exchange_two_by_two ins outs x0 x1 y0 y1 h1 h2 h3 h4 h5 h6 h7 h8 h9 h10

/-- The theorem `round_robin_selection` at two outputs of which the one under the cursor
is busy: the other one is chosen and the cursor wraps around to 0. -/
theorem round_robin_selection_witness :
    find_idle_output two_outputs.outputs.length two_outputs =
      ({ two_outputs with next_output := ((((0 + 1) % 2 + 1) % 2 : Nat) : Int) },
       some ((0 + 1) % 2, { idle_output with fd := 5 })) :=
  ((round_robin_selection two_outputs 0 rfl (by decide)).1 1 { idle_output with fd := 5 }
    (by decide)
    (fun e he z hz => by
      have h0 : e = 0 := by omega
      subst h0
      have : z = busy_output := by
        simp only [two_outputs] at hz
        exact (Option.some.inj hz).symm
      rw [this]
      rfl)
    rfl rfl).1

/-! ## The compaction establishes the partition -/

theorem last_not_closed_spec {α : Type} (is_closed : α → Bool) (items : List α) (i : Nat)
    (f : Nat) (j0 : Int) (h1 : (i : Int) ≤ j0) (h2 : j0 - i ≤ f) (h3 : j0 < items.length) :
    (i : Int) ≤ last_not_closed is_closed items i f j0 ∧
    last_not_closed is_closed items i f j0 ≤ j0 ∧
    (∀ (k : Nat) (a : α), last_not_closed is_closed items i f j0 < k → (k : Int) ≤ j0 →
      items[k]? = some a → is_closed a = true) ∧
    ((i : Int) < last_not_closed is_closed items i f j0 →
      ∀ a, items[(last_not_closed is_closed items i f j0).toNat]? = some a →
        is_closed a = false) := by
  induction f generalizing j0 with
  | zero =>
    simp only [last_not_closed]
    refine ⟨h1, le_refl _, ?_, ?_⟩
    · intro k a hk1 hk2; omega
    · intro hlt; omega
  | succ f ih =>
    simp only [last_not_closed]
    have hj : j0.toNat < items.length := by omega
    rw [List.getElem?_eq_getElem hj]
    simp only []
    by_cases c : j0 > (i : Int) ∧ is_closed (items[j0.toNat]) = true
    · rw [if_pos c]
      obtain ⟨a1, a2, a3, a4⟩ := ih (j0 - 1) (by omega) (by omega) (by omega)
      refine ⟨a1, by omega, ?_, a4⟩
      intro k a hk1 hk2 hka
      by_cases hk : (k : Int) ≤ j0 - 1
      · exact a3 k a hk1 hk hka
      · have hkj : k = j0.toNat := by omega
        subst hkj
        rw [List.getElem?_eq_getElem hj] at hka
        rw [← Option.some.inj hka]
        exact c.2
    · rw [if_neg c]
      refine ⟨h1, le_refl _, ?_, ?_⟩
      · intro k a hk1 hk2; omega
      · intro hlt a ha
        rw [List.getElem?_eq_getElem hj] at ha
        rw [← Option.some.inj ha]
        by_contra hne
        exact c ⟨hlt, by simpa using hne⟩

theorem partitioned_of_bounds {α : Type} (is_closed : α → Bool) (l : List α) (i : Nat)
    (h1 : ∀ (k : Nat) (a : α), k < i → l[k]? = some a → is_closed a = false)
    (h2 : ∀ (k : Nat) (a : α), i ≤ k → l[k]? = some a → is_closed a = true) :
    partitioned is_closed l (i : Int) := by
  intro k a hka
  constructor
  · intro hc
    by_contra hlt
    have := h1 k a (by omega) hka
    rw [hc] at this
    cases this
  · intro hle
    exact h2 k a (by omega) hka

theorem partitioned_at_cursor {α : Type} (is_closed : α → Bool) (l : List α) (i : Nat)
    (lc : Int)
    (h1 : ∀ (k : Nat) (a : α), k < i → l[k]? = some a → is_closed a = false)
    (h2 : ∀ (k : Nat) (a : α), lc ≤ (k : Int) → l[k]? = some a → is_closed a = true)
    (he : (i : Int) = lc) : partitioned is_closed l lc := by
  rw [← he]
  exact partitioned_of_bounds is_closed l i h1 (fun k a hk => h2 k a (by omega))

theorem move_closed_partition {α : Type} (is_closed : α → Bool) (clear : α → α)
    (hclear : ∀ a, is_closed (clear a) = is_closed a)
    (n i : Nat) (l : List α) (lc : Int)
    (h1 : ∀ (k : Nat) (a : α), k < i → l[k]? = some a → is_closed a = false)
    (h2 : ∀ (k : Nat) (a : α), lc ≤ (k : Int) → l[k]? = some a → is_closed a = true)
    (h3 : (i : Int) ≤ lc) (h4 : lc ≤ l.length) (h5 : lc ≤ i + n) :
    partitioned is_closed (move_closed_to_the_end is_closed clear n i l lc).1
      (move_closed_to_the_end is_closed clear n i l lc).2 ∧
    (i : Int) ≤ (move_closed_to_the_end is_closed clear n i l lc).2 ∧
    (move_closed_to_the_end is_closed clear n i l lc).2 ≤ lc := by
  induction n generalizing i l lc with
  | zero =>
    simp only [move_closed_to_the_end]
    exact ⟨partitioned_at_cursor is_closed l i lc h1 h2 (by omega), h3, le_refl _⟩
  | succ n ih =>
    simp only [move_closed_to_the_end]
    by_cases c1 : (i : Int) < lc
    · rw [if_pos c1]
      have hi : i < l.length := by omega
      rw [List.getElem?_eq_getElem hi]
      simp only []
      by_cases c2 : (!is_closed l[i]) = true
      · rw [if_pos c2]
        have hopen : is_closed l[i] = false := by simpa using c2
        obtain ⟨a1, a2, a3⟩ := ih (i + 1) l lc
          (by
            intro k a hk hka
            by_cases hki : k < i
            · exact h1 k a hki hka
            · have : k = i := by omega
              subst this
              rw [List.getElem?_eq_getElem hi] at hka
              rw [← Option.some.inj hka]
              exact hopen)
          h2 (by push_cast; omega) h4 (by push_cast; omega)
        exact ⟨a1, by push_cast at a2; omega, a3⟩
      · rw [if_neg c2]
        have hclosed : is_closed l[i] = true := by simpa using c2
        have hlen1 : (l.set i (clear l[i])).length = l.length := List.length_set _ _ _
        obtain ⟨b1, b2, b3, b4⟩ := last_not_closed_spec is_closed (l.set i (clear l[i])) i
          (lc - 1 - i).toNat (lc - 1) (by omega) (by omega) (by rw [hlen1]; omega)
        generalize last_not_closed is_closed (l.set i (clear l[i])) i (lc - 1 - i).toNat
          (lc - 1) = j at b1 b2 b3 b4 ⊢
        have get1 : ∀ k : Nat, k ≠ i → (l.set i (clear l[i]))[k]? = l[k]? := by
          intro k hk
          exact List.getElem?_set_ne (Ne.symm hk)
        have get1i : (l.set i (clear l[i]))[i]? = some (clear l[i]) :=
          List.getElem?_set_self hi
        by_cases c3 : j ≤ (i : Int)
        · rw [if_pos c3]
          have hji : j = (i : Int) := by omega
          subst hji
          refine ⟨?_, le_refl _, by omega⟩
          apply partitioned_of_bounds
          · intro k a hk hka
            rw [get1 k (by omega)] at hka
            exact h1 k a hk hka
          · intro k a hk hka
            by_cases hki : k = i
            · subst hki
              rw [get1i] at hka
              rw [← Option.some.inj hka, hclear]
              exact hclosed
            · by_cases hkl : (k : Int) ≤ lc - 1
              · exact b3 k a (by omega) hkl hka
              · rw [get1 k hki] at hka
                exact h2 k a (by omega) hka
        · rw [if_neg c3]
          have hj : j.toNat < (l.set i (clear l[i])).length := by rw [hlen1]; omega
          rw [List.getElem?_eq_getElem hj]
          simp only []
          have hother : is_closed (l.set i (clear l[i]))[j.toNat] = false :=
            b4 (by omega) _ (List.getElem?_eq_getElem hj)
          have hji : j.toNat ≠ i := by omega
          have hlen2 : (((l.set i (clear l[i])).set i (l.set i (clear l[i]))[j.toNat]).set
              j.toNat (clear l[i])).length = l.length := by
            simp
          have get2 : ∀ k : Nat, k ≠ i → k ≠ j.toNat →
              (((l.set i (clear l[i])).set i (l.set i (clear l[i]))[j.toNat]).set
                j.toNat (clear l[i]))[k]? = l[k]? := by
            intro k hk1 hk2
            rw [List.getElem?_set_ne (Ne.symm hk2), List.getElem?_set_ne (Ne.symm hk1),
              List.getElem?_set_ne (Ne.symm hk1)]
          have get2i : (((l.set i (clear l[i])).set i (l.set i (clear l[i]))[j.toNat]).set
              j.toNat (clear l[i]))[i]? = some (l.set i (clear l[i]))[j.toNat] := by
            rw [List.getElem?_set_ne hji, List.getElem?_set_self (by rw [hlen1]; exact hi)]
          have get2j : (((l.set i (clear l[i])).set i (l.set i (clear l[i]))[j.toNat]).set
              j.toNat (clear l[i]))[j.toNat]? = some (clear l[i]) := by
            rw [List.getElem?_set_self (by simp; omega)]
          obtain ⟨a1, a2, a3⟩ := ih (i + 1)
            (((l.set i (clear l[i])).set i (l.set i (clear l[i]))[j.toNat]).set
              j.toNat (clear l[i])) j
            (by
              intro k a hk hka
              by_cases hki : k = i
              · subst hki
                rw [get2i] at hka
                rw [← Option.some.inj hka]
                exact hother
              · rw [get2 k hki (by omega)] at hka
                exact h1 k a (by omega) hka)
            (by
              intro k a hk hka
              by_cases hkj : k = j.toNat
              · subst hkj
                rw [get2j] at hka
                rw [← Option.some.inj hka, hclear]
                exact hclosed
              · have hki : k ≠ i := by omega
                rw [get2 k hki hkj] at hka
                by_cases hkl : (k : Int) ≤ lc - 1
                · exact b3 k a (by omega) hkl (by rw [get1 k hki]; exact hka)
                · exact h2 k a (by omega) hka)
            (by push_cast; omega) (by rw [hlen2]; omega) (by push_cast; omega)
          exact ⟨a1, by push_cast at a2; omega, by omega⟩
    · rw [if_neg c1]
      exact ⟨partitioned_at_cursor is_closed l i lc h1 h2 (by omega), h3, le_refl _⟩

theorem swap_perm {α : Type} (l : List α) (i j : Nat) (x y : α)
    (hx : l[i]? = some x) (hy : l[j]? = some y) (hij : i ≠ j) :
    ((l.set i y).set j x).Perm l := by
  classical
  rw [List.perm_iff_count]
  intro a
  have h := count_flag_swap (fun b => b == a) l i j x y hx hy hij
  unfold count_flag at h
  have h2 : ((l.set i y).set j x).countP (fun b => b == a) = l.countP (fun b => b == a) := by
    exact_mod_cast h
  exact h2

theorem set_same {α : Type} (l : List α) (i : Nat) (x : α) (hx : l[i]? = some x) :
    l.set i x = l := by
  apply List.ext_getElem?
  intro k
  by_cases hk : k = i
  · subst hk
    have hi : k < l.length := (List.getElem?_eq_some_iff.mp hx).1
    rw [List.getElem?_set_self hi, hx]
  · rw [List.getElem?_set_ne (Ne.symm hk)]

theorem move_closed_to_the_end_inv_closed {α : Type} (is_closed : α → Bool) (clear : α → α)
    (Q : List α → Prop)
    (hset : ∀ (l : List α) (i : Nat) (x : α), l[i]? = some x → is_closed x = true → Q l →
      Q (l.set i (clear x)))
    (hswap : ∀ (l : List α) (i j : Nat) (x y : α), l[i]? = some x → l[j]? = some y → i ≠ j →
      Q l → Q ((l.set i y).set j x))
    (n i : Nat) (l : List α) (lc : Int) (h : Q l) :
    Q (move_closed_to_the_end is_closed clear n i l lc).1 := by
  induction n generalizing i l lc with
  | zero => exact h
  | succ n ih =>
    simp only [move_closed_to_the_end]
    split_ifs with c1
    · split
      · exact h
      · rename_i item hitem
        split_ifs with c2 c3
        · exact ih _ _ _ h
        · exact hset _ _ _ hitem (by simpa using c2) h
        · have h1 := hset _ _ _ hitem (by simpa using c2) h
          split
          · exact h1
          · rename_i other hother
            apply ih
            have hi : i < l.length := (List.getElem?_eq_some_iff.mp hitem).1
            refine hswap _ i _ (clear item) other ?_ hother ?_ h1
            · simp [hi]
            · intro hc
              omega
    · exact h

theorem move_closed_perm {α β : Type} (is_closed : α → Bool) (clear : α → α) (g : α → β)
    (hg : ∀ a, is_closed a = true → g (clear a) = g a)
    (n i : Nat) (l : List α) (lc : Int) :
    ((move_closed_to_the_end is_closed clear n i l lc).1.map g).Perm (l.map g) := by
  apply move_closed_to_the_end_inv_closed is_closed clear (fun l1 => (l1.map g).Perm (l.map g))
  · intro l1 k x hx hc hq
    have : (l1.set k (clear x)).map g = l1.map g := by
      rw [List.map_set, hg x hc]
      apply set_same
      rw [List.getElem?_map, hx]
      rfl
    rw [this]
    exact hq
  · intro l1 a b x y hx hy hab hq
    exact ((swap_perm l1 a b x y hx hy hab).map g).trans hq
  · exact List.Perm.refl _

theorem count_partitioned {α : Type} (p : α → Bool) (l : List α) (c : Nat)
    (h : partitioned p l (c : Int)) (hc : c ≤ l.length) :
    count_flag p l = (l.length : Int) - c := by
  induction l generalizing c with
  | nil =>
    simp only [List.length_nil, Nat.le_zero] at hc
    subst hc
    rfl
  | cons a rest ih =>
    rw [count_flag_cons, List.length_cons]
    push_cast
    cases c with
    | zero =>
      have ha : p a = true := (h 0 a (by simp)).mpr (by simp)
      have := ih 0 (fun k b hk => by
        constructor
        · intro _; simp
        · intro _; exact (h (k + 1) b (by simpa using hk)).mpr (by push_cast; omega)) (by omega)
      rw [this, ha]
      simp [flag_value]
      omega
    | succ c =>
      have ha : p a = false := by
        by_contra hne
        have := (h 0 a (by simp)).mp (by simpa using hne)
        push_cast at this
        omega
      have := ih c (fun k b hk => by
        have := h (k + 1) b (by simpa using hk)
        push_cast at this
        constructor
        · intro hb; have := this.mp hb; omega
        · intro hb; exact this.mpr (by omega)) (by simp at hc; omega)
      rw [this, ha]
      simp [flag_value]

theorem count_tail_closed {α : Type} (p : α → Bool) (l : List α) (c : Nat)
    (h : ∀ (k : Nat) (a : α), c ≤ k → l[k]? = some a → p a = true) :
    (l.length : Int) - c ≤ count_flag p l := by
  induction l generalizing c with
  | nil => simp [count_flag]
  | cons a rest ih =>
    rw [count_flag_cons, List.length_cons]
    push_cast
    have hf : 0 ≤ flag_value (p a) := by unfold flag_value; split_ifs <;> omega
    cases c with
    | zero =>
      have ha : p a = true := h 0 a (by omega) (by simp)
      have := ih 0 (fun k b _ hk => h (k + 1) b (by omega) (by simpa using hk))
      rw [ha]
      simp [flag_value] at this ⊢
      omega
    | succ c =>
      have := ih c (fun k b hkc hk => h (k + 1) b (by omega) (by simpa using hk))
      push_cast
      omega

theorem partitioned_of_count {α : Type} (p : α → Bool) (l : List α) (c : Nat)
    (h : ∀ (k : Nat) (a : α), c ≤ k → l[k]? = some a → p a = true)
    (hcount : count_flag p l ≤ (l.length : Int) - c) :
    partitioned p l (c : Int) := by
  induction l generalizing c with
  | nil => intro k a hk; simp at hk
  | cons a rest ih =>
    rw [count_flag_cons, List.length_cons] at hcount
    push_cast at hcount
    have hf : 0 ≤ flag_value (p a) := by unfold flag_value; split_ifs <;> omega
    cases c with
    | zero =>
      exact partitioned_of_bounds p _ 0 (fun k b hk => by omega) h
    | succ c =>
      have hrest : ∀ (k : Nat) (b : α), c ≤ k → rest[k]? = some b → p b = true :=
        fun k b hkc hk => h (k + 1) b (by omega) (by simpa using hk)
      have hlow := count_tail_closed p rest c hrest
      push_cast at hcount
      have ha : p a = false := by
        by_contra hne
        have : p a = true := by simpa using hne
        rw [this] at hcount
        simp [flag_value] at hcount
        omega
      have hp := ih c hrest (by rw [ha] at hcount; simp [flag_value] at hcount; omega)
      intro k b hk
      cases k with
      | zero =>
        simp only [List.getElem?_cons_zero, Option.some.injEq] at hk
        subst hk
        rw [ha]
        simp
      | succ k =>
        have := hp k b (by simpa using hk)
        push_cast
        rw [this]
        omega

theorem move_closed_count {α : Type} (is_closed : α → Bool) (clear : α → α)
    (hclear : ∀ a, is_closed (clear a) = is_closed a)
    (n i : Nat) (l : List α) (lc : Int) :
    count_flag is_closed (move_closed_to_the_end is_closed clear n i l lc).1 =
      count_flag is_closed l ∧
    (move_closed_to_the_end is_closed clear n i l lc).1.length = l.length := by
  constructor
  · apply move_closed_to_the_end_inv is_closed clear
      (fun l1 => count_flag is_closed l1 = count_flag is_closed l)
    · intro l1 k x hx hq
      rw [count_flag_set is_closed l1 k _ x hx, hclear, hq]
      omega
    · intro l1 a b x y hx hy hab hq
      rw [count_flag_swap is_closed l1 a b x y hx hy hab, hq]
    · rfl
  · apply move_closed_to_the_end_inv is_closed clear (fun l1 => l1.length = l.length)
    · intro l1 k x _ hq
      rw [List.length_set, hq]
    · intro l1 a b x y _ _ _ hq
      rw [List.length_set, List.length_set, hq]
    · rfl

theorem compaction_ran {α : Type} (is_closed : α → Bool) (clear : α → α)
    (hclear : ∀ a, is_closed (clear a) = is_closed a) (l : List α) (lc nc : Int)
    (h1 : ∀ (k : Nat) (a : α), lc ≤ (k : Int) → l[k]? = some a → is_closed a = true)
    (h2 : nc = count_flag is_closed l) (h3 : lc ≤ l.length)
    (hrun : (l.length : Int) - lc < nc) :
    partitioned is_closed (move_closed_to_the_end is_closed clear lc.toNat 0 l lc).1
      ((l.length : Int) - nc) ∧
    (move_closed_to_the_end is_closed clear lc.toNat 0 l lc).2 = (l.length : Int) - nc := by
  have hle := (count_flag_le_length is_closed l).2
  obtain ⟨a1, a2, a3⟩ := move_closed_partition is_closed clear hclear lc.toNat 0 l lc
    (fun k a hk => by omega) h1 (by push_cast; omega) h3 (by omega)
  obtain ⟨b1, b2⟩ := move_closed_count is_closed clear hclear lc.toNat 0 l lc
  generalize move_closed_to_the_end is_closed clear lc.toNat 0 l lc = r at a1 a2 a3 b1 b2 ⊢
  have hr : r.2 = ((r.2.toNat : Nat) : Int) := by omega
  rw [hr] at a1
  have := count_partitioned is_closed r.1 r.2.toNat a1 (by omega)
  have hr2 : r.2 = (l.length : Int) - nc := by omega
  rw [← hr2, hr]
  exact ⟨a1, rfl⟩

theorem compaction_skipped {α : Type} (is_closed : α → Bool) (l : List α) (lc nc : Int)
    (h1 : ∀ (k : Nat) (a : α), lc ≤ (k : Int) → l[k]? = some a → is_closed a = true)
    (h2 : nc = count_flag is_closed l)
    (hskip : ¬ (l.length : Int) - lc < nc) :
    partitioned is_closed l ((l.length : Int) - nc) ∧
    (0 ≤ lc → lc = (l.length : Int) - nc) := by
  have hle := count_flag_le_length is_closed l
  have hp := partitioned_of_count is_closed l lc.toNat (fun k a hk => h1 k a (by omega))
    (by omega)
  have := count_partitioned is_closed l lc.toNat hp (by omega)
  have e : ((lc.toNat : Nat) : Int) = (l.length : Int) - nc := by omega
  rw [e] at hp
  exact ⟨hp, fun h0 => by omega⟩

theorem move_closed_inputs_partition (ins : Inputs) (outs : Outputs)
    (h1 : ∀ (k : Nat) (x : Input), ins.last_closed ≤ (k : Int) → ins.inputs[k]? = some x →
      x.is_closed = true)
    (h2 : ins.num_closed = count_flag Input.is_closed ins.inputs)
    (h3 : ins.last_closed ≤ ins.num_inputs) :
    partitioned Input.is_closed (move_closed_inputs_outputs_to_the_end ins outs).1.inputs
      (ins.num_inputs - ins.num_closed) ∧
    (ins.num_inputs - ins.last_closed < ins.num_closed ∨ 0 ≤ ins.last_closed →
      (move_closed_inputs_outputs_to_the_end ins outs).1.last_closed =
        ins.num_inputs - ins.num_closed) ∧
    (move_closed_inputs_outputs_to_the_end ins outs).1.last_closed ≤ ins.num_inputs ∧
    (move_closed_inputs_outputs_to_the_end ins outs).1.inputs.length = ins.inputs.length := by
  unfold Inputs.num_inputs at h3 ⊢
  have hle := count_flag_le_length Input.is_closed ins.inputs
  unfold move_closed_inputs_outputs_to_the_end Inputs.num_inputs
  simp only []
  by_cases c : (ins.inputs.length : Int) - ins.last_closed < ins.num_closed
  · rw [if_pos c]
    obtain ⟨a, b⟩ := compaction_ran Input.is_closed
      (fun input => { input with is_readable := false }) (fun _ => rfl)
      ins.inputs ins.last_closed ins.num_closed h1 h2 h3 c
    have hlen := (move_closed_count Input.is_closed
      (fun input => { input with is_readable := false }) (fun _ => rfl)
      ins.last_closed.toNat 0 ins.inputs ins.last_closed).2
    exact ⟨a, fun _ => b, by show (move_closed_to_the_end _ _ _ _ _ _).2 ≤ _; rw [b]; omega,
      hlen⟩
  · rw [if_neg c]
    obtain ⟨a, b⟩ := compaction_skipped Input.is_closed ins.inputs ins.last_closed
      ins.num_closed h1 h2 c
    refine ⟨a, ?_, h3, rfl⟩
    rintro (h | h)
    · exact absurd h c
    · exact b h

theorem move_closed_outputs_partition (ins : Inputs) (outs : Outputs)
    (h1 : ∀ (k : Nat) (y : Output), outs.last_closed ≤ (k : Int) → outs.outputs[k]? = some y →
      y.is_closed = true)
    (h2 : outs.num_closed = count_flag Output.is_closed outs.outputs)
    (h3 : outs.last_closed ≤ outs.num_outputs) :
    partitioned Output.is_closed (move_closed_inputs_outputs_to_the_end ins outs).2.outputs
      (outs.num_outputs - outs.num_closed) ∧
    (outs.num_outputs - outs.last_closed < outs.num_closed ∨ 0 ≤ outs.last_closed →
      (move_closed_inputs_outputs_to_the_end ins outs).2.last_closed =
        outs.num_outputs - outs.num_closed) ∧
    (move_closed_inputs_outputs_to_the_end ins outs).2.last_closed ≤ outs.num_outputs ∧
    (move_closed_inputs_outputs_to_the_end ins outs).2.outputs.length =
      outs.outputs.length := by
  unfold Outputs.num_outputs at h3 ⊢
  have hle := count_flag_le_length Output.is_closed outs.outputs
  unfold move_closed_inputs_outputs_to_the_end Outputs.num_outputs
  simp only []
  by_cases c : (outs.outputs.length : Int) - outs.last_closed < outs.num_closed
  · rw [if_pos c]
    obtain ⟨a, b⟩ := compaction_ran Output.is_closed
      (fun output => { output with is_writable := false }) (fun _ => rfl)
      outs.outputs outs.last_closed outs.num_closed h1 h2 h3 c
    have hlen := (move_closed_count Output.is_closed
      (fun output => { output with is_writable := false }) (fun _ => rfl)
      outs.last_closed.toNat 0 outs.outputs outs.last_closed).2
    exact ⟨a, fun _ => b, by show (move_closed_to_the_end _ _ _ _ _ _).2 ≤ _; rw [b]; omega,
      hlen⟩
  · rw [if_neg c]
    obtain ⟨a, b⟩ := compaction_skipped Output.is_closed outs.outputs outs.last_closed
      outs.num_closed h1 h2 c
    refine ⟨a, ?_, h3, rfl⟩
    rintro (h | h)
    · exact absurd h c
    · exact b h

theorem move_closed_inputs_outputs_perm (ins : Inputs) (outs : Outputs) :
    ((move_closed_inputs_outputs_to_the_end ins outs).1.inputs.map closed_not_readable).Perm
      (ins.inputs.map closed_not_readable) ∧
    ((move_closed_inputs_outputs_to_the_end ins outs).2.outputs.map closed_not_writable).Perm
      (outs.outputs.map closed_not_writable) := by
  unfold move_closed_inputs_outputs_to_the_end
  simp only []
  constructor
  · split_ifs
    · apply move_closed_perm
      intro a ha
      simp [closed_not_readable, ha]
    · exact List.Perm.refl _
  · split_ifs
    · apply move_closed_perm
      intro a ha
      simp [closed_not_writable, ha]
    · exact List.Perm.refl _

/-- C15. The compaction establishes the partition. Assume that before the call `last_closed`
is at most the number of endpoints, every index `≥ last_closed` holds a closed endpoint, and
`num_closed` is the number of closed endpoints. After
`move_closed_inputs_outputs_to_the_end` the array of inputs is a permutation of what it
was, apart from `is_readable` being cleared on closed inputs; `num_inputs` and `num_closed`
are unchanged; `inputs[k].is_closed` holds exactly for the indices
`k ≥ num_inputs - num_closed`; and `last_closed = num_inputs - num_closed` whenever the
compaction loop ran (and also when it did not and `last_closed` was not negative). The same
holds for the outputs, with `is_writable`. Hence the first `num_inputs - num_closed` inputs
and the first `num_outputs - num_closed` outputs are exactly the open endpoints. -/
theorem compaction_establishes_the_partition (ins : Inputs) (outs : Outputs)
    (hi1 : ∀ (k : Nat) (x : Input), ins.last_closed ≤ (k : Int) → ins.inputs[k]? = some x →
      x.is_closed = true)
    (hi2 : ins.num_closed = count_flag Input.is_closed ins.inputs)
    (hi3 : ins.last_closed ≤ ins.num_inputs)
    (ho1 : ∀ (k : Nat) (y : Output), outs.last_closed ≤ (k : Int) → outs.outputs[k]? = some y →
      y.is_closed = true)
    (ho2 : outs.num_closed = count_flag Output.is_closed outs.outputs)
    (ho3 : outs.last_closed ≤ outs.num_outputs) :
    (((move_closed_inputs_outputs_to_the_end ins outs).1.inputs.map closed_not_readable).Perm
        (ins.inputs.map closed_not_readable) ∧
      (move_closed_inputs_outputs_to_the_end ins outs).1.num_inputs = ins.num_inputs ∧
      (move_closed_inputs_outputs_to_the_end ins outs).1.num_closed = ins.num_closed ∧
      (∀ (k : Nat) (x : Input),
        (move_closed_inputs_outputs_to_the_end ins outs).1.inputs[k]? = some x →
        (x.is_closed = true ↔ ins.num_inputs - ins.num_closed ≤ (k : Int))) ∧
      (ins.num_inputs - ins.last_closed < ins.num_closed ∨ 0 ≤ ins.last_closed →
        (move_closed_inputs_outputs_to_the_end ins outs).1.last_closed =
          ins.num_inputs - ins.num_closed) ∧
      (∀ (k : Nat) (x : Input),
        (move_closed_inputs_outputs_to_the_end ins outs).1.inputs[k]? = some x →
        (x.is_closed = false ↔ (k : Int) < ins.num_inputs - ins.num_closed))) ∧
    (((move_closed_inputs_outputs_to_the_end ins outs).2.outputs.map closed_not_writable).Perm
        (outs.outputs.map closed_not_writable) ∧
      (move_closed_inputs_outputs_to_the_end ins outs).2.num_outputs = outs.num_outputs ∧
      (move_closed_inputs_outputs_to_the_end ins outs).2.num_closed = outs.num_closed ∧
      (∀ (k : Nat) (y : Output),
        (move_closed_inputs_outputs_to_the_end ins outs).2.outputs[k]? = some y →
        (y.is_closed = true ↔ outs.num_outputs - outs.num_closed ≤ (k : Int))) ∧
      (outs.num_outputs - outs.last_closed < outs.num_closed ∨ 0 ≤ outs.last_closed →
        (move_closed_inputs_outputs_to_the_end ins outs).2.last_closed =
          outs.num_outputs - outs.num_closed) ∧
      (∀ (k : Nat) (y : Output),
        (move_closed_inputs_outputs_to_the_end ins outs).2.outputs[k]? = some y →
        (y.is_closed = false ↔ (k : Int) < outs.num_outputs - outs.num_closed))) := by
  obtain ⟨p1, p2⟩ := move_closed_inputs_outputs_perm ins outs
  obtain ⟨f1, _, _, f4, _, _, _⟩ := move_closed_inputs_outputs_frame ins outs
  obtain ⟨a1, a2, _, a4⟩ := move_closed_inputs_partition ins outs hi1 hi2 hi3
  obtain ⟨b1, b2, _, b4⟩ := move_closed_outputs_partition ins outs ho1 ho2 ho3
  refine ⟨⟨p1, ?_, f1, a1, a2, ?_⟩, ⟨p2, ?_, f4, b1, b2, ?_⟩⟩
  · unfold Inputs.num_inputs; rw [a4]
  · intro k x hk
    have := a1 k x hk
    cases hx : x.is_closed
    · rw [hx] at this
      simp only [Bool.false_eq_true, false_iff, not_le] at this
      simpa using this
    · rw [hx] at this
      simp only [true_iff] at this
      simp only [Bool.true_eq_false, false_iff, not_lt]
      exact this
  · unfold Outputs.num_outputs; rw [b4]
  · intro k y hk
    have := b1 k y hk
    cases hy : y.is_closed
    · rw [hy] at this
      simp only [Bool.false_eq_true, false_iff, not_le] at this
      simpa using this
    · rw [hy] at this
      simp only [true_iff] at this
      simp only [Bool.true_eq_false, false_iff, not_lt]
      exact this

/-- The theorem `compaction_establishes_the_partition` at two inputs of which the first is
closed and the second open: the compaction loop runs and leaves `last_closed = 1`. -/
theorem compaction_establishes_the_partition_witness :
    first_closed.inputs.inputs.map (fun x => x.is_closed) = [true, false] ∧
    (move_closed_inputs_outputs_to_the_end first_closed.inputs
      first_closed.outputs).1.last_closed =
        first_closed.inputs.num_inputs - first_closed.inputs.num_closed ∧
    first_closed.inputs.num_inputs - first_closed.inputs.num_closed = 1 :=
  ⟨by decide,
   (compaction_establishes_the_partition first_closed.inputs first_closed.outputs
      (fun k x hk hx => by
        have h2 : first_closed.inputs.last_closed = 2 := by decide
        have hl : first_closed.inputs.inputs.length = 2 := by decide
        rw [h2] at hk
        rw [List.getElem?_eq_none (by omega)] at hx
        cases hx)
      (by decide) (by decide)
      (fun k y hk hy => by
        have h2 : first_closed.outputs.last_closed = 1 := by decide
        have hl : first_closed.outputs.outputs.length = 1 := by decide
        rw [h2] at hk
        rw [List.getElem?_eq_none (by omega)] at hy
        cases hy)
      (by decide) (by decide)).1.2.2.2.2.1 (Or.inl (by decide)),
   by decide⟩

/-! ## The partition between two stages -/

theorem update_readiness_set_inv (revents : Nat → Events) (p : Int)
    (Qi : List Input → Prop) (Qo : List Output → Prop)
    (hi : ∀ (l : List Input) (i : Nat) (x : Input) (r e : Bool), l[i]? = some x → Qi l →
      Qi (l.set i { x with is_readable := r, is_near_eof := e }))
    (ho : ∀ (l : List Output) (i : Nat) (y : Output) (w : Bool), l[i]? = some y → Qo l →
      Qo (l.set i { y with is_writable := w }))
    (n i : Nat) (ins : Inputs) (outs : Outputs) (h1 : Qi ins.inputs) (h2 : Qo outs.outputs) :
    Qi (update_readiness revents p n i ins outs).1.inputs ∧
    Qo (update_readiness revents p n i ins outs).2.outputs := by
  induction n generalizing i ins outs with
  | zero => exact ⟨h1, h2⟩
  | succ n ih =>
    simp only [update_readiness]
    by_cases c : (i : Int) < p
    · rw [if_pos c]
      split
      · exact ih _ _ _ h1 h2
      · rename_i x hx
        exact ih _ _ _ (hi _ _ _ _ _ hx h1) h2
    · rw [if_neg c]
      split
      · exact ih _ _ _ h1 h2
      · rename_i y hy
        exact ih _ _ _ h1 (ho _ _ _ _ hy h2)

theorem mark_all_ready_set_inv (p : Int)
    (Qi : List Input → Prop) (Qo : List Output → Prop)
    (hi : ∀ (l : List Input) (i : Nat) (x : Input) (r e : Bool), l[i]? = some x → Qi l →
      Qi (l.set i { x with is_readable := r, is_near_eof := e }))
    (ho : ∀ (l : List Output) (i : Nat) (y : Output) (w : Bool), l[i]? = some y → Qo l →
      Qo (l.set i { y with is_writable := w }))
    (n i : Nat) (ins : Inputs) (outs : Outputs) (h1 : Qi ins.inputs) (h2 : Qo outs.outputs) :
    Qi (mark_all_ready p n i ins outs).1.inputs ∧
    Qo (mark_all_ready p n i ins outs).2.outputs := by
  induction n generalizing i ins outs with
  | zero => exact ⟨h1, h2⟩
  | succ n ih =>
    simp only [mark_all_ready]
    by_cases c : (i : Int) < p
    · rw [if_pos c]
      split
      · exact ih _ _ _ h1 h2
      · rename_i x hx
        exact ih _ _ _ (hi _ _ _ _ _ hx h1) h2
    · rw [if_neg c]
      split
      · exact ih _ _ _ h1 h2
      · rename_i y hy
        exact ih _ _ _ h1 (ho _ _ _ _ hy h2)

theorem handle_events_set_inv (Qi : List Input → Prop) (Qo : List Output → Prop)
    (hi : ∀ (l : List Input) (i : Nat) (x : Input) (r e : Bool), l[i]? = some x → Qi l →
      Qi (l.set i { x with is_readable := r, is_near_eof := e }))
    (ho : ∀ (l : List Output) (i : Nat) (y : Output) (w : Bool), l[i]? = some y → Qo l →
      Qo (l.set i { y with is_writable := w }))
    (ne : Int) (rev : Nat → Events)
    (p q : Int) (ins : Inputs) (outs : Outputs)
    (h1 : Qi ins.inputs) (h2 : Qo outs.outputs) :
    Qi (handle_events ne rev p q ins outs).2.1.inputs ∧
    Qo (handle_events ne rev p q ins outs).2.2.1.outputs := by
  unfold handle_events
  by_cases c1 : ne < 0
  · rw [if_pos c1]; exact ⟨h1, h2⟩
  · rw [if_neg c1]
    by_cases c2 : ne > 0
    · rw [if_pos c2]; exact update_readiness_set_inv _ _ Qi Qo hi ho _ _ _ _ h1 h2
    · rw [if_neg c2]; exact mark_all_ready_set_inv _ Qi Qo hi ho _ _ _ _ h1 h2

theorem positional_set {α : Type} (f : α → Bool) (R : Nat → Bool → Prop) (l : List α)
    (i : Nat) (x a : α) (hx : l[i]? = some x) (hf : f a = f x)
    (h : ∀ (k : Nat) (b : α), l[k]? = some b → R k (f b)) :
    ∀ (k : Nat) (b : α), (l.set i a)[k]? = some b → R k (f b) := by
  intro k b hk
  by_cases hki : k = i
  · subst hki
    have hi : k < l.length := (List.getElem?_eq_some_iff.mp hx).1
    rw [List.getElem?_set_self hi] at hk
    rw [← Option.some.inj hk, hf]
    exact h k x hx
  · rw [List.getElem?_set_ne (Ne.symm hki)] at hk
    exact h k b hk

theorem handle_events_positional (R S : Nat → Bool → Prop) (ne : Int) (rev : Nat → Events)
    (p q : Int) (ins : Inputs) (outs : Outputs)
    (h1 : ∀ (k : Nat) (x : Input), ins.inputs[k]? = some x → R k x.is_closed)
    (h2 : ∀ (k : Nat) (y : Output), outs.outputs[k]? = some y → S k y.is_closed) :
    (∀ (k : Nat) (x : Input), (handle_events ne rev p q ins outs).2.1.inputs[k]? = some x →
      R k x.is_closed) ∧
    (∀ (k : Nat) (y : Output), (handle_events ne rev p q ins outs).2.2.1.outputs[k]? = some y →
      S k y.is_closed) :=
  handle_events_set_inv
    (fun l => ∀ (k : Nat) (x : Input), l[k]? = some x → R k x.is_closed)
    (fun l => ∀ (k : Nat) (y : Output), l[k]? = some y → S k y.is_closed)
    (fun l i x _ _ hx h => positional_set Input.is_closed R l i x _ hx rfl h)
    (fun l i y _ hy h => positional_set Output.is_closed S l i y _ hy rfl h)
    ne rev p q ins outs h1 h2

theorem records_are_flowing_between_partition (ne : Int) (rev : Nat → Events)
    (st : PollStatic) (ins : Inputs) (outs : Outputs)
    (hc : counters_ok ins outs) (hp : partition_ok ins outs) :
    partition_ok (records_are_flowing_between ne rev st ins outs).inputs
      (records_are_flowing_between ne rev st ins outs).outputs ∧
    (¬ (ins.num_closed = ins.num_inputs ∧ ins.num_buffered = 0 ∧ outs.num_busy = 0) →
      partitioned Input.is_closed
        (records_are_flowing_between ne rev st ins outs).inputs.inputs
        (ins.num_inputs - ins.num_closed) ∧
      partitioned Output.is_closed
        (records_are_flowing_between ne rev st ins outs).outputs.outputs
        (outs.num_outputs - outs.num_closed)) := by
  obtain ⟨⟨i0, i1, i2⟩, ⟨o0, o1, o2⟩⟩ := hp
  obtain ⟨a1, a2, a3, a4⟩ := move_closed_inputs_partition ins outs i2 hc.1 i1
  obtain ⟨b1, b2, b3, b4⟩ := move_closed_outputs_partition ins outs o2 hc.2.2.1 o1
  have a5 := a2 (Or.inr i0)
  have b5 := b2 (Or.inr o0)
  have hci := count_flag_le_length Input.is_closed ins.inputs
  have hco := count_flag_le_length Output.is_closed outs.outputs
  have hm : partition_ok (move_closed_inputs_outputs_to_the_end ins outs).1
      (move_closed_inputs_outputs_to_the_end ins outs).2 := by
    refine ⟨⟨?_, ?_, ?_⟩, ⟨?_, ?_, ?_⟩⟩
    · rw [a5, hc.1]; unfold Inputs.num_inputs; omega
    · unfold Inputs.num_inputs; rw [a4]; exact a3
    · intro k x hk hx
      rw [a5] at hk
      exact (a1 k x hx).mpr hk
    · rw [b5, hc.2.2.1]; unfold Outputs.num_outputs; omega
    · unfold Outputs.num_outputs; rw [b4]; exact b3
    · intro k y hk hy
      rw [b5] at hk
      exact (b1 k y hy).mpr hk
  unfold records_are_flowing_between
  simp only []
  split_ifs with c1 c2
  · exact ⟨⟨⟨i0, i1, i2⟩, ⟨o0, o1, o2⟩⟩, fun h => absurd c1 h⟩
  · exact ⟨hm, fun _ => ⟨a1, b1⟩⟩
  · obtain ⟨⟨m0, m1, m2⟩, ⟨n0, n1, n2⟩⟩ := hm
    obtain ⟨_, _, f3, _, _, f6, _⟩ := handle_events_frame ne rev
      ((move_closed_inputs_outputs_to_the_end ins outs).1.num_inputs -
        (move_closed_inputs_outputs_to_the_end ins outs).1.num_closed)
      ((allocate_fds st ins outs).num_inputs_outputs -
        (move_closed_inputs_outputs_to_the_end ins outs).1.num_closed -
        (move_closed_inputs_outputs_to_the_end ins outs).2.num_closed)
      { (move_closed_inputs_outputs_to_the_end ins outs).1 with num_readable := 0 }
      { (move_closed_inputs_outputs_to_the_end ins outs).2 with num_writable := 0 }
    obtain ⟨l1, l2⟩ := handle_events_inv _ _
      (length_inputs_stable (move_closed_inputs_outputs_to_the_end ins outs).1.inputs.length)
      (length_outputs_stable (move_closed_inputs_outputs_to_the_end ins outs).2.outputs.length)
      ne rev
      ((move_closed_inputs_outputs_to_the_end ins outs).1.num_inputs -
        (move_closed_inputs_outputs_to_the_end ins outs).1.num_closed)
      ((allocate_fds st ins outs).num_inputs_outputs -
        (move_closed_inputs_outputs_to_the_end ins outs).1.num_closed -
        (move_closed_inputs_outputs_to_the_end ins outs).2.num_closed)
      { (move_closed_inputs_outputs_to_the_end ins outs).1 with num_readable := 0 }
      { (move_closed_inputs_outputs_to_the_end ins outs).2 with num_writable := 0 }
      rfl rfl
    obtain ⟨t1, t2⟩ := handle_events_positional
      (fun k c => (move_closed_inputs_outputs_to_the_end ins outs).1.last_closed ≤ (k : Int) →
        c = true)
      (fun k c => (move_closed_inputs_outputs_to_the_end ins outs).2.last_closed ≤ (k : Int) →
        c = true)
      ne rev
      ((move_closed_inputs_outputs_to_the_end ins outs).1.num_inputs -
        (move_closed_inputs_outputs_to_the_end ins outs).1.num_closed)
      ((allocate_fds st ins outs).num_inputs_outputs -
        (move_closed_inputs_outputs_to_the_end ins outs).1.num_closed -
        (move_closed_inputs_outputs_to_the_end ins outs).2.num_closed)
      { (move_closed_inputs_outputs_to_the_end ins outs).1 with num_readable := 0 }
      { (move_closed_inputs_outputs_to_the_end ins outs).2 with num_writable := 0 }
      (fun k x hx hk => m2 k x hk hx) (fun k y hy hk => n2 k y hk hy)
    obtain ⟨s1, s2⟩ := handle_events_positional
      (fun k c => (c = true ↔ ins.num_inputs - ins.num_closed ≤ (k : Int)))
      (fun k c => (c = true ↔ outs.num_outputs - outs.num_closed ≤ (k : Int)))
      ne rev
      ((move_closed_inputs_outputs_to_the_end ins outs).1.num_inputs -
        (move_closed_inputs_outputs_to_the_end ins outs).1.num_closed)
      ((allocate_fds st ins outs).num_inputs_outputs -
        (move_closed_inputs_outputs_to_the_end ins outs).1.num_closed -
        (move_closed_inputs_outputs_to_the_end ins outs).2.num_closed)
      { (move_closed_inputs_outputs_to_the_end ins outs).1 with num_readable := 0 }
      { (move_closed_inputs_outputs_to_the_end ins outs).2 with num_writable := 0 }
      a1 b1
    refine ⟨⟨⟨?_, ?_, ?_⟩, ⟨?_, ?_, ?_⟩⟩, fun _ => ⟨s1, s2⟩⟩
    · rw [f3]; exact m0
    · rw [f3]
      exact le_trans m1 (le_of_eq (congrArg (fun n : Nat => (n : Int)) l1).symm)
    · intro k x hk hx
      rw [f3] at hk
      exact t1 k x hx hk
    · rw [f6]; exact n0
    · rw [f6]
      exact le_trans n1 (le_of_eq (congrArg (fun n : Nat => (n : Int)) l2).symm)
    · intro k y hk hy
      rw [f6] at hk
      exact t2 k y hy hk

theorem write_to_output_closed (w : WriteResult) (y : Output) (nc nb : Int)
    (h : y.is_closed = true) : (write_to_output w y nc nb).output.is_closed = true := by
  unfold write_to_output
  simp only []
  split_ifs <;> simp only [SET_FLAG_fst, h]

theorem exchange_inputs_outputs_inv (Q : List Output → Prop)
    (hQ : ∀ (l : List Output) (k : Nat) (y : Output) (x : Input), l[k]? = some y →
      y.is_busy = false → x.is_buffered = true → Q l → Q (l.set k (exchanged_output x y)))
    (l : List Input) (i0 : Nat) (nb : Int) (o : Outputs) (h : Q o.outputs) :
    Q (exchange_inputs i0 l nb o).outputs.outputs ∧
    (exchange_inputs i0 l nb o).outputs.last_closed = o.last_closed := by
  induction l generalizing i0 nb o with
  | nil => exact ⟨h, rfl⟩
  | cons input rest ih =>
    simp only [exchange_inputs]
    split_ifs with h1 h2 h3
    · exact ⟨h, rfl⟩
    · exact ⟨h, rfl⟩
    · exact ih _ _ _ h
    · obtain ⟨f1, _, _, _, f5⟩ := find_idle_output_frame o.outputs.length o
      split
      · obtain ⟨a, b⟩ := ih (i0 + 1) nb (find_idle_output o.outputs.length o).1
          (by rw [f1]; exact h)
        exact ⟨a, b.trans f5⟩
      · rename_i k0 y0 hsome
        have hs := find_idle_output_some _ _ _ _ hsome
        have hb : input.is_buffered = true := by simpa using h3
        have hq := pair_up_eq input nb (find_idle_output o.outputs.length o).1 k0 y0
        generalize pair_up input nb (find_idle_output o.outputs.length o).1 k0 y0 = q at hq ⊢
        obtain ⟨x1, nb1, o1⟩ := q
        simp only [Prod.mk.injEq] at hq
        obtain ⟨_, _, ho1⟩ := hq
        obtain ⟨a, b⟩ := ih (i0 + 1) nb1 o1 (by
          rw [ho1]
          simp only [f1]
          exact hQ _ _ _ _ hs.1 hs.2 hb h)
        refine ⟨a, b.trans ?_⟩
        rw [ho1]
        exact f5

theorem step_closed_positions (os : Oracle) (m : Machine) (hs : m.stage ≠ Stage.poller) :
    (∀ (k : Nat) (x : Input), m.inputs.inputs[k]? = some x → x.is_closed = true →
      ∃ x1, (step os m).inputs.inputs[k]? = some x1 ∧ x1.is_closed = true) ∧
    (∀ (k : Nat) (y : Output), m.outputs.outputs[k]? = some y → y.is_closed = true →
      ∃ y1, (step os m).outputs.outputs[k]? = some y1 ∧ y1.is_closed = true) ∧
    (step os m).inputs.last_closed = m.inputs.last_closed ∧
    (step os m).outputs.last_closed = m.outputs.last_closed := by
  have writer : (∀ (k : Nat) (y : Output), m.outputs.outputs[k]? = some y →
      y.is_closed = true →
      ∃ y1, (write_to_available os.wr m.outputs).2.1.outputs[k]? = some y1 ∧
        y1.is_closed = true) := by
    intro k y hy hc
    unfold write_to_available
    split_ifs
    · refine ⟨_, ?_, write_to_output_closed (os.wr (0 + k)) y 0 0 hc⟩
      show (write_outputs os.wr 0 m.outputs.outputs _ _).outputs[k]? = _
      rw [write_outputs_getElem, hy]
      rfl
    · exact ⟨y, hy, hc⟩
  unfold step
  split
  · rename_i h; exact absurd h hs
  · exact ⟨fun k x hx hc => ⟨x, hx, hc⟩, writer, rfl,
      (write_to_available_next_output _ _).2⟩
  · refine ⟨?_, fun k y hy hc => ⟨y, hy, hc⟩, ?_, rfl⟩
    · intro k x hx hc
      refine ⟨x, ?_, hc⟩
      show (read_from_available os.rd m.inputs).2.1.inputs[k]? = some x
      unfold read_from_available
      split_ifs
      · exact read_inputs_closed_getElem os.rd 0 m.inputs.inputs _ _ k x hx hc
      · exact hx
    · show (read_from_available os.rd m.inputs).2.1.last_closed = m.inputs.last_closed
      unfold read_from_available
      split_ifs <;> rfl
  · obtain ⟨q1, q2⟩ := exchange_inputs_outputs_inv
      (fun l => ∀ (k : Nat) (y : Output), m.outputs.outputs[k]? = some y → y.is_closed = true →
        ∃ y1, l[k]? = some y1 ∧ y1.is_closed = true)
      (by
        intro l k y x hy _ _ hq j z hz hc
        obtain ⟨y1, h1, h2⟩ := hq j z hz hc
        by_cases hjk : j = k
        · subst hjk
          have hj : j < l.length := (List.getElem?_eq_some_iff.mp hy).1
          rw [hy] at h1
          refine ⟨_, List.getElem?_set_self hj, ?_⟩
          show y.is_closed = true
          rw [Option.some.inj h1]
          exact h2
        · exact ⟨y1, by rw [List.getElem?_set_ne (Ne.symm hjk)]; exact h1, h2⟩)
      m.inputs.inputs 0 m.inputs.num_buffered m.outputs
      (fun k y hy hc => ⟨y, hy, hc⟩)
    refine ⟨?_, q1, rfl, q2⟩
    intro k x hx hc
    rcases exchange_inputs_getElem m.inputs.inputs 0 m.inputs.num_buffered m.outputs k x hx
      with h | ⟨j, hj⟩
    · exact ⟨x, h, hc⟩
    · obtain ⟨x0, y0, _, h0, _, _, _, h1, _⟩ :=
        exchange_inputs_routed m.inputs.inputs 0 m.inputs.num_buffered m.outputs _ _ hj
      simp only [Nat.zero_add, Nat.sub_zero] at h0 h1
      rw [hx] at h0
      refine ⟨_, h1, ?_⟩
      show x0.is_closed = true
      rw [← Option.some.inj h0]
      exact hc
  · exact ⟨fun k x hx hc => ⟨x, hx, hc⟩, writer, rfl,
      (write_to_available_next_output _ _).2⟩
  · exact ⟨fun k x hx hc => ⟨x, hx, hc⟩, fun k y hy hc => ⟨y, hy, hc⟩, rfl, rfl⟩

theorem step_partition (os : Oracle) (m : Machine) (hc : counters_ok m.inputs m.outputs)
    (hp : partition_ok m.inputs m.outputs) :
    partition_ok (step os m).inputs (step os m).outputs := by
  by_cases hs : m.stage = Stage.poller
  · have := (records_are_flowing_between_partition os.num_events os.revents m.statics
      m.inputs m.outputs hc hp).1
    unfold step
    rw [hs]
    exact this
  · obtain ⟨a, b, c, d⟩ := step_closed_positions os m hs
    obtain ⟨l1, l2⟩ := step_length os m
    obtain ⟨⟨i0, i1, i2⟩, ⟨o0, o1, o2⟩⟩ := hp
    unfold Inputs.num_inputs at i1
    unfold Outputs.num_outputs at o1
    refine ⟨⟨by rw [c]; exact i0, ?_, ?_⟩, ⟨by rw [d]; exact o0, ?_, ?_⟩⟩
    · unfold Inputs.num_inputs; rw [c, l1]; exact i1
    · intro k x hk hx
      rw [c] at hk
      have hlt : k < m.inputs.inputs.length := by
        rw [← l1]; exact (List.getElem?_eq_some_iff.mp hx).1
      obtain ⟨x1, h1, h2⟩ := a k _ (List.getElem?_eq_getElem hlt)
        (i2 k _ hk (List.getElem?_eq_getElem hlt))
      rw [hx] at h1
      rw [Option.some.inj h1]
      exact h2
    · unfold Outputs.num_outputs; rw [d, l2]; exact o1
    · intro k y hk hy
      rw [d] at hk
      have hlt : k < m.outputs.outputs.length := by
        rw [← l2]; exact (List.getElem?_eq_some_iff.mp hy).1
      obtain ⟨y1, h1, h2⟩ := b k _ (List.getElem?_eq_getElem hlt)
        (o2 k _ hk (List.getElem?_eq_getElem hlt))
      rw [hy] at h1
      rw [Option.some.inj h1]
      exact h2

theorem run_partition (answers : List Oracle) (m : Machine)
    (hc : counters_ok m.inputs m.outputs) (hp : partition_ok m.inputs m.outputs) :
    partition_ok (run answers m).inputs (run answers m).outputs := by
  induction answers generalizing m with
  | nil => exact hp
  | cons os rest ih => exact ih _ (step_counters os m hc) (step_partition os m hc hp)

theorem reachable_partition (cap : Nat) (ins outs : List (Int × String)) (m : Machine)
    (h : Reachable cap ins outs m) : partition_ok m.inputs m.outputs := by
  obtain ⟨answers, rfl⟩ := h
  apply run_partition
  · exact reachable_counters cap ins outs _ ⟨[], rfl⟩
  · unfold partition_ok start fresh_inputs fresh_outputs Inputs.num_inputs Outputs.num_outputs
    simp only [List.length_map]
    refine ⟨⟨by omega, le_refl _, ?_⟩, ⟨by omega, le_refl _, ?_⟩⟩
    · intro k x hk hx
      have := (List.getElem?_eq_some_iff.mp hx).1
      simp only [List.length_map] at this
      omega
    · intro k y hk hy
      have := (List.getElem?_eq_some_iff.mp hy).1
      simp only [List.length_map] at this
      omega

/-! ## The readiness update -/

theorem update_readiness_getElem (rev : Nat → Events) (P : Nat) (n i0 : Nat)
    (ins : Inputs) (outs : Outputs) :
    (∀ j : Nat, (update_readiness rev P n i0 ins outs).1.inputs[j]? =
      if i0 ≤ j ∧ j < i0 + n ∧ j < P then
        (ins.inputs[j]?).map (fun x =>
          { x with is_readable := (rev j).pollin || (rev j).pollhup,
                   is_near_eof := (rev j).pollhup })
      else ins.inputs[j]?) ∧
    (∀ k : Nat, (update_readiness rev P n i0 ins outs).2.outputs[k]? =
      if i0 ≤ P + k ∧ P + k < i0 + n then
        (outs.outputs[k]?).map (fun y =>
          { y with is_writable :=
              !y.is_busy || ((rev (P + k)).pollout || (rev (P + k)).pollhup) })
      else outs.outputs[k]?) := by
  induction n generalizing i0 ins outs with
  | zero =>
    simp only [update_readiness]
    constructor
    · intro j; rw [if_neg (by omega)]
    · intro k; rw [if_neg (by omega)]
  | succ n ih =>
    simp only [update_readiness]
    by_cases c : (i0 : Int) < (P : Int)
    · rw [if_pos c]
      have hc : i0 < P := by omega
      split
      · rename_i hnone
        obtain ⟨a, b⟩ := ih (i0 + 1) ins outs
        constructor
        · intro j
          rw [a j]
          by_cases hj : j = i0
          · subst hj
            rw [if_neg (by omega), if_pos (by omega), hnone]
            rfl
          · by_cases hc2 : i0 ≤ j ∧ j < i0 + (n + 1) ∧ j < P
            · rw [if_pos hc2, if_pos (by omega)]
            · rw [if_neg hc2, if_neg (by omega)]
        · intro k
          rw [b k]
          by_cases hc2 : i0 ≤ P + k ∧ P + k < i0 + (n + 1)
          · rw [if_pos hc2, if_pos (by omega)]
          · rw [if_neg hc2, if_neg (by omega)]
      · rename_i x hx
        obtain ⟨a, b⟩ := ih (i0 + 1)
          { ins with
            inputs := ins.inputs.set i0
              { x with is_readable := (rev i0).pollin || (rev i0).pollhup,
                       is_near_eof := (rev i0).pollhup }
            num_readable := if ((rev i0).pollin || (rev i0).pollhup) = true
              then ins.num_readable + 1 else ins.num_readable }
          outs
        have hi : i0 < ins.inputs.length := (List.getElem?_eq_some_iff.mp hx).1
        constructor
        · intro j
          rw [a j]
          by_cases hj : j = i0
          · subst hj
            have hset := List.getElem?_set_self hi
              (a := ({ x with is_readable := (rev j).pollin || (rev j).pollhup,
                              is_near_eof := (rev j).pollhup } : Input))
            rw [if_neg (by omega : ¬ (j + 1 ≤ j ∧ j < j + 1 + n ∧ j < P)),
              if_pos (⟨le_refl _, by omega, hc⟩ : j ≤ j ∧ j < j + (n + 1) ∧ j < P)]
            simp only [hset, hx, Option.map_some']
          · simp only [List.getElem?_set_ne (Ne.symm hj)]
            by_cases hc2 : i0 ≤ j ∧ j < i0 + (n + 1) ∧ j < P
            · rw [if_pos hc2, if_pos (by omega)]
            · rw [if_neg hc2, if_neg (by omega)]
        · intro k
          rw [b k]
          by_cases hc2 : i0 ≤ P + k ∧ P + k < i0 + (n + 1)
          · rw [if_pos hc2, if_pos (by omega)]
          · rw [if_neg hc2, if_neg (by omega)]
    · rw [if_neg c]
      have hc : P ≤ i0 := by omega
      have hk0 : ((i0 : Int) - (P : Int)).toNat = i0 - P := by omega
      rw [hk0]
      split
      · rename_i hnone
        obtain ⟨a, b⟩ := ih (i0 + 1) ins outs
        constructor
        · intro j
          rw [a j, if_neg (by omega), if_neg (by omega)]
        · intro k
          rw [b k]
          by_cases hk : k = i0 - P
          · subst hk
            rw [if_neg (by omega), if_pos (by omega), hnone]
            rfl
          · by_cases hc2 : i0 ≤ P + k ∧ P + k < i0 + (n + 1)
            · rw [if_pos hc2, if_pos (by omega)]
            · rw [if_neg hc2, if_neg (by omega)]
      · rename_i y hy
        obtain ⟨a, b⟩ := ih (i0 + 1) ins
          { outs with
            outputs := outs.outputs.set (i0 - P)
              { y with is_writable := !y.is_busy || ((rev i0).pollout || (rev i0).pollhup) }
            num_writable := if (!y.is_busy || ((rev i0).pollout || (rev i0).pollhup)) = true
              then outs.num_writable + 1 else outs.num_writable }
        have hi : i0 - P < outs.outputs.length := (List.getElem?_eq_some_iff.mp hy).1
        constructor
        · intro j
          rw [a j, if_neg (by omega), if_neg (by omega)]
        · intro k
          rw [b k]
          by_cases hk : k = i0 - P
          · subst hk
            have hset := List.getElem?_set_self hi
              (a := ({ y with is_writable :=
                !y.is_busy || ((rev i0).pollout || (rev i0).pollhup) } : Output))
            have e0 : P + (i0 - P) = i0 := by omega
            rw [if_neg (by omega : ¬ (i0 + 1 ≤ P + (i0 - P) ∧ P + (i0 - P) < i0 + 1 + n)),
              if_pos (by omega : i0 ≤ P + (i0 - P) ∧ P + (i0 - P) < i0 + (n + 1))]
            simp only [hset, hy, Option.map_some', e0]
          · simp only [List.getElem?_set_ne (Ne.symm hk)]
            by_cases hc2 : i0 ≤ P + k ∧ P + k < i0 + (n + 1)
            · rw [if_pos hc2, if_pos (by omega)]
            · rw [if_neg hc2, if_neg (by omega)]

theorem poller_polled (ne : Int) (rev : Nat → Events) (st : PollStatic)
    (ins : Inputs) (outs : Outputs) (hc : counters_ok ins outs)
    (hs : st.fds_is_null = true ∨ st.num_inputs_outputs = ins.num_inputs + outs.num_outputs)
    (hne : 0 < ne)
    (hlog : (records_are_flowing_between ne rev st ins outs).log ≠ []) :
    ∃ (P Q : Nat), (P : Int) = ins.num_inputs - ins.num_closed ∧
      (Q : Int) = outs.num_outputs - outs.num_closed ∧
      ¬ (ins.num_closed = ins.num_inputs ∧ ins.num_buffered = 0 ∧ outs.num_busy = 0) ∧
      (records_are_flowing_between ne rev st ins outs).ret = 1 ∧
      (records_are_flowing_between ne rev st ins outs).inputs =
        (update_readiness rev P (P + Q) 0
          { (move_closed_inputs_outputs_to_the_end ins outs).1 with num_readable := 0 }
          { (move_closed_inputs_outputs_to_the_end ins outs).2 with num_writable := 0 }).1 ∧
      (records_are_flowing_between ne rev st ins outs).outputs =
        (update_readiness rev P (P + Q) 0
          { (move_closed_inputs_outputs_to_the_end ins outs).1 with num_readable := 0 }
          { (move_closed_inputs_outputs_to_the_end ins outs).2 with num_writable := 0 }).2 ∧
      (records_are_flowing_between ne rev st ins outs).log.head? =
        some (Syscall.poll
          ((List.range (P + Q)).map
            (poll_entry (move_closed_inputs_outputs_to_the_end ins outs).1
              (move_closed_inputs_outputs_to_the_end ins outs).2 P)) ne) := by
  obtain ⟨m1, _, _, m4, _⟩ := move_closed_inputs_outputs_frame ins outs
  obtain ⟨k1, k2⟩ := move_closed_inputs_outputs_inv _ _ (length_inputs_stable _)
    (length_outputs_stable _) ins outs rfl rfl
  have hst : (allocate_fds st ins outs).num_inputs_outputs = ins.num_inputs + outs.num_outputs := by
    unfold allocate_fds
    split_ifs with c
    · rfl
    · rcases hs with h | h
      · exact absurd h c
      · exact h
  obtain ⟨c1, _, c3, _⟩ := hc
  have b1 := count_flag_le_length Input.is_closed ins.inputs
  have b2 := count_flag_le_length Output.is_closed outs.outputs
  have hni : ins.num_inputs = (ins.inputs.length : Int) := rfl
  have hno : outs.num_outputs = (outs.outputs.length : Int) := rfl
  have hP : (((ins.num_inputs - ins.num_closed).toNat : Nat) : Int) =
      ins.num_inputs - ins.num_closed := by omega
  have hQ : (((outs.num_outputs - outs.num_closed).toNat : Nat) : Int) =
      outs.num_outputs - outs.num_closed := by omega
  refine ⟨(ins.num_inputs - ins.num_closed).toNat, (outs.num_outputs - outs.num_closed).toNat,
    hP, hQ, ?_⟩
  unfold records_are_flowing_between at hlog ⊢
  simp only [] at hlog ⊢
  split_ifs at hlog ⊢ with d1 d2
  · exact absurd rfl hlog
  · exact absurd rfl hlog
  · have e1 : (move_closed_inputs_outputs_to_the_end ins outs).1.num_inputs -
        (move_closed_inputs_outputs_to_the_end ins outs).1.num_closed =
        (((ins.num_inputs - ins.num_closed).toNat : Nat) : Int) := by
      rw [hP, m1]
      unfold Inputs.num_inputs
      rw [k1]
    have e2 : ((allocate_fds st ins outs).num_inputs_outputs -
        (move_closed_inputs_outputs_to_the_end ins outs).1.num_closed -
        (move_closed_inputs_outputs_to_the_end ins outs).2.num_closed).toNat =
        (ins.num_inputs - ins.num_closed).toNat + (outs.num_outputs - outs.num_closed).toNat := by
      rw [hst, m1, m4]
      omega
    unfold handle_events
    simp only [e1, e2, if_neg (not_lt.mpr (le_of_lt hne)), if_pos hne]
    exact ⟨d1, trivial, trivial, trivial, rfl⟩

theorem count_flag_all_false {α : Type} (q : α → Bool) (l : List α)
    (h : ∀ b ∈ l, q b = false) : count_flag q l = 0 := by
  induction l with
  | nil => rfl
  | cons a rest ih =>
    rw [count_flag_cons, ih (fun b hb => h b (List.mem_cons_of_mem _ hb)),
      h a (List.mem_cons_self _ _)]
    rfl

theorem count_open_flag {α : Type} (is_closed p : α → Bool) (l : List α) (c : Nat)
    (h : partitioned is_closed l (c : Int)) :
    count_flag (fun a => !is_closed a && p a) l = count_flag p (l.take c) := by
  induction l generalizing c with
  | nil => simp [count_flag]
  | cons a rest ih =>
    cases c with
    | zero =>
      have hall : ∀ b ∈ a :: rest, (fun a => !is_closed a && p a) b = false := by
        intro b hb
        obtain ⟨k, hk, hkb⟩ := List.getElem_of_mem hb
        have := (h k b (by rw [List.getElem?_eq_getElem hk, hkb])).mpr (by simp)
        simp [this]
      rw [List.take_zero]
      have := count_flag_all_false (fun a => !is_closed a && p a) (a :: rest) hall
      rw [this]
      rfl
    | succ c =>
      have ha : is_closed a = false := by
        by_contra hne
        have := (h 0 a (by simp)).mp (by simpa using hne)
        push_cast at this
        omega
      have := ih c (fun k b hk => by
        have := h (k + 1) b (by simpa using hk)
        push_cast at this
        constructor
        · intro hb; have := this.mp hb; omega
        · intro hb; exact this.mpr (by omega))
      rw [List.take_succ_cons, count_flag_cons, count_flag_cons, this, ha]
      rfl

theorem poller_readiness (ne : Int) (rev : Nat → Events) (st : PollStatic)
    (ins : Inputs) (outs : Outputs) (hc : counters_ok ins outs)
    (hp : partition_ok ins outs)
    (hs : st.fds_is_null = true ∨ st.num_inputs_outputs = ins.num_inputs + outs.num_outputs)
    (hne : 0 < ne)
    (hlog : (records_are_flowing_between ne rev st ins outs).log ≠ []) :
    (records_are_flowing_between ne rev st ins outs).ret = 1 ∧
    (∀ (i : Nat) (x : Input),
      (records_are_flowing_between ne rev st ins outs).inputs.inputs[i]? = some x →
      x.is_closed = false →
      x.is_readable = ((rev i).pollin || (rev i).pollhup) ∧
      x.is_near_eof = (rev i).pollhup) ∧
    (∀ (k : Nat) (y : Output),
      (records_are_flowing_between ne rev st ins outs).outputs.outputs[k]? = some y →
      y.is_closed = false →
      y.is_writable = (!y.is_busy ||
        ((rev ((ins.num_inputs - ins.num_closed).toNat + k)).pollout ||
          (rev ((ins.num_inputs - ins.num_closed).toNat + k)).pollhup))) ∧
    (∃ fds : List PollFd,
      (records_are_flowing_between ne rev st ins outs).log.head? =
        some (Syscall.poll fds ne) ∧
      (fds.length : Int) =
        (ins.num_inputs - ins.num_closed) + (outs.num_outputs - outs.num_closed) ∧
      (∀ (i : Nat) (x : Input),
        (records_are_flowing_between ne rev st ins outs).inputs.inputs[i]? = some x →
        x.is_closed = false →
        fds[i]? = some { fd := x.fd, events := ⟨true, false, false⟩ }) ∧
      (∀ (k : Nat) (y : Output),
        (records_are_flowing_between ne rev st ins outs).outputs.outputs[k]? = some y →
        y.is_closed = false →
        fds[(ins.num_inputs - ins.num_closed).toNat + k]? =
          some { fd := y.fd, events := ⟨false, y.is_busy, false⟩ })) ∧
    (records_are_flowing_between ne rev st ins outs).inputs.num_readable =
      count_flag (fun x => !x.is_closed && x.is_readable)
        (records_are_flowing_between ne rev st ins outs).inputs.inputs ∧
    (records_are_flowing_between ne rev st ins outs).outputs.num_writable =
      count_flag (fun y => !y.is_closed && y.is_writable)
        (records_are_flowing_between ne rev st ins outs).outputs.outputs := by
  obtain ⟨P, Q, hP, hQ, hpred, hret, hin, hout, hhead⟩ :=
    poller_polled ne rev st ins outs hc hs hne hlog
  obtain ⟨pi, po⟩ := (records_are_flowing_between_partition ne rev st ins outs hc hp).2 hpred
  obtain ⟨gi, go⟩ := update_readiness_getElem rev P (P + Q) 0
    { (move_closed_inputs_outputs_to_the_end ins outs).1 with num_readable := 0 }
    { (move_closed_inputs_outputs_to_the_end ins outs).2 with num_writable := 0 }
  have hPn : (ins.num_inputs - ins.num_closed).toNat = P := by omega
  have hQn : (outs.num_outputs - outs.num_closed).toNat = Q := by omega
  rw [hPn]
  have inputs_at : ∀ (i : Nat) (x : Input),
      (records_are_flowing_between ne rev st ins outs).inputs.inputs[i]? = some x →
      x.is_closed = false →
      i < P ∧ ∃ x0, (move_closed_inputs_outputs_to_the_end ins outs).1.inputs[i]? = some x0 ∧
        x = { x0 with is_readable := (rev i).pollin || (rev i).pollhup,
                      is_near_eof := (rev i).pollhup } := by
    intro i x hx hopen
    have hiP : i < P := by
      have := (pi i x hx).mpr
      by_contra hge
      rw [this (by omega)] at hopen
      cases hopen
    refine ⟨hiP, ?_⟩
    rw [hin, gi i, if_pos ⟨by omega, by omega, hiP⟩] at hx
    obtain ⟨x0, h0, h1⟩ := Option.map_eq_some'.mp hx
    exact ⟨x0, h0, h1.symm⟩
  have outputs_at : ∀ (k : Nat) (y : Output),
      (records_are_flowing_between ne rev st ins outs).outputs.outputs[k]? = some y →
      y.is_closed = false →
      k < Q ∧ ∃ y0, (move_closed_inputs_outputs_to_the_end ins outs).2.outputs[k]? = some y0 ∧
        y = { y0 with is_writable :=
          !y0.is_busy || ((rev (P + k)).pollout || (rev (P + k)).pollhup) } := by
    intro k y hy hopen
    have hkQ : k < Q := by
      have := (po k y hy).mpr
      by_contra hge
      rw [this (by omega)] at hopen
      cases hopen
    refine ⟨hkQ, ?_⟩
    rw [hout, go k, if_pos ⟨by omega, by omega⟩] at hy
    obtain ⟨y0, h0, h1⟩ := Option.map_eq_some'.mp hy
    exact ⟨y0, h0, h1.symm⟩
  refine ⟨hret, ?_, ?_, ?_, ?_⟩
  · intro i x hx hopen
    obtain ⟨_, x0, _, h1⟩ := inputs_at i x hx hopen
    rw [h1]
    exact ⟨rfl, rfl⟩
  · intro k y hy hopen
    obtain ⟨_, y0, _, h1⟩ := outputs_at k y hy hopen
    rw [h1]
  · refine ⟨_, hhead, ?_, ?_, ?_⟩
    · rw [List.length_map, List.length_range]
      push_cast
      omega
    · intro i x hx hopen
      obtain ⟨hiP, x0, h0, h1⟩ := inputs_at i x hx hopen
      rw [List.getElem?_map, List.getElem?_range (by omega)]
      simp only [Option.map_some', poll_entry]
      rw [if_pos (by omega), h0, h1]
    · intro k y hy hopen
      obtain ⟨hkQ, y0, h0, h1⟩ := outputs_at k y hy hopen
      rw [List.getElem?_map, List.getElem?_range (by omega)]
      simp only [Option.map_some', poll_entry]
      rw [if_neg (by omega)]
      have : (((P + k : Nat) : Int) - (P : Int)).toNat = k := by omega
      rw [this, h0, h1]
  · obtain ⟨f1, _, f3, _, _⟩ := records_are_flowing_between_frame ne rev st ins outs
    obtain ⟨l1, l2⟩ := records_are_flowing_between_inv _ _ (length_inputs_stable _)
      (length_outputs_stable _) ne rev st ins outs rfl rfl
    obtain ⟨r1, r2⟩ := poller_readiness_counts ne rev st ins outs hc hs (by rw [hret]; decide)
    have n1 : (records_are_flowing_between ne rev st ins outs).inputs.num_inputs =
        ins.num_inputs := by unfold Inputs.num_inputs; rw [l1]
    have n2 : (records_are_flowing_between ne rev st ins outs).outputs.num_outputs =
        outs.num_outputs := by unfold Outputs.num_outputs; rw [l2]
    rw [n1, f1, hPn] at r1
    rw [n2, f3, hQn] at r2
    rw [← hP] at pi
    rw [← hQ] at po
    rw [count_open_flag Input.is_closed Input.is_readable _ P pi,
      count_open_flag Output.is_closed Output.is_writable _ Q po]
    exact ⟨r1, r2⟩

/-- C14. Readiness update. In every reachable state, when the poller makes the readiness
call and it reports `events > 0`, the poller returns 1 and afterwards: every open input has
`is_readable` equal to "`POLLIN` or `POLLHUP` is in the `revents` of its entry" and
`is_near_eof` equal to "`POLLHUP` is in them"; every open output has `is_writable` equal to
"it is not busy, or `POLLOUT` or `POLLHUP` is in the `revents` of its entry"; the entry of
the input at index `i` is `fds[i]`, requesting `POLLIN`, the entry of the output at index `k`
is `fds[P + k]` with `P` the number of open inputs, requesting `POLLOUT` exactly when the
output is busy, and `fds` has one entry for each open endpoint; `inputs.num_readable` and
`outputs.num_writable` are the numbers of open endpoints with `is_readable`, `is_writable`
set. -/
theorem readiness_update (cap : Nat) (ins outs : List (Int × String)) (m : Machine)
    (os : Oracle) (h : Reachable cap ins outs m) (hne : 0 < os.num_events)
    (hlog : (records_are_flowing_between os.num_events os.revents m.statics m.inputs
      m.outputs).log ≠ []) :
    (records_are_flowing_between os.num_events os.revents m.statics m.inputs m.outputs).ret
      = 1 ∧
    (∀ (i : Nat) (x : Input),
      (records_are_flowing_between os.num_events os.revents m.statics m.inputs
        m.outputs).inputs.inputs[i]? = some x →
      x.is_closed = false →
      x.is_readable = ((os.revents i).pollin || (os.revents i).pollhup) ∧
      x.is_near_eof = (os.revents i).pollhup) ∧
    (∀ (k : Nat) (y : Output),
      (records_are_flowing_between os.num_events os.revents m.statics m.inputs
        m.outputs).outputs.outputs[k]? = some y →
      y.is_closed = false →
      y.is_writable = (!y.is_busy ||
        ((os.revents ((m.inputs.num_inputs - m.inputs.num_closed).toNat + k)).pollout ||
          (os.revents ((m.inputs.num_inputs - m.inputs.num_closed).toNat + k)).pollhup))) ∧
    (∃ fds : List PollFd,
      (records_are_flowing_between os.num_events os.revents m.statics m.inputs
        m.outputs).log.head? = some (Syscall.poll fds os.num_events) ∧
      (fds.length : Int) =
        (m.inputs.num_inputs - m.inputs.num_closed) +
          (m.outputs.num_outputs - m.outputs.num_closed) ∧
      (∀ (i : Nat) (x : Input),
        (records_are_flowing_between os.num_events os.revents m.statics m.inputs
          m.outputs).inputs.inputs[i]? = some x →
        x.is_closed = false →
        fds[i]? = some { fd := x.fd, events := ⟨true, false, false⟩ }) ∧
      (∀ (k : Nat) (y : Output),
        (records_are_flowing_between os.num_events os.revents m.statics m.inputs
          m.outputs).outputs.outputs[k]? = some y →
        y.is_closed = false →
        fds[(m.inputs.num_inputs - m.inputs.num_closed).toNat + k]? =
          some { fd := y.fd, events := ⟨false, y.is_busy, false⟩ })) ∧
    (records_are_flowing_between os.num_events os.revents m.statics m.inputs
        m.outputs).inputs.num_readable =
      count_flag (fun x => !x.is_closed && x.is_readable)
        (records_are_flowing_between os.num_events os.revents m.statics m.inputs
          m.outputs).inputs.inputs ∧
    (records_are_flowing_between os.num_events os.revents m.statics m.inputs
        m.outputs).outputs.num_writable =
      count_flag (fun y => !y.is_closed && y.is_writable)
        (records_are_flowing_between os.num_events os.revents m.statics m.inputs
          m.outputs).outputs.outputs := by
  have hc := reachable_counters cap ins outs m h
  have hp := reachable_partition cap ins outs m h
  obtain ⟨answers, rfl⟩ := h
  obtain ⟨l1, l2, hs⟩ := run_length_statics answers
    (start (fresh_inputs cap ins) (fresh_outputs cap outs)) _ rfl (Or.inl rfl)
  apply poller_readiness _ _ _ _ _ hc hp _ hne hlog
  unfold Inputs.num_inputs Outputs.num_outputs at hs ⊢
  rw [l1, l2]
  exact hs

/-- The theorem `readiness_update` at the start of the loop with one input and one output,
when `poll` reports `POLLIN`: the poller returns 1. -/
theorem readiness_update_witness :
    0 < all_pollin.num_events ∧
    (records_are_flowing_between all_pollin.num_events all_pollin.revents one_to_one.statics
      one_to_one.inputs one_to_one.outputs).log ≠ [] ∧
    (records_are_flowing_between all_pollin.num_events all_pollin.revents one_to_one.statics
      one_to_one.inputs one_to_one.outputs).ret = 1 :=
  ⟨by decide, by decide,
   (readiness_update 4 [(3, "in")] [(4, "out")] one_to_one all_pollin ⟨[], rfl⟩
      (by decide) (by decide)).1⟩

/-! ## Closed outputs stay busy -/

theorem closed_writes_fail_spec (os : Oracle) (m : Machine)
    (h : closed_writes_fail os m = true)
    (hs : m.stage = Stage.writer ∨ m.stage = Stage.writer_after_exchange)
    (i : Nat) (y : Output) (hy : m.outputs.outputs[i]? = some y) (hc : y.is_closed = true) :
    os.wr i = WriteResult.error := by
  unfold closed_writes_fail at h
  have hs2 : (decide (m.stage = Stage.writer) ||
      decide (m.stage = Stage.writer_after_exchange)) = true := by
    rcases hs with hs | hs <;> simp [hs]
  rw [hs2] at h
  simp only [Bool.not_true, Bool.false_or, List.all_eq_true] at h
  have := h (i, y) (List.mk_mem_enum_iff_getElem?.mpr hy)
  simpa [hc] using this

theorem write_to_output_closed_busy (w : WriteResult) (y : Output) (nc nb : Int)
    (hcb : y.is_closed = true → y.is_busy = true)
    (hsz : y.is_busy = true → 0 < y.buffer.size)
    (hw : y.is_closed = true → w = WriteResult.error) :
    (write_to_output w y nc nb).output.is_closed = true →
      (write_to_output w y nc nb).output.is_busy = true := by
  unfold write_to_output
  simp only []
  by_cases c1 : (!y.is_busy) = true
  · rw [if_pos c1]; exact hcb
  · rw [if_neg c1]
    have hb : y.is_busy = true := by simpa using c1
    by_cases c2 : (!y.is_writable) = true
    · rw [if_pos c2]; exact hcb
    · rw [if_neg c2]
      by_cases c3 : y.buffer.size ≤ 0
      · have := hsz hb
        omega
      · rw [if_neg c3]
        by_cases c4 : (sys_write w y.buffer.size).1 ≥ 0
        · rw [if_pos c4]
          intro hc
          have hc2 : y.is_closed = true := hc
          rw [hw hc2] at c4
          simp [sys_write] at c4
        · rw [if_neg c4]
          by_cases c5 : (sys_write w y.buffer.size).2 = true
          · rw [if_pos c5]
            intro hc
            have hc2 : y.is_closed = true := hc
            rw [hw hc2] at c5
            simp [sys_write] at c5
          · rw [if_neg c5]
            intro _
            exact hb

theorem write_to_output_num_closed (w : WriteResult) (y : Output) (nc nb : Int) :
    nc ≤ (write_to_output w y nc nb).num_closed := by
  unfold write_to_output
  simp only []
  split_ifs
  all_goals first
    | exact le_refl _
    | (show nc ≤ (SET_FLAG _ _ _).2
       rw [SET_FLAG_snd]
       have h1 : flag_value y.is_closed ≤ 1 := by cases y.is_closed <;> decide
       have h2 : flag_value true = 1 := rfl
       omega)

theorem write_outputs_num_closed (wr : Nat → WriteResult) (i0 : Nat) (l : List Output)
    (nc nb : Int) : nc ≤ (write_outputs wr i0 l nc nb).num_closed := by
  induction l generalizing i0 nc nb with
  | nil => exact le_refl _
  | cons a rest ih =>
    simp only [write_outputs]
    exact le_trans (write_to_output_num_closed (wr i0) a nc nb) (ih _ _ _)

theorem step_num_closed (os : Oracle) (m : Machine) :
    m.outputs.num_closed ≤ (step os m).outputs.num_closed := by
  have writer : m.outputs.num_closed ≤ (write_to_available os.wr m.outputs).2.1.num_closed := by
    unfold write_to_available
    split_ifs
    · exact write_outputs_num_closed _ _ _ _ _
    · exact le_refl _
  unfold step
  split
  · exact le_of_eq (records_are_flowing_between_frame _ _ _ _ _).2.2.1.symm
  · exact writer
  · exact le_refl _
  · exact le_of_eq
      (exchange_inputs_counts m.inputs.inputs 0 m.inputs.num_buffered m.outputs).2.2.2.1.symm
  · exact writer
  · exact le_refl _

theorem run_num_closed (answers : List Oracle) (m : Machine) :
    m.outputs.num_closed ≤ (run answers m).outputs.num_closed := by
  induction answers generalizing m with
  | nil => exact le_refl _
  | cons os rest ih => exact le_trans (step_num_closed os m) (ih _)

theorem count_flag_mono {α : Type} (p q : α → Bool) (l : List α)
    (h : ∀ a ∈ l, p a = true → q a = true) : count_flag p l ≤ count_flag q l := by
  induction l with
  | nil => exact le_refl _
  | cons a rest ih =>
    rw [count_flag_cons, count_flag_cons]
    have h1 := ih (fun b hb => h b (List.mem_cons_of_mem _ hb))
    have h2 := h a (List.mem_cons_self _ _)
    have h3 : flag_value (p a) ≤ flag_value (q a) := by
      unfold flag_value
      cases hp : p a
      · simp only [Bool.false_eq_true, if_false]
        split_ifs <;> omega
      · rw [h2 hp]
    omega

theorem trivial_inputs_stable : InputsStable (fun _ => True) :=
  ⟨fun _ _ _ _ _ _ _ => trivial, fun _ _ _ _ _ _ _ _ _ => trivial⟩

theorem step_closed_busy (os : Oracle) (m : Machine) (hok : machine_ok m)
    (hcb : ∀ y ∈ m.outputs.outputs, y.is_closed = true → y.is_busy = true)
    (hreal : closed_writes_fail os m = true) :
    ∀ y ∈ (step os m).outputs.outputs, y.is_closed = true → y.is_busy = true := by
  have writer : (m.stage = Stage.writer ∨ m.stage = Stage.writer_after_exchange) →
      ∀ y ∈ (write_to_available os.wr m.outputs).2.1.outputs,
        y.is_closed = true → y.is_busy = true := by
    intro hs
    unfold write_to_available
    split_ifs
    · intro y hy
      obtain ⟨j, hj, hjy⟩ := List.getElem_of_mem hy
      have hj2 : (write_outputs os.wr 0 m.outputs.outputs m.outputs.num_closed
          m.outputs.num_busy).outputs[j]? = some y := by
        rw [List.getElem?_eq_getElem hj, hjy]
      rw [write_outputs_getElem] at hj2
      obtain ⟨y0, h0, h1⟩ := Option.map_eq_some'.mp hj2
      rw [← h1]
      rw [Nat.zero_add]
      exact write_to_output_closed_busy (os.wr j) y0 0 0
        (hcb y0 (List.getElem?_mem h0))
        (fun hb => ((hok.2 y0 (List.getElem?_mem h0)).2.2.2.2).mp hb)
        (fun hc => closed_writes_fail_spec os m hreal hs j y0 h0 hc)
    · exact hcb
  unfold step
  split
  · exact (records_are_flowing_between_inv _ _ trivial_inputs_stable
      (forall_outputs_stable (fun y => y.is_closed = true → y.is_busy = true)
        (fun _ _ h => h))
      os.num_events os.revents m.statics m.inputs m.outputs trivial hcb).2
  · rename_i hs; exact writer (Or.inl hs)
  · exact hcb
  · exact (exchange_inputs_outputs_inv
      (fun l => ∀ y ∈ l, y.is_closed = true → y.is_busy = true)
      (by
        intro l k y x _ _ _ hq z hz
        rcases List.mem_or_eq_of_mem_set hz with hz | rfl
        · exact hq z hz
        · intro _; rfl)
      m.inputs.inputs 0 m.inputs.num_buffered m.outputs hcb).1
  · rename_i hs; exact writer (Or.inr hs)
  · exact hcb

theorem run_closed_busy (answers : List Oracle) (m : Machine) (hok : machine_ok m)
    (hcb : ∀ y ∈ m.outputs.outputs, y.is_closed = true → y.is_busy = true)
    (hreal : writes_on_closed_fail answers m = true) :
    ∀ y ∈ (run answers m).outputs.outputs, y.is_closed = true → y.is_busy = true := by
  induction answers generalizing m with
  | nil => exact hcb
  | cons os rest ih =>
    simp only [writes_on_closed_fail, Bool.and_eq_true] at hreal
    exact ih _ (step_ok os m hok) (step_closed_busy os m hok hcb hreal.1) hreal.2

/-- C20. Closed outputs stay busy. Take any run from the initial state in which the
operating system answers as a real one does to a write on a descriptor the loop has closed
(the write fails with an error other than `EAGAIN`). In the state the run reaches, every
closed output has `is_busy` set and a non-empty buffer, so
`outputs.num_busy ≥ outputs.num_closed`; an exchange stage in that state hands a buffer only
to outputs that are not closed; and if some output is closed then in every later state of
such a run `outputs.num_busy` is not 0, so the shutdown predicate is false. -/
theorem closed_outputs_stay_busy (cap : Nat) (ins outs : List (Int × String))
    (answers : List Oracle)
    (hreal : writes_on_closed_fail answers
      (start (fresh_inputs cap ins) (fresh_outputs cap outs)) = true) :
    (∀ y ∈ (run answers (start (fresh_inputs cap ins)
        (fresh_outputs cap outs))).outputs.outputs,
      y.is_closed = true → y.is_busy = true ∧ 0 < y.buffer.size) ∧
    (run answers (start (fresh_inputs cap ins) (fresh_outputs cap outs))).outputs.num_closed ≤
      (run answers (start (fresh_inputs cap ins) (fresh_outputs cap outs))).outputs.num_busy ∧
    (∀ (i k : Nat) (y : Output),
      (i, k) ∈ (exchange_buffered_records
        (run answers (start (fresh_inputs cap ins) (fresh_outputs cap outs))).inputs
        (run answers (start (fresh_inputs cap ins) (fresh_outputs cap outs))).outputs).2.2.2 →
      (run answers (start (fresh_inputs cap ins)
        (fresh_outputs cap outs))).outputs.outputs[k]? = some y →
      y.is_closed = false) ∧
    ((∃ y ∈ (run answers (start (fresh_inputs cap ins)
        (fresh_outputs cap outs))).outputs.outputs, y.is_closed = true) →
      ∀ more : List Oracle,
        writes_on_closed_fail more
          (run answers (start (fresh_inputs cap ins) (fresh_outputs cap outs))) = true →
        (run more (run answers (start (fresh_inputs cap ins)
          (fresh_outputs cap outs)))).outputs.num_busy ≠ 0 ∧
        ¬ ((run more (run answers (start (fresh_inputs cap ins)
              (fresh_outputs cap outs)))).inputs.num_closed =
            (run more (run answers (start (fresh_inputs cap ins)
              (fresh_outputs cap outs)))).inputs.num_inputs ∧
          (run more (run answers (start (fresh_inputs cap ins)
              (fresh_outputs cap outs)))).inputs.num_buffered = 0 ∧
          (run more (run answers (start (fresh_inputs cap ins)
              (fresh_outputs cap outs)))).outputs.num_busy = 0)) := by
  have hok0 := start_ok cap ins outs
  have hc0 : counters_ok (start (fresh_inputs cap ins) (fresh_outputs cap outs)).inputs
      (start (fresh_inputs cap ins) (fresh_outputs cap outs)).outputs :=
    reachable_counters cap ins outs _ ⟨[], rfl⟩
  have hcb0 : ∀ y ∈ (start (fresh_inputs cap ins) (fresh_outputs cap outs)).outputs.outputs,
      y.is_closed = true → y.is_busy = true := by
    intro y hy hc
    simp only [start, fresh_outputs, List.mem_map] at hy
    obtain ⟨e, _, rfl⟩ := hy
    cases hc
  have hok := run_ok answers _ hok0
  have hc := run_counters answers _ hc0
  have hcb := run_closed_busy answers _ hok0 hcb0 hreal
  generalize run answers (start (fresh_inputs cap ins) (fresh_outputs cap outs)) = m
    at hok hc hcb ⊢
  refine ⟨?_, ?_, ?_, ?_⟩
  · intro y hy hcl
    exact ⟨hcb y hy hcl, (hok.2 y hy).2.2.2.2.mp (hcb y hy hcl)⟩
  · rw [hc.2.2.1, hc.2.2.2]
    exact count_flag_mono _ _ _ hcb
  · intro i k y hik hy
    obtain ⟨x0, y0, _, _, h0, _, hidle, _⟩ :=
      exchange_inputs_routed m.inputs.inputs 0 m.inputs.num_buffered m.outputs i k hik
    rw [hy] at h0
    have : y = y0 := Option.some.inj h0
    subst this
    cases hcl : y.is_closed
    · rfl
    · rw [hcb y (List.getElem?_mem hy) hcl] at hidle
      cases hidle
  · rintro ⟨y, hy, hcl⟩ more hmore
    have hpos := count_flag_pos_of_mem Output.is_closed m.outputs.outputs y hy hcl
    rw [← hc.2.2.1] at hpos
    have hmono := run_num_closed more m
    have hc2 := run_counters more m hc
    have hcb2 := run_closed_busy more m hok hcb hmore
    have hle := count_flag_mono _ _ _ hcb2
    rw [← hc2.2.2.1, ← hc2.2.2.2] at hle
    have hne : (run more m).outputs.num_busy ≠ 0 := by omega
    exact ⟨hne, fun h => hne h.2.2⟩

/-- The theorem `closed_outputs_stay_busy` at the run with four inputs and three outputs in
which the first output is closed by a failing write and every later write to it fails. -/
theorem closed_outputs_stay_busy_witness :
    writes_on_closed_fail closed_output_answers four_to_three = true ∧
    (run closed_output_answers four_to_three).outputs.num_closed = 1 ∧
    (run closed_output_answers four_to_three).outputs.num_closed ≤
      (run closed_output_answers four_to_three).outputs.num_busy :=
  ⟨by decide, by decide,
   (closed_outputs_stay_busy 4 [(10, "in0"), (11, "in1"), (12, "in2"), (13, "in3")]
      [(20, "out0"), (21, "out1"), (22, "out2")] closed_output_answers (by decide)).2.1⟩

/-! ## Reads stay inside the buffer -/

theorem sys_read_data_after (res : ReadResult) (data : Int → Nat) (off count : Int)
    (hc : 0 ≤ count) (j : Int) (hj : off + count ≤ j) :
    (sys_read res data off count).data j = data j := by
  have hle := sys_read_le res data off count hc
  cases res with
  | data bytes =>
    simp only [sys_read] at hle ⊢
    rw [if_neg (by omega)]
  | eagain => rfl
  | error => rfl

theorem read_attempts_calls_ok (rd : Nat → ReadResult) (n k : Nat) (it : ReadIter)
    (h : ∀ c ∈ it.log, read_call_ok c) :
    ∀ c ∈ (read_attempts rd n k it).log, read_call_ok c := by
  induction n generalizing k it with
  | zero => exact h
  | succ n ih =>
    simp only [read_attempts]
    by_cases c1 : it.input.buffer.capacity - it.input.buffer.size ≤ 0
    · rw [if_pos c1]; exact ih _ _ h
    · rw [if_neg c1]
      have hle := sys_read_le (rd k) it.input.buffer.data
        (it.input.buffer.begin + it.input.buffer.size)
        (it.input.buffer.capacity - it.input.buffer.size) (by omega)
      generalize sys_read (rd k) it.input.buffer.data
        (it.input.buffer.begin + it.input.buffer.size)
        (it.input.buffer.capacity - it.input.buffer.size) = r at hle ⊢
      have h1 : ∀ c ∈ it.log ++ [Syscall.read it.input.fd
          (it.input.buffer.capacity - it.input.buffer.size) r.num_bytes_read r.bytes],
          read_call_ok c := by
        intro c hc
        rcases List.mem_append.mp hc with hc | hc
        · exact h c hc
        · rw [List.mem_singleton.mp hc]
          exact ⟨by omega, hle⟩
      have h2 : ∀ c ∈ (close_input { it with log := it.log ++ [Syscall.read it.input.fd
          (it.input.buffer.capacity - it.input.buffer.size) r.num_bytes_read r.bytes] }).log,
          read_call_ok c := by
        intro c hc
        simp only [close_input] at hc
        rcases List.mem_append.mp hc with hc | hc
        · exact h1 c hc
        · rw [List.mem_singleton.mp hc]
          trivial
      by_cases c2 : r.num_bytes_read < 0
      · rw [if_pos c2]
        by_cases c3 : r.errno_is_EAGAIN = true
        · rw [if_pos c3]; exact h1
        · rw [if_neg c3]; exact h2
      · rw [if_neg c2]
        by_cases c4 : r.num_bytes_read = 0
        · rw [if_pos c4]; exact h2
        · rw [if_neg c4]
          apply ih
          rw [after_read_log]
          exact h1

theorem read_from_input_calls_ok (rd : Nat → ReadResult) (x : Input) (nc nb : Int) :
    ∀ c ∈ (read_from_input rd x nc nb).log, read_call_ok c := by
  have h0 : ∀ c ∈ ([] : List Syscall), read_call_ok c := by
    intro c hc; cases hc
  unfold read_from_input
  simp only []
  split_ifs
  · exact h0
  · exact h0
  · exact h0
  · exact read_attempts_calls_ok _ _ _ _ h0
  · exact read_attempts_calls_ok _ _ _ _ h0

theorem read_inputs_calls_ok (rd : Nat → Nat → ReadResult) (i : Nat) (l : List Input)
    (nc nb : Int) : ∀ c ∈ (read_inputs rd i l nc nb).log, read_call_ok c := by
  induction l generalizing i nc nb with
  | nil => intro c hc; simp [read_inputs] at hc
  | cons a rest ih =>
    simp only [read_inputs]
    intro c hc
    rcases List.mem_append.mp hc with hc | hc
    · exact read_from_input_calls_ok _ _ _ _ c hc
    · exact ih _ _ _ c hc

theorem read_from_available_calls_ok (rd : Nat → Nat → ReadResult) (ins : Inputs) :
    ∀ c ∈ (read_from_available rd ins).2.2, read_call_ok c := by
  unfold read_from_available
  split_ifs
  · exact read_inputs_calls_ok _ _ _ _ _
  · intro c hc; cases hc

theorem read_pass (rd : Nat → ReadResult) (n k : Nat) (it : ReadIter) (h : read_iter_ok it) :
    it.input.buffer.begin = 0 ∧ 0 ≤ it.input.buffer.size ∧
    it.input.buffer.size ≤ it.input.buffer.capacity ∧
    (it.input.buffer.size = it.input.buffer.capacity →
      read_attempts rd (n + 1) k it = read_attempts rd n (k + 1) it) ∧
    (it.input.buffer.size < it.input.buffer.capacity →
      1 ≤ it.input.buffer.capacity - it.input.buffer.size ∧
      it.input.buffer.begin + it.input.buffer.size +
        (it.input.buffer.capacity - it.input.buffer.size) = it.input.buffer.capacity ∧
      (sys_read (rd k) it.input.buffer.data (it.input.buffer.begin + it.input.buffer.size)
        (it.input.buffer.capacity - it.input.buffer.size)).num_bytes_read ≤
          it.input.buffer.capacity - it.input.buffer.size ∧
      (∀ j : Int, j < it.input.buffer.size ∨ it.input.buffer.capacity ≤ j →
        (sys_read (rd k) it.input.buffer.data (it.input.buffer.begin + it.input.buffer.size)
          (it.input.buffer.capacity - it.input.buffer.size)).data j =
            it.input.buffer.data j) ∧
      (∃ rest, (read_attempts rd (n + 1) k it).log = it.log ++
        Syscall.read it.input.fd (it.input.buffer.capacity - it.input.buffer.size)
          (sys_read (rd k) it.input.buffer.data
            (it.input.buffer.begin + it.input.buffer.size)
            (it.input.buffer.capacity - it.input.buffer.size)).num_bytes_read
          (sys_read (rd k) it.input.buffer.data
            (it.input.buffer.begin + it.input.buffer.size)
            (it.input.buffer.capacity - it.input.buffer.size)).bytes :: rest) ∧
      (0 < (sys_read (rd k) it.input.buffer.data
          (it.input.buffer.begin + it.input.buffer.size)
          (it.input.buffer.capacity - it.input.buffer.size)).num_bytes_read →
        read_attempts rd (n + 1) k it =
          read_attempts rd n (k + 1)
            (after_read
              (sys_read (rd k) it.input.buffer.data
                (it.input.buffer.begin + it.input.buffer.size)
                (it.input.buffer.capacity - it.input.buffer.size))
              { it with log := it.log ++
                [Syscall.read it.input.fd (it.input.buffer.capacity - it.input.buffer.size)
                  (sys_read (rd k) it.input.buffer.data
                    (it.input.buffer.begin + it.input.buffer.size)
                    (it.input.buffer.capacity - it.input.buffer.size)).num_bytes_read
                  (sys_read (rd k) it.input.buffer.data
                    (it.input.buffer.begin + it.input.buffer.size)
                    (it.input.buffer.capacity - it.input.buffer.size)).bytes] }) ∧
        read_iter_ok
          (after_read
            (sys_read (rd k) it.input.buffer.data
              (it.input.buffer.begin + it.input.buffer.size)
              (it.input.buffer.capacity - it.input.buffer.size))
            { it with log := it.log ++
              [Syscall.read it.input.fd (it.input.buffer.capacity - it.input.buffer.size)
                (sys_read (rd k) it.input.buffer.data
                  (it.input.buffer.begin + it.input.buffer.size)
                  (it.input.buffer.capacity - it.input.buffer.size)).num_bytes_read
                (sys_read (rd k) it.input.buffer.data
                  (it.input.buffer.begin + it.input.buffer.size)
                  (it.input.buffer.capacity - it.input.buffer.size)).bytes] }))) := by
  obtain ⟨⟨hb, hs, hcap, hrec, hbuf⟩, hscan1, hscan2⟩ := id h
  refine ⟨hb, hs, hcap, ?_, ?_⟩
  · intro hfull
    simp only [read_attempts]
    rw [if_pos (by omega)]
  · intro hroom
    have hle := sys_read_le (rd k) it.input.buffer.data
      (it.input.buffer.begin + it.input.buffer.size)
      (it.input.buffer.capacity - it.input.buffer.size) (by omega)
    refine ⟨by omega, by omega, hle, ?_, ?_, ?_⟩
    · rintro j (hj | hj)
      · exact sys_read_data_before _ _ _ _ j (by omega)
      · exact sys_read_data_after _ _ _ _ (by omega) j (by omega)
    · obtain ⟨rest, hrest⟩ := read_attempts_log_prefix rd (n + 1) k it
      simp only [read_attempts] at hrest ⊢
      rw [if_neg (by omega)] at hrest ⊢
      generalize sys_read (rd k) it.input.buffer.data
        (it.input.buffer.begin + it.input.buffer.size)
        (it.input.buffer.capacity - it.input.buffer.size) = r at hrest ⊢
      by_cases c2 : r.num_bytes_read < 0
      · rw [if_pos c2]
        by_cases c3 : r.errno_is_EAGAIN = true
        · rw [if_pos c3]; exact ⟨[], rfl⟩
        · rw [if_neg c3]
          exact ⟨_, by simp only [close_input, List.append_assoc]; rfl⟩
      · rw [if_neg c2]
        by_cases c4 : r.num_bytes_read = 0
        · rw [if_pos c4]
          exact ⟨_, by simp only [close_input, List.append_assoc]; rfl⟩
        · rw [if_neg c4]
          obtain ⟨rest2, hrest2⟩ := read_attempts_log_prefix rd n (k + 1)
            (after_read r { it with log := it.log ++
              [Syscall.read it.input.fd (it.input.buffer.capacity - it.input.buffer.size)
                r.num_bytes_read r.bytes] })
          rw [hrest2, after_read_log]
          exact ⟨_, by simp only [List.append_assoc]; rfl⟩
    · intro hpos
      constructor
      · simp only [read_attempts]
        rw [if_neg (by omega), if_neg (by omega), if_neg (by omega)]
      · exact after_read_ok _ _ (show read_iter_ok _ from h) hpos hle
          (fun j hj => sys_read_data_before _ _ _ _ j hj)

/-- C21. Reads stay inside the buffer. In every reachable state every input buffer has
`begin = 0` and `0 ≤ size ≤ capacity`, and every `read` of a reader stage started there asks
for at least one byte and returns at most what it asked for. In detail, the reader starts
its passes on an input of a reachable state in a state that satisfies `read_iter_ok`
(`begin = 0`, `0 ≤ size ≤ capacity`, among others), and in every pass on such a state:
a full buffer makes the pass skip the read; otherwise the read starts at offset
`begin + size`, asks for `capacity - size ≥ 1` bytes, so it ends exactly at offset
`capacity`, it returns at most that many bytes and leaves every byte of `data` before
offset `size` and from offset `capacity` on as it was; and when it returned bytes, the
state in which the next pass starts satisfies `read_iter_ok` again. -/
theorem reads_stay_inside_the_buffer (cap : Nat) (ins outs : List (Int × String))
    (m : Machine) (h : Reachable cap ins outs m) :
    (∀ x ∈ m.inputs.inputs,
      x.buffer.begin = 0 ∧ 0 ≤ x.buffer.size ∧ x.buffer.size ≤ x.buffer.capacity) ∧
    (∀ (rd : Nat → Nat → ReadResult), ∀ c ∈ (read_from_available rd m.inputs).2.2,
      read_call_ok c) ∧
    (∀ x ∈ m.inputs.inputs, ∀ (nc nb : Int),
      read_iter_ok { input := x, num_closed := nc, num_buffered := nb,
                     scan_end_of_record_down_to := x.buffer.end_of_last_record + 1,
                     log := [] }) ∧
    (∀ (rd : Nat → ReadResult) (n k : Nat) (it : ReadIter), read_iter_ok it →
      it.input.buffer.begin = 0 ∧ 0 ≤ it.input.buffer.size ∧
      it.input.buffer.size ≤ it.input.buffer.capacity ∧
      (it.input.buffer.size = it.input.buffer.capacity →
        read_attempts rd (n + 1) k it = read_attempts rd n (k + 1) it) ∧
      (it.input.buffer.size < it.input.buffer.capacity →
        1 ≤ it.input.buffer.capacity - it.input.buffer.size ∧
        it.input.buffer.begin + it.input.buffer.size +
          (it.input.buffer.capacity - it.input.buffer.size) = it.input.buffer.capacity ∧
        (pass_read (rd k) it).num_bytes_read ≤
          it.input.buffer.capacity - it.input.buffer.size ∧
        (∀ j : Int, j < it.input.buffer.size ∨ it.input.buffer.capacity ≤ j →
          (pass_read (rd k) it).data j = it.input.buffer.data j) ∧
        (∃ rest, (read_attempts rd (n + 1) k it).log = (pass_logged (rd k) it).log ++ rest) ∧
        (0 < (pass_read (rd k) it).num_bytes_read →
          read_attempts rd (n + 1) k it =
            read_attempts rd n (k + 1)
              (after_read (pass_read (rd k) it) (pass_logged (rd k) it)) ∧
          read_iter_ok (after_read (pass_read (rd k) it) (pass_logged (rd k) it))))) := by
  obtain ⟨hi, _⟩ := reachable_ok cap ins outs m h
  refine ⟨?_, fun rd => read_from_available_calls_ok rd m.inputs, ?_, ?_⟩
  · intro x hx
    obtain ⟨a, b, c, _⟩ := hi x hx
    exact ⟨a, b, c⟩
  · intro x hx nc nb
    obtain ⟨hb, hs, _, ⟨he, _⟩, _⟩ := id (hi x hx)
    refine ⟨hi x hx, ?_, ?_⟩
    · show 0 ≤ x.buffer.end_of_last_record + 1
      rcases he with e | e <;> omega
    · show x.buffer.end_of_last_record + 1 ≤ x.buffer.size
      rcases he with e | e <;> omega
  · intro rd n k it hit
    obtain ⟨a, b, c, d, e⟩ := read_pass rd n k it hit
    refine ⟨a, b, c, d, ?_⟩
    intro hroom
    obtain ⟨e1, e2, e3, e4, ⟨rest, e5⟩, e6⟩ := e hroom
    refine ⟨e1, e2, e3, e4, ⟨rest, ?_⟩, e6⟩
    rw [e5]
    simp only [pass_logged, pass_read, List.append_assoc, List.singleton_append]

/-- The theorem `reads_stay_inside_the_buffer` at the state in which the input holds the
record `a\n`. -/
theorem reads_stay_inside_the_buffer_witness :
    one_buffered_input.buffer.begin = 0 ∧ 0 ≤ one_buffered_input.buffer.size ∧
    one_buffered_input.buffer.size ≤ one_buffered_input.buffer.capacity :=
  (reads_stay_inside_the_buffer 4 [(3, "in")] [(4, "out")] one_buffered
    ⟨complete_write_answers.take 3, rfl⟩).1 one_buffered_input (List.get_mem _ _ _)

/-! ## The inner loop of the driver -/

theorem exchange_inputs_none_buffered (l : List Input) (i0 : Nat) (nb : Int) (o : Outputs)
    (h : nb ≤ 0) : (exchange_inputs i0 l nb o).num_exchanges = 0 := by
  cases l with
  | nil => rfl
  | cons a rest =>
    simp only [exchange_inputs]
    rw [if_pos h]

theorem step_exchange (os : Oracle) (m : Machine) (hs : m.stage = Stage.exchange) :
    (step os m).stage =
      (if (exchange_buffered_records m.inputs m.outputs).1 > 0
        then Stage.writer_after_exchange else Stage.poller) ∧
    (step os m).inputs.num_buffered =
      m.inputs.num_buffered - (exchange_buffered_records m.inputs m.outputs).1 ∧
    (m.inputs.num_buffered ≤ 0 → (exchange_buffered_records m.inputs m.outputs).1 = 0) := by
  obtain ⟨a, _, _⟩ := exchange_inputs_num_exchanges m.inputs.inputs 0 m.inputs.num_buffered
    m.outputs
  refine ⟨?_, ?_, ?_⟩
  · unfold step; rw [hs]
  · unfold step; rw [hs]
    show (exchange_inputs 0 m.inputs.inputs m.inputs.num_buffered m.outputs).num_buffered =
      m.inputs.num_buffered -
        (exchange_inputs 0 m.inputs.inputs m.inputs.num_buffered m.outputs).num_exchanges
    omega
  · intro h
    exact exchange_inputs_none_buffered _ _ _ _ h

theorem step_writer_after_exchange (os : Oracle) (m : Machine)
    (hs : m.stage = Stage.writer_after_exchange) :
    (step os m).stage = Stage.exchange ∧ (step os m).inputs = m.inputs := by
  unfold step
  rw [hs]
  exact ⟨rfl, rfl⟩

theorem inner_loop (N : Nat) (m : Machine) (answers : List Oracle)
    (hs : m.stage = Stage.exchange) (hN : m.inputs.num_buffered ≤ N)
    (hlen : 2 * N + 1 ≤ answers.length) :
    ∃ e : Nat, 1 ≤ e ∧ e ≤ N + 1 ∧
      (run (answers.take (2 * e - 1)) m).stage = Stage.poller ∧
      ∀ i < 2 * e - 1, (run (answers.take i) m).stage =
        if i % 2 = 0 then Stage.exchange else Stage.writer_after_exchange := by
  induction N generalizing m answers with
  | zero =>
    cases answers with
    | nil => simp at hlen
    | cons os rest =>
      obtain ⟨s1, _, s3⟩ := step_exchange os m hs
      refine ⟨1, le_refl _, by omega, ?_, ?_⟩
      · show (run [] (step os m)).stage = Stage.poller
        show (step os m).stage = Stage.poller
        rw [s1, s3 (by simpa using hN)]
        rfl
      · intro i hi
        have : i = 0 := by omega
        subst this
        exact hs
  | succ N ih =>
    cases answers with
    | nil => simp at hlen
    | cons os1 rest1 =>
      obtain ⟨s1, s2, _⟩ := step_exchange os1 m hs
      by_cases hk : (exchange_buffered_records m.inputs m.outputs).1 > 0
      · rw [if_pos hk] at s1
        cases rest1 with
        | nil => simp at hlen
        | cons os2 rest2 =>
          obtain ⟨t1, t2⟩ := step_writer_after_exchange os2 (step os1 m) s1
          obtain ⟨e, e1, e2, e3, e4⟩ := ih (step os2 (step os1 m)) rest2 t1
            (by rw [t2, s2]; push_cast at hN ⊢; omega)
            (by simp only [List.length_cons] at hlen; omega)
          refine ⟨e + 1, by omega, by omega, ?_, ?_⟩
          · have : 2 * (e + 1) - 1 = (2 * e - 1) + 1 + 1 := by omega
            rw [this]
            exact e3
          · intro i hi
            cases i with
            | zero => exact hs
            | succ i =>
              cases i with
              | zero => exact s1
              | succ i =>
                have := e4 i (by omega)
                show (run (List.take i rest2) (step os2 (step os1 m))).stage = _
                rw [this]
                have : (i + 1 + 1) % 2 = i % 2 := by omega
                rw [this]
      · rw [if_neg hk] at s1
        refine ⟨1, le_refl _, by omega, ?_, ?_⟩
        · exact s1
        · intro i hi
          have : i = 0 := by omega
          subst this
          exact hs

/-- C22. The inner exchange/write loop of the driver terminates. Let the loop
`while (exchange_buffered_records(...) > 0) write_to_available(...)` be entered in any
state `m` (the exchange stage is next), and let the operating system answer anything. Then
the loop consists of `e` exchange stages alternating with `e - 1` writer stages, after which
the poller is next, and `1 ≤ e ≤ max(inputs.num_buffered, 0) + 1`; so for a counter that is
not negative the loop runs at most `inputs.num_buffered + 1` exchange stages. The reason:
an exchange stage that returns `k` lowers `inputs.num_buffered` by exactly `k`, it returns 0
when `inputs.num_buffered ≤ 0`, the loop goes on only when `k > 0`, and the writer stage
leaves the inputs as they are. -/
theorem inner_loop_terminates (m : Machine) (answers : List Oracle)
    (hs : m.stage = Stage.exchange)
    (hlen : 2 * m.inputs.num_buffered.toNat + 1 ≤ answers.length) :
    (∃ e : Nat, 1 ≤ e ∧ e ≤ m.inputs.num_buffered.toNat + 1 ∧
      (0 ≤ m.inputs.num_buffered → (e : Int) ≤ m.inputs.num_buffered + 1) ∧
      (run (answers.take (2 * e - 1)) m).stage = Stage.poller ∧
      ∀ i < 2 * e - 1, (run (answers.take i) m).stage =
        if i % 2 = 0 then Stage.exchange else Stage.writer_after_exchange) ∧
    (∀ (os : Oracle) (m1 : Machine), m1.stage = Stage.exchange →
      (step os m1).stage =
        (if (exchange_buffered_records m1.inputs m1.outputs).1 > 0
          then Stage.writer_after_exchange else Stage.poller) ∧
      (step os m1).inputs.num_buffered =
        m1.inputs.num_buffered - (exchange_buffered_records m1.inputs m1.outputs).1 ∧
      (m1.inputs.num_buffered ≤ 0 →
        (exchange_buffered_records m1.inputs m1.outputs).1 = 0)) ∧
    (∀ (os : Oracle) (m1 : Machine), m1.stage = Stage.writer_after_exchange →
      (step os m1).stage = Stage.exchange ∧ (step os m1).inputs = m1.inputs) := by
  refine ⟨?_, step_exchange, step_writer_after_exchange⟩
  obtain ⟨e, e1, e2, e3, e4⟩ := inner_loop m.inputs.num_buffered.toNat m answers hs
    (by omega) hlen
  exact ⟨e, e1, e2, fun h0 => by omega, e3, e4⟩

/-- The theorem `inner_loop_terminates` at the state in which one input is buffered: the
loop is left after at most two exchange stages. -/
theorem inner_loop_terminates_witness :
    ∃ e : Nat, 1 ≤ e ∧ e ≤ one_buffered.inputs.num_buffered.toNat + 1 ∧
      (0 ≤ one_buffered.inputs.num_buffered →
        (e : Int) ≤ one_buffered.inputs.num_buffered + 1) ∧
      (run ([quiet, quiet, quiet].take (2 * e - 1)) one_buffered).stage = Stage.poller ∧
      ∀ i < 2 * e - 1, (run ([quiet, quiet, quiet].take i) one_buffered).stage =
        if i % 2 = 0 then Stage.exchange else Stage.writer_after_exchange :=
  (inner_loop_terminates one_buffered [quiet, quiet, quiet] (by decide) (by decide)).1

end Mkmimo
